import Mathlib

/-!
Verification of the connect-k game engine (`common.py`) against its
natural-language specification.

The Python source is shallowly embedded: boards are lists of rows of
natural-number cells (0 = empty, otherwise a player id), columns are
1-based integers (Python `int`), and functions that can raise a Python
exception (out-of-range list indexing, non-termination) return `Option`
results, `none` standing for a raised exception.  Python's negative-index
wrap-around on lists is modelled explicitly by `pyIdx`.
-/

set_option maxRecDepth 4000

abbrev Cell : Type := Nat
abbrev Player : Type := Nat
abbrev Board : Type := List (List Cell)
abbrev Position : Type := Nat × Nat

/-- Number of rows of a board (`num_rows = len(board)`). -/
def num_rows (board : Board) : Nat := board.length

/-- Number of columns of a board (`num_cols = len(board[0])`).
On the empty board this is 0 (Python would raise; all claims assume a
non-empty board). -/
def num_cols (board : Board) : Nat := (board.headD []).length

/-- A board is rectangular: every row has length `num_cols`. -/
def Rect (board : Board) : Prop := ∀ row ∈ board, row.length = num_cols board

instance decRect (board : Board) : Decidable (Rect board) :=
  inferInstanceAs (Decidable (∀ row ∈ board, row.length = num_cols board))

/-- The cell of `board` at 0-based (row, column) position `p`
(0, i.e. empty, when out of range). -/
def cellAt (board : Board) (p : Position) : Cell :=
  (board.getD p.1 []).getD p.2 0

/-- Position `p` lies on the board. -/
def inBoard (board : Board) (p : Position) : Prop :=
  p.1 < num_rows board ∧ p.2 < num_cols board

/-- Python list indexing: resolves an `int` index `i` for a list of length
`len` to an actual offset, `none` when Python would raise `IndexError`.
Negative indices wrap around from the end of the list. -/
def pyIdx (len : Nat) (i : Int) : Option Nat :=
  if 0 ≤ i then (if i < (len : Int) then some i.toNat else none)
  else (if 0 ≤ (len : Int) + i then some ((len : Int) + i).toNat else none)

/-- `get_free_columns(board)`: the 1-based indices of the columns whose top
cell is empty. -/
def get_free_columns (board : Board) : List Int :=
  (board.headD []).enum.filterMap
    (fun ic => if ic.2 = 0 then some ((ic.1 : Int) + 1) else none)

/-- Flushing step of `pieces_in_a_row_from_cells`: the accumulated run is
yielded only if it has length at least 2 and a non-empty owner. -/
def runs_flush (current_player : Cell) (positions : List Position) :
    List (Player × List Position) :=
  if 1 < positions.length ∧ current_player ≠ 0 then [(current_player, positions)] else []

/-- Loop body of `pieces_in_a_row_from_cells`: scans the (position, cell)
stream keeping the current run, flushing it on every change of cell value. -/
def runs_from_cells_aux (current_player : Cell) (positions : List Position) :
    List (Position × Cell) → List (Player × List Position)
  | [] => runs_flush current_player positions
  | (pos, cell) :: rest =>
    if cell = current_player then
      runs_from_cells_aux current_player (positions ++ [pos]) rest
    else
      runs_flush current_player positions ++ runs_from_cells_aux cell [pos] rest

/-- `pieces_in_a_row_from_cells(cells)` from the source: yields the runs of
at least 2 equal consecutive non-empty cells of one line. -/
def runs_from_cells (cells : List (Position × Cell)) : List (Player × List Position) :=
  runs_from_cells_aux 0 [] cells

/-- `board_with_positions` from `pieces_in_a_row`: the board with each cell
paired with its 0-based (row, column) position. -/
def board_with_positions (board : Board) : List (List (Position × Cell)) :=
  board.enum.map (fun ir => ir.2.enum.map (fun jc => ((ir.1, jc.1), jc.2)))

/-- Horizontal lines scanned by `pieces_in_a_row` (each row, left to right). -/
def linesH (board : Board) : List (List (Position × Cell)) :=
  board_with_positions board

/-- Vertical lines scanned by `pieces_in_a_row` (each column, top to bottom). -/
def linesV (board : Board) : List (List (Position × Cell)) :=
  (List.range (num_cols board)).map
    (fun j => (board_with_positions board).map (fun row => row.getD j ((0, 0), 0)))

/-- First family of ↘ diagonals scanned by `pieces_in_a_row`: those starting
in the top row (`board_with_positions[: num_cols - s]`, cell `row[s + offset]`). -/
def linesD1a (board : Board) : List (List (Position × Cell)) :=
  (List.range (num_cols board - 1)).map
    (fun s => ((board_with_positions board).take (num_cols board - s)).enum.map
      (fun or => or.2.getD (s + or.1) ((0, 0), 0)))

/-- Second family of ↘ diagonals: those starting in the first column
(`board_with_positions[r : r + num_cols]`, cell `row[offset]`). -/
def linesD1b (board : Board) : List (List (Position × Cell)) :=
  (List.range' 1 (num_rows board - 2)).map
    (fun r => (((board_with_positions board).drop r).take (num_cols board)).enum.map
      (fun or => or.2.getD or.1 ((0, 0), 0)))

/-- First family of ↗ diagonals: those starting in the bottom row
(`board_with_positions[-1 : -(num_cols - s) - 1 : -1]`, cell `row[s + offset]`). -/
def linesD2a (board : Board) : List (List (Position × Cell)) :=
  (List.range (num_cols board - 1)).map
    (fun s => (((board_with_positions board).reverse).take (num_cols board - s)).enum.map
      (fun or => or.2.getD (s + or.1) ((0, 0), 0)))

/-- Second family of ↗ diagonals: those starting in the first column
(`board_with_positions[r : (None if r - num_cols < 0 else r - num_cols) : -1]`,
cell `row[offset]`). -/
def linesD2b (board : Board) : List (List (Position × Cell)) :=
  (List.range' 1 (num_rows board - 2)).map
    (fun r => ((((board_with_positions board).take (r + 1)).reverse).take (num_cols board)).enum.map
      (fun or => or.2.getD or.1 ((0, 0), 0)))

/-- All the lines scanned by `pieces_in_a_row`, in scan order: rows, then
columns, then the two ↘ loops, then the two ↗ loops. -/
def lineList (board : Board) : List (List (Position × Cell)) :=
  linesH board ++ linesV board ++ linesD1a board ++ linesD1b board ++
    linesD2a board ++ linesD2b board

/-- `pieces_in_a_row(board)`: all maximal runs of at least two equal
non-empty cells in the four scan directions, in generator yield order. -/
def pieces_in_a_row (board : Board) : List (Player × List Position) :=
  ((lineList board).map runs_from_cells).flatten

/-- `end_of_game(k, board)`: the owner of the first run of length ≥ k in
scan order; otherwise 0 (game not over) if the top row has an empty cell,
else -1 (draw). -/
def end_of_game (k : Nat) (board : Board) : Int :=
  match (pieces_in_a_row board).find? (fun r => k ≤ r.2.length) with
  | some r => (r.1 : Int)
  | none => if (0 : Nat) ∈ board.headD [] then 0 else -1

/-- Inner loop of `drop_piece` over the reversed row list: find the first
row (from the bottom) whose cell at Python index `index` is empty and place
`player` there.  `none` models a raised `IndexError`. -/
def drop_piece_rev (player : Player) (index : Int) :
    List (List Cell) → Option (Bool × List (List Cell))
  | [] => some (false, [])
  | row :: rest =>
    match pyIdx row.length index with
    | none => none
    | some j =>
      if row.getD j 0 = 0 then some (true, row.set j player :: rest)
      else (drop_piece_rev player index rest).map (fun br => (br.1, row :: br.2))

/-- `drop_piece(board, player, column)`: drops a piece into 1-based
`column`, scanning the column bottom to top; returns whether a piece was
placed, together with the updated board (state-passing for the Python
in-place mutation).  `none` models a raised `IndexError`. -/
def drop_piece (board : Board) (player : Player) (column : Int) :
    Option (Bool × Board) :=
  (drop_piece_rev player (column - 1) board.reverse).map
    (fun br => (br.1, br.2.reverse))

/-- `copy_and_drop_piece(board, player, column)`: the board after dropping,
the original being left untouched (the success flag is discarded). -/
def copy_and_drop_piece (board : Board) (player : Player) (column : Int) :
    Option Board :=
  (drop_piece board player column).map (fun br => br.2)

/-- The free-cell counting loop of `can_win_from_pieces`: walks from
(row, col) by (row_diff, col_diff) counting empty board cells until leaving
the board or meeting a non-empty cell.  `fuel` bounds the walk; exhausting
it models the (unreachable for genuine runs) non-terminating Python loop. -/
def count_free_cells (board : Board) (fuel : Nat) (row col row_diff col_diff : Int) :
    Option Nat :=
  match fuel with
  | 0 => none
  | fuel + 1 =>
    let r := row + row_diff
    let c := col + col_diff
    if 0 ≤ r ∧ r < (num_rows board : Int) ∧ 0 ≤ c ∧ c < (num_cols board : Int) ∧
        cellAt board (r.toNat, c.toNat) = 0 then
      (count_free_cells board fuel r c row_diff col_diff).map (· + 1)
    else some 0

/-- `can_win_from_pieces(k, board, positions)`: whether the line of pieces
at `positions` has enough free room beyond its two ends to reach length k.
`none` models the `IndexError` Python raises when `positions` has fewer
than two elements. -/
def can_win_from_pieces (k : Nat) (board : Board) (positions : List Position) :
    Option Bool :=
  match positions with
  | p0 :: p1 :: _ =>
    let lst := positions.getLastD (0, 0)
    let row_diff : Int := (p1.1 : Int) - (p0.1 : Int)
    let col_diff : Int := (p1.2 : Int) - (p0.2 : Int)
    let fuel := num_rows board + num_cols board + 1
    match count_free_cells board fuel (lst.1 : Int) (lst.2 : Int) row_diff col_diff,
        count_free_cells board fuel (p0.1 : Int) (p0.2 : Int) (-row_diff) (-col_diff) with
    | some a, some b => some (decide (k ≤ a + b + positions.length))
    | _, _ => none
  | _ => none

/-- Loop of `can_win_now`: scans the free columns for one whose drop
immediately wins for `player`. -/
def can_win_now_go (k : Nat) (board : Board) (player : Player) :
    List Int → Option Bool
  | [] => some false
  | c :: rest =>
    match copy_and_drop_piece board player c with
    | none => none
    | some b =>
      if end_of_game k b = (player : Int) then some true
      else can_win_now_go k board player rest

/-- `can_win_now(k, board, player)`: whether `player` can win by a single
drop in some free column. -/
def can_win_now (k : Nat) (board : Board) (player : Player) : Option Bool :=
  can_win_now_go k board player (get_free_columns board)

/-- First loop of `win_or_block_column` (also reused per opponent): the
first column of `columns` whose drop makes `q` the winner. -/
def find_win_column (k : Nat) (board : Board) (q : Player) :
    List Int → Option (Option Int)
  | [] => some none
  | c :: rest =>
    match copy_and_drop_piece board q c with
    | none => none
    | some b =>
      if end_of_game k b = (q : Int) then some (some c)
      else find_win_column k board q rest

/-- Opponent loop of `win_or_block_column`: opponents are tried in turn
order `(player + i) % num_players + 1` for `i = 0, 1, ...`. -/
def win_or_block_opps (k num_players : Nat) (board : Board)
    (free_columns : List Int) (player : Player) : List Nat → Option (Option Int)
  | [] => some none
  | i :: is =>
    match find_win_column k board ((player + i) % num_players + 1) free_columns with
    | none => none
    | some (some c) => some (some c)
    | some none => win_or_block_opps k num_players board free_columns player is

/-- `win_or_block_column(k, num_players, board, free_columns, player)`:
a winning column for `player` if one exists, otherwise the first column
that blocks the soonest-playing opponent's immediate win, otherwise `none`
(inner `none`; outer `none` models a raised exception). -/
def win_or_block_column (k num_players : Nat) (board : Board)
    (free_columns : List Int) (player : Player) : Option (Option Int) :=
  match find_win_column k board player free_columns with
  | none => none
  | some (some c) => some (some c)
  | some none =>
    win_or_block_opps k num_players board free_columns player
      (List.range (num_players - 1))

/-- `counts[i][slot] += 1` with Python index semantics on the outer list
(`slot` is the literal 0 or 1 in the source, always in range). -/
def bump (counts : List (List Nat)) (i : Int) (slot : Nat) :
    Option (List (List Nat)) :=
  match pyIdx counts.length i with
  | none => none
  | some j =>
    let row := counts.getD j []
    some (counts.set j (row.set slot (row.getD slot 0 + 1)))

/-- First loop of `column_score`: counts the extendable runs that `player`
owns on the board obtained by the hypothetical drop (extendability is
checked against the original `board`). -/
def score_player_runs (k : Nat) (board : Board) (player : Player)
    (counts : List (List Nat)) :
    List (Player × List Position) → Option (List (List Nat))
  | [] => some counts
  | (rp, cells) :: rest =>
    if rp = player then
      match can_win_from_pieces k board cells with
      | none => none
      | some b =>
        if b then
          match bump counts ((k : Int) - (cells.length : Int) - 1) 0 with
          | none => none
          | some counts' => score_player_runs k board player counts' rest
        else score_player_runs k board player counts rest
    else score_player_runs k board player counts rest

/-- Run-counting loop of `column_score` for one opponent, over the board
obtained by that opponent's own hypothetical drop; length-2 opponent runs
are not counted. -/
def score_opp_runs (k : Nat) (board_op : Board) (opp : Player)
    (counts : List (List Nat)) :
    List (Player × List Position) → Option (List (List Nat))
  | [] => some counts
  | (rp, cells) :: rest =>
    if rp = opp then
      match can_win_from_pieces k board_op cells with
      | none => none
      | some b =>
        if b then
          if cells.length ≠ 2 then
            match bump counts ((k : Int) - (cells.length : Int) - 1) 1 with
            | none => none
            | some counts' => score_opp_runs k board_op opp counts' rest
          else score_opp_runs k board_op opp counts rest
        else score_opp_runs k board_op opp counts rest
    else score_opp_runs k board_op opp counts rest

/-- Opponent loop of `column_score`: for each opponent, first bail out with
`(False, [])` if that opponent can win immediately after `player`'s drop,
otherwise add the opponent's extendable runs (after the opponent's own
drop in the same column) to the counts. -/
def score_opponents (k num_players : Nat) (board : Board) (player : Player)
    (column : Int) (counts : List (List Nat)) :
    List Player → Option (Bool × List (List Nat))
  | [] => some (true, counts)
  | opp :: rest =>
    if opp = player then score_opponents k num_players board player column counts rest
    else
      match copy_and_drop_piece board player column with
      | none => none
      | some board_with_players_play =>
        match can_win_now k board_with_players_play opp with
        | none => none
        | some true => some (false, [])
        | some false =>
          match copy_and_drop_piece board opp column with
          | none => none
          | some board_with_opponents_play =>
            match score_opp_runs k board_with_opponents_play opp counts
                (pieces_in_a_row board_with_opponents_play) with
            | none => none
            | some counts' =>
              score_opponents k num_players board player column counts' rest

/-- `column_score(k, num_players, board, player, column)`: the sortable
score of dropping in `column`: `(False, [])` when some opponent could then
win immediately, else `(True, counts)` with `counts[k - L - 1] = [a, b]`
counting the extendable runs of length L of the player resp. opponents. -/
def column_score (k num_players : Nat) (board : Board) (player : Player)
    (column : Int) : Option (Bool × List (List Nat)) :=
  let counts0 := List.replicate (k - 2) [0, 0]
  match copy_and_drop_piece board player column with
  | none => none
  | some new_board =>
    match score_player_runs k board player counts0 (pieces_in_a_row new_board) with
    | none => none
    | some counts1 =>
      score_opponents k num_players board player column counts1
        ((List.range num_players).map (· + 1))

/-- Python `<` on lists of ints (lexicographic, a strict prefix is smaller). -/
def pyLtL : List Nat → List Nat → Bool
  | _, [] => false
  | [], _ :: _ => true
  | a :: as, b :: bs => if a < b then true else if b < a then false else pyLtL as bs

/-- Python `<` on lists of lists of ints. -/
def pyLtLL : List (List Nat) → List (List Nat) → Bool
  | _, [] => false
  | [], _ :: _ => true
  | a :: as, b :: bs => if pyLtL a b then true else if pyLtL b a then false else pyLtLL as bs

/-- The result type of `column_score`. -/
abbrev Score : Type := Bool × List (List Nat)

/-- Python `<` on `column_score` results (tuple comparison: `False < True`,
then the counts lists lexicographically). -/
def pyLtScore (a b : Score) : Bool :=
  if a.1 = b.1 then pyLtLL a.2 b.2 else (!a.1 && b.1)

/-- The sort key used by `cpu_player_hard`'s `max`: the column score paired
with the centre-distance tiebreak. -/
abbrev Key : Type := Score × ℚ

/-- Python `<` on the `(column_score, tiebreak)` pairs. -/
def pyLtKey (a b : Key) : Bool :=
  if a.1 = b.1 then decide (a.2 < b.2) else pyLtScore a.1 b.1

/-- The tiebreak component of `cpu_player_hard`'s key:
`num_cols - abs((num_cols + 1) / 2 - column)` (Python float division,
exact on these values, modelled by rationals). -/
def hard_tiebreak (nc : Nat) (column : Int) : ℚ :=
  (nc : ℚ) - |((nc : ℚ) + 1) / 2 - (column : ℚ)|

/-- The full key of `cpu_player_hard`'s `max` for one column. -/
def hard_key (k num_players : Nat) (board : Board) (player : Player)
    (column : Int) : Option Key :=
  match column_score k num_players board player column with
  | none => none
  | some s => some (s, hard_tiebreak (num_cols board) column)

/-- Fold of Python's `max(..., key=...)`: keep the current best, replacing
it exactly when a later element's key is strictly greater. -/
def py_max_aux (f : Int → Option Key) (best : Int × Key) :
    List Int → Option (Int × Key)
  | [] => some best
  | x :: xs =>
    match f x with
    | none => none
    | some kx => py_max_aux f (if pyLtKey best.2 kx then (x, kx) else best) xs

/-- Python's `max(columns, key=f)`; `none` on the empty list (Python
raises) or when computing a key raises. -/
def py_max (f : Int → Option Key) : List Int → Option Int
  | [] => none
  | x :: xs =>
    match f x with
    | none => none
    | some kx => (py_max_aux f (x, kx) xs).map (fun bk => bk.1)

/-- `cpu_player_hard(k, num_players, board, player)`: the winning/blocking
column if any, otherwise the free column maximizing
`(column_score, tiebreak)`; the piece is dropped into the returned column
(the returned board is the mutated one). -/
def cpu_player_hard (k num_players : Nat) (board : Board) (player : Player) :
    Option (Int × Board) :=
  let free_columns := get_free_columns board
  match win_or_block_column k num_players board free_columns player with
  | none => none
  | some wob =>
    match (match wob with
           | some c => some c
           | none => py_max (hard_key k num_players board player) free_columns) with
    | none => none
    | some chosen =>
      match drop_piece board player chosen with
      | some (true, b) => some (chosen, b)
      | _ => none

/-! ### A small reference/heap model for `copy_and_drop_piece` (claim C8)

Python boards are lists of row objects; mutation happens through row
references.  `Store` is the heap of row objects, a board value is a list
of row ids.  This makes the per-row deep copy in `copy_and_drop_piece`
observable: a shallow copy would alias the original rows. -/

abbrev Store : Type := List (List Cell)
abbrev BoardRef : Type := List Nat

/-- Dereference one row id. -/
def readRow (store : Store) (id : Nat) : List Cell := store.getD id []

/-- Dereference a whole board. -/
def readBoard (store : Store) (ref : BoardRef) : Board :=
  ref.map (readRow store)

/-- `drop_piece` acting on row references: mutates the store at the first
row id (from the bottom) whose cell at `index` is empty. -/
def drop_piece_ref_rev (store : Store) (player : Player) (index : Int) :
    List Nat → Option (Bool × Store)
  | [] => some (false, store)
  | id :: rest =>
    let row := readRow store id
    match pyIdx row.length index with
    | none => none
    | some j =>
      if row.getD j 0 = 0 then some (true, store.set id (row.set j player))
      else drop_piece_ref_rev store player index rest

/-- `drop_piece(board, player, column)` on the reference model. -/
def drop_piece_ref (store : Store) (ref : BoardRef) (player : Player)
    (column : Int) : Option (Bool × Store) :=
  drop_piece_ref_rev store player (column - 1) ref.reverse

/-- `copy_and_drop_piece` on the reference model:
`new_board = [row.copy() for row in board]` allocates one fresh row object
per row (ids `store.length, store.length + 1, ...`), then the drop mutates
only those fresh rows. -/
def copy_and_drop_piece_ref (store : Store) (ref : BoardRef) (player : Player)
    (column : Int) : Option (Store × BoardRef) :=
  let newIds := List.range' store.length ref.length
  let store1 := store ++ readBoard store ref
  (drop_piece_ref store1 newIds player column).map (fun bs => (bs.2, newIds))

/-! ### Basic facts about `pyIdx` and `drop_piece` -/

lemma pyIdx_of_nonneg {len : Nat} {i : Int} (h0 : 0 ≤ i) (h : i < (len : Int)) :
    pyIdx len i = some i.toNat := by
  simp [pyIdx, h0, h]

lemma pyIdx_of_neg {len : Nat} {i : Int} (h0 : i < 0) (h : 0 ≤ (len : Int) + i) :
    pyIdx len i = some ((len : Int) + i).toNat := by
  simp [pyIdx, not_le.mpr h0, h]

lemma pyIdx_eq_none {len : Nat} {i : Int} (h : (len : Int) ≤ i ∨ (len : Int) + i < 0) :
    pyIdx len i = none := by
  rcases h with h | h
  · have h1 : ¬ i < (len : Int) := not_lt.mpr h
    by_cases h0 : 0 ≤ i
    · simp [pyIdx, h0, h1]
    · omega
  · have h0 : ¬ 0 ≤ i := by omega
    have h1 : ¬ 0 ≤ (len : Int) + i := not_le.mpr h
    simp [pyIdx, h0, h1]

lemma drop_piece_rev_of_full {player : Player} {index : Int} {nc j : Nat}
    (hj : pyIdx nc index = some j) :
    ∀ rows : List (List Cell), (∀ row ∈ rows, row.length = nc) →
      (∀ row ∈ rows, row.getD j 0 ≠ 0) →
      drop_piece_rev player index rows = some (false, rows)
  | [], _, _ => rfl
  | row :: rest, hlen, hfull => by
    have h1 : row.length = nc := hlen row (List.mem_cons_self row rest)
    have h2 : row.getD j 0 ≠ 0 := hfull row (List.mem_cons_self row rest)
    have ih : drop_piece_rev player index rest = some (false, rest) :=
      drop_piece_rev_of_full hj rest
        (fun r hr => hlen r (List.mem_cons_of_mem _ hr))
        (fun r hr => hfull r (List.mem_cons_of_mem _ hr))
    rw [drop_piece_rev, h1, hj]
    dsimp only
    rw [if_neg h2, ih]
    rfl

lemma drop_piece_rev_of_badIdx {player : Player} {index : Int} {nc : Nat}
    (hj : pyIdx nc index = none) :
    ∀ rows : List (List Cell), rows ≠ [] → (∀ row ∈ rows, row.length = nc) →
      drop_piece_rev player index rows = none
  | [], hne, _ => absurd rfl hne
  | row :: rest, _, hlen => by
    have h1 : row.length = nc := hlen row (List.mem_cons_self row rest)
    rw [drop_piece_rev, h1, hj]

lemma drop_piece_rev_congr_idx {player : Player} {index index' : Int} {nc : Nat}
    (hj : pyIdx nc index = pyIdx nc index') :
    ∀ rows : List (List Cell), (∀ row ∈ rows, row.length = nc) →
      drop_piece_rev player index rows = drop_piece_rev player index' rows
  | [], _ => rfl
  | row :: rest, hlen => by
    have h1 : row.length = nc := hlen row (List.mem_cons_self row rest)
    have ih : drop_piece_rev player index rest = drop_piece_rev player index' rest :=
      drop_piece_rev_congr_idx hj rest (fun r hr => hlen r (List.mem_cons_of_mem _ hr))
    rw [drop_piece_rev, drop_piece_rev, h1, hj, ih]

lemma drop_piece_rev_isSome {player : Player} {index : Int} {nc j : Nat}
    (hj : pyIdx nc index = some j) :
    ∀ rows : List (List Cell), (∀ row ∈ rows, row.length = nc) →
      (drop_piece_rev player index rows).isSome
  | [], _ => rfl
  | row :: rest, hlen => by
    have h1 : row.length = nc := hlen row (List.mem_cons_self row rest)
    have ih : (drop_piece_rev player index rest).isSome :=
      drop_piece_rev_isSome hj rest (fun r hr => hlen r (List.mem_cons_of_mem _ hr))
    rw [drop_piece_rev, h1, hj]
    dsimp only
    by_cases h2 : row.getD j 0 = 0
    · rw [if_pos h2]
      rfl
    · rw [if_neg h2]
      cases h : drop_piece_rev player index rest with
      | none => rw [h] at ih; simp at ih
      | some br => simp

/-- C6 (amended): `drop_piece` on a full in-range column returns `False`
and leaves the board unchanged; a column whose Python index is out of
range for the rows raises (modelled `none`) without modifying the board;
and a column value in `[1 - num_cols, 0]` wraps around Python-style,
behaving exactly like the column `column + num_cols` — so column 0 can
place a piece (in the last column) rather than signalling failure. -/
theorem c6_amended (board : Board) (player : Player) (column : Int)
    (hrect : Rect board) :
    (1 ≤ column → column ≤ (num_cols board : Int) →
      (∀ row ∈ board, row.getD (column - 1).toNat 0 ≠ 0) →
      drop_piece board player column = some (false, board))
  ∧ (board ≠ [] → ((num_cols board : Int) ≤ column - 1 ∨ (num_cols board : Int) + (column - 1) < 0) →
      drop_piece board player column = none)
  ∧ (1 - (num_cols board : Int) ≤ column → column ≤ 0 →
      drop_piece board player column = drop_piece board player (column + num_cols board)) := by
  have hlenrev : ∀ row ∈ board.reverse, row.length = num_cols board := by
    intro r hr; exact hrect r (List.mem_reverse.mp hr)
  refine ⟨?_, ?_, ?_⟩
  · intro h1 h2 hfull
    have hj : pyIdx (num_cols board) (column - 1) = some (column - 1).toNat :=
      pyIdx_of_nonneg (by omega) (by omega)
    rw [drop_piece, drop_piece_rev_of_full hj board.reverse hlenrev
      (fun r hr => hfull r (List.mem_reverse.mp hr))]
    simp
  · intro hne hoor
    have hj : pyIdx (num_cols board) (column - 1) = none := pyIdx_eq_none hoor
    rw [drop_piece, drop_piece_rev_of_badIdx hj board.reverse
      (by simpa using hne) hlenrev]
    rfl
  · intro h1 h2
    have hj : pyIdx (num_cols board) (column - 1) =
        pyIdx (num_cols board) (column + (num_cols board : Int) - 1) := by
      rw [pyIdx_of_neg (by omega) (by omega), pyIdx_of_nonneg (by omega) (by omega)]
      congr 1
      omega
    rw [drop_piece, drop_piece, drop_piece_rev_congr_idx hj board.reverse hlenrev]

/-- Witness for C6 (amended) at concrete inputs: a full one-cell board, a
genuinely unindexable column, and the column-0 wrap-around. -/
theorem c6_amended_witness :
    drop_piece [[1]] 2 1 = some (false, [[1]])
  ∧ drop_piece [[0]] 1 2 = none
  ∧ drop_piece [[0, 0]] 1 0 = drop_piece [[0, 0]] 1 2 := by
  refine ⟨?_, ?_, ?_⟩
  · exact (c6_amended [[1]] 2 1 (by decide)).1 (by decide) (by decide) (by decide)
  · exact (c6_amended [[0]] 1 2 (by decide)).2.1 (by decide) (by decide)
  · exact (c6_amended [[0, 0]] 1 0 (by decide)).2.2 (by decide) (by decide)

/-- C6 counterexample: the claim states that an out-of-range column —
explicitly including column 0 — never places a piece and makes
`drop_piece` signal failure.  But Python's negative indexing makes
column 0 wrap to the last column: on the board `[[0]]` it places a piece
and returns `True`. -/
theorem c6_counterexample :
    ¬ (∀ (board : Board) (player : Player) (column : Int),
        (column ≤ 0 ∨ (num_cols board : Int) < column) →
        ∀ r, drop_piece board player column = some r → r.1 = false ∧ r.2 = board) := by
  intro h
  have h0 : drop_piece [[0]] 1 0 = some (true, [[1]]) := by decide
  have := (h [[0]] 1 0 (Or.inl le_rfl) (true, [[1]]) h0).1
  simp at this

/-! ### Claim C8: `copy_and_drop_piece` does not touch the original board -/

lemma readRow_set_self {store : Store} {id : Nat} (h : id < store.length)
    (r : List Cell) : readRow (store.set id r) id = r := by
  simp [readRow, List.getD_eq_getElem?_getD, List.getElem?_set, h]

lemma readRow_set_ne {store : Store} {id id' : Nat} (h : id ≠ id')
    (r : List Cell) : readRow (store.set id r) id' = readRow store id' := by
  simp [readRow, List.getD_eq_getElem?_getD, List.getElem?_set, h]

lemma readRow_append_left {store tail : Store} {id : Nat} (h : id < store.length) :
    readRow (store ++ tail) id = readRow store id := by
  rw [readRow, readRow]
  exact List.getD_append _ _ _ _ h

/-- Simulation between `drop_piece_ref_rev` (mutating a store through a
list of distinct valid row ids) and the pure `drop_piece_rev` on the rows
those ids denote. -/
lemma drop_ref_rev_corr (player : Player) (index : Int) :
    ∀ (ids : List Nat) (store : Store), ids.Nodup →
      (∀ id ∈ ids, id < store.length) →
      (drop_piece_ref_rev store player index ids = none ∧
        drop_piece_rev player index (ids.map (readRow store)) = none) ∨
      (∃ bo s' rows', drop_piece_ref_rev store player index ids = some (bo, s') ∧
        drop_piece_rev player index (ids.map (readRow store)) = some (bo, rows') ∧
        ids.map (readRow s') = rows' ∧
        ∀ id', id' ∉ ids → readRow s' id' = readRow store id')
  | [], store, _, _ => by
    right
    exact ⟨false, store, [], rfl, rfl, rfl, fun _ _ => rfl⟩
  | id :: rest, store, hnd, hlt => by
    have hid : id < store.length := hlt id (List.mem_cons_self id rest)
    have hnd' : rest.Nodup := (List.nodup_cons.mp hnd).2
    have hnotmem : id ∉ rest := (List.nodup_cons.mp hnd).1
    rw [List.map_cons, drop_piece_ref_rev, drop_piece_rev]
    cases hj : pyIdx (readRow store id).length index with
    | none => exact Or.inl ⟨rfl, rfl⟩
    | some j =>
      dsimp only
      by_cases h0 : (readRow store id).getD j 0 = 0
      · rw [if_pos h0, if_pos h0]
        right
        refine ⟨true, store.set id ((readRow store id).set j player),
          (readRow store id).set j player :: rest.map (readRow store), rfl, rfl, ?_, ?_⟩
        · rw [List.map_cons, readRow_set_self hid]
          congr 1
          exact List.map_congr_left (fun x hx =>
            readRow_set_ne (fun he => hnotmem (by rw [he]; exact hx)) _)
        · intro id' hid'
          exact readRow_set_ne
            (fun he => hid' (by rw [← he]; exact List.mem_cons_self id rest)) _
      · rw [if_neg h0, if_neg h0]
        rcases drop_ref_rev_corr player index rest store hnd'
            (fun i hi => hlt i (List.mem_cons_of_mem _ hi)) with
          ⟨h1, h2⟩ | ⟨bo, s', rows', h1, h2, h3, h4⟩
        · rw [h1, h2]
          exact Or.inl ⟨rfl, rfl⟩
        · rw [h1, h2]
          right
          refine ⟨bo, s', readRow store id :: rows', rfl, rfl, ?_, ?_⟩
          · rw [List.map_cons, h4 id hnotmem, h3]
          · intro id' hid'
            exact h4 id' (fun hm => hid' (List.mem_cons_of_mem _ hm))

/-- Reading back freshly appended rows gives exactly the appended list. -/
lemma readRow_range'_append :
    ∀ (b store : Store),
      (List.range' store.length b.length).map (fun id => readRow (store ++ b) id) = b
  | [], _ => rfl
  | r :: b', store => by
    rw [List.length_cons, List.range'_succ, List.map_cons]
    have h1 : readRow (store ++ r :: b') store.length = r := by
      rw [readRow, List.getD_append_right _ _ _ _ (le_refl store.length), Nat.sub_self]
      rfl
    rw [h1]
    congr 1
    have h2 : store ++ r :: b' = (store ++ [r]) ++ b' := by simp
    have h3 : store.length + 1 = (store ++ [r]).length := by simp
    rw [h2, h3]
    exact readRow_range'_append b' (store ++ [r])

/-- C8: `copy_and_drop_piece` on the reference (heap) model of Python row
objects: the board it returns reads back as the original board with the
drop applied (raising exactly when the pure drop raises), every cell of
the original board is left unchanged, and no row of the result aliases a
row of the input. -/
theorem c8_copy_and_drop_frame (store : Store) (ref : BoardRef) (player : Player)
    (column : Int) (h : ∀ id ∈ ref, id < store.length) :
    ((copy_and_drop_piece_ref store ref player column).map
        (fun sr => readBoard sr.1 sr.2)
      = copy_and_drop_piece (readBoard store ref) player column)
  ∧ (∀ sr, copy_and_drop_piece_ref store ref player column = some sr →
      readBoard sr.1 ref = readBoard store ref)
  ∧ (∀ sr, copy_and_drop_piece_ref store ref player column = some sr →
      ∀ id ∈ sr.2, id ∉ ref) := by
  have hblen : (readBoard store ref).length = ref.length := by
    simp [readBoard]
  have hcd : copy_and_drop_piece_ref store ref player column =
      (drop_piece_ref_rev (store ++ readBoard store ref) player (column - 1)
        (List.range' store.length ref.length).reverse).map
        (fun bs => (bs.2, List.range' store.length ref.length)) := rfl
  have hreadnew : (List.range' store.length ref.length).map
      (fun id => readRow (store ++ readBoard store ref) id) = readBoard store ref := by
    rw [← hblen]
    exact readRow_range'_append (readBoard store ref) store
  have hrev : (List.range' store.length ref.length).reverse.map
      (readRow (store ++ readBoard store ref)) = (readBoard store ref).reverse := by
    rw [List.map_reverse, hreadnew]
  have hndrev : (List.range' store.length ref.length).reverse.Nodup := by
    rw [List.nodup_reverse]
    exact List.nodup_range' _ _
  have hltrev : ∀ id ∈ (List.range' store.length ref.length).reverse,
      id < (store ++ readBoard store ref).length := by
    intro id hid
    rw [List.mem_reverse, List.mem_range'_1] at hid
    simp only [List.length_append, hblen]
    omega
  have hmemnew : ∀ id ∈ List.range' store.length ref.length, store.length ≤ id := by
    intro id hid
    rw [List.mem_range'_1] at hid
    exact hid.1
  rcases drop_ref_rev_corr player (column - 1)
      (List.range' store.length ref.length).reverse (store ++ readBoard store ref)
      hndrev hltrev with ⟨h1, h2⟩ | ⟨bo, s', rows', h1, h2, h3, h4⟩
  · rw [hrev] at h2
    have hpure : copy_and_drop_piece (readBoard store ref) player column = none := by
      rw [copy_and_drop_piece, drop_piece, h2]
      rfl
    rw [hcd, h1, hpure]
    exact ⟨rfl, fun sr hsr => by simp at hsr, fun sr hsr => by simp at hsr⟩
  · rw [hrev] at h2
    have hpure : copy_and_drop_piece (readBoard store ref) player column =
        some rows'.reverse := by
      rw [copy_and_drop_piece, drop_piece, h2]
      rfl
    have hframe : ∀ id ∈ ref, readRow s' id = readRow store id := by
      intro id hid
      have hid' : id < store.length := h id hid
      have hnm : id ∉ (List.range' store.length ref.length).reverse := by
        rw [List.mem_reverse]
        intro hm
        exact absurd (hmemnew id hm) (by omega)
      rw [h4 id hnm, readRow_append_left hid']
    refine ⟨?_, ?_, ?_⟩
    · rw [hcd, h1, hpure]
      simp only [Option.map_some']
      congr 1
      rw [readBoard, ← List.reverse_reverse
        ((List.range' store.length ref.length).map (readRow s')), ← List.map_reverse, h3]
    · intro sr hsr
      rw [hcd, h1] at hsr
      simp only [Option.map_some'] at hsr
      cases hsr
      exact List.map_congr_left hframe
    · intro sr hsr
      rw [hcd, h1] at hsr
      simp only [Option.map_some'] at hsr
      cases hsr
      intro id hid hmem
      exact absurd (hmemnew id hid) (by have := h id hmem; omega)

/-- Witness for C8 at a concrete store and board reference. -/
theorem c8_witness :
    ((copy_and_drop_piece_ref [[0, 0], [1, 2]] [0, 1] 1 1).map
        (fun sr => readBoard sr.1 sr.2)
      = copy_and_drop_piece (readBoard [[0, 0], [1, 2]] [0, 1]) 1 1)
  ∧ (∀ sr, copy_and_drop_piece_ref [[0, 0], [1, 2]] [0, 1] 1 1 = some sr →
      readBoard sr.1 [0, 1] = readBoard [[0, 0], [1, 2]] [0, 1]) := by
  have h := c8_copy_and_drop_frame [[0, 0], [1, 2]] [0, 1] 1 1 (by decide)
  exact ⟨h.1, h.2.1⟩

/-! ### Claim C7: dropping into a free column -/

/-- The board with the cell at (i, j) replaced by `v` (row i rebuilt, all
other rows untouched). -/
def updateCell (board : Board) (i j : Nat) (v : Cell) : Board :=
  board.set i ((board.getD i []).set j v)

lemma getD_reverse {l : List (List Cell)} {t : Nat} (h : t < l.length) :
    l.reverse.getD t [] = l.getD (l.length - 1 - t) [] := by
  rw [List.getD_eq_getElem?_getD, List.getD_eq_getElem?_getD,
    List.getElem?_reverse (by simpa using h)]

lemma reverse_set_comm {l : List (List Cell)} {m : Nat} (h : m < l.length)
    (x : List Cell) :
    (l.reverse.set m x).reverse = l.set (l.length - 1 - m) x := by
  apply List.ext_getElem?
  intro i
  by_cases hi : i < l.length
  · have hlen : (l.reverse.set m x).length = l.length := by simp
    rw [List.getElem?_reverse (by simpa [hlen] using hi), hlen,
      List.getElem?_set, List.getElem?_set]
    by_cases he : m = l.length - 1 - i
    · have he' : l.length - 1 - m = i := by omega
      rw [if_pos he, if_pos he']
      simp only [List.length_reverse]
      rw [if_pos h, if_pos (show l.length - 1 - m < l.length by omega)]
    · have he' : l.length - 1 - m ≠ i := by omega
      rw [if_neg he, if_neg he',
        List.getElem?_reverse (show l.length - 1 - i < l.length by omega)]
      have harith : l.length - 1 - (l.length - 1 - i) = i := by omega
      rw [harith]
  · have h1 : ((l.reverse.set m x).reverse)[i]? = none :=
      List.getElem?_eq_none (by simpa using not_lt.mp hi)
    have h2 : (l.set (l.length - 1 - m) x)[i]? = none :=
      List.getElem?_eq_none (by simpa using not_lt.mp hi)
    rw [h1, h2]

lemma drop_piece_rev_found {player : Player} {index : Int} {nc j : Nat}
    (hj : pyIdx nc index = some j) :
    ∀ rows : List (List Cell), (∀ row ∈ rows, row.length = nc) →
    ∀ m : Nat, m < rows.length → (rows.getD m []).getD j 0 = 0 →
      (∀ t, t < m → (rows.getD t []).getD j 0 ≠ 0) →
      drop_piece_rev player index rows =
        some (true, rows.set m ((rows.getD m []).set j player))
  | [], _, m, hm, _, _ => absurd hm (by simp)
  | row :: rest, hlen, m, hm, hempty, habove => by
    have h1 : row.length = nc := hlen row (List.mem_cons_self row rest)
    rw [drop_piece_rev, h1, hj]
    dsimp only
    cases m with
    | zero =>
      have h0 : row.getD j 0 = 0 := by simpa using hempty
      rw [if_pos h0]
      rfl
    | succ m' =>
      have h0 : row.getD j 0 ≠ 0 := by simpa using habove 0 (Nat.succ_pos m')
      rw [if_neg h0]
      have ih : drop_piece_rev player index rest =
          some (true, rest.set m' ((rest.getD m' []).set j player)) :=
        drop_piece_rev_found hj rest
          (fun r hr => hlen r (List.mem_cons_of_mem _ hr)) m'
          (by simpa using hm) (by simpa using hempty)
          (fun t ht => by simpa using habove (t + 1) (by omega))
      rw [ih]
      rfl

lemma num_cols_updateCell (board : Board) (i j : Nat) (v : Cell) :
    num_cols (updateCell board i j v) = num_cols board := by
  cases board with
  | nil => rfl
  | cons r rest =>
    cases i with
    | zero => simp [updateCell, num_cols]
    | succ i' => rfl

lemma num_rows_updateCell (board : Board) (i j : Nat) (v : Cell) :
    num_rows (updateCell board i j v) = num_rows board := by
  simp [updateCell, num_rows]

lemma cellAt_updateCell (board : Board) {i j : Nat} (v : Cell)
    (hj : j < (board.getD i []).length) (p : Position) :
    cellAt (updateCell board i j v) p =
      if p = (i, j) then v else cellAt board p := by
  obtain ⟨p1, p2⟩ := p
  have hi : i < board.length := by
    by_contra hcon
    have hnil : board.getD i [] = [] := by
      rw [List.getD_eq_getElem?_getD, List.getElem?_eq_none (not_lt.mp hcon)]
      rfl
    rw [hnil] at hj
    exact absurd hj (by simp)
  rw [cellAt, updateCell, cellAt]
  dsimp only
  rw [List.getD_eq_getElem?_getD (board.set i _) p1, List.getElem?_set]
  by_cases h1 : i = p1
  · subst h1
    rw [if_pos rfl, if_pos hi, Option.getD_some,
      List.getD_eq_getElem?_getD _ p2, List.getElem?_set]
    by_cases h2 : j = p2
    · subst h2
      rw [if_pos rfl, if_pos hj, Option.getD_some, if_pos rfl]
    · rw [if_neg h2, if_neg (by simp only [Prod.mk.injEq]; omega),
        ← List.getD_eq_getElem?_getD]
  · rw [if_neg h1, if_neg (by simp only [Prod.mk.injEq]; omega),
      ← List.getD_eq_getElem?_getD]

lemma headD_eq_getD_zero (board : Board) : board.headD [] = board.getD 0 [] := by
  cases board <;> rfl

lemma getD_mem {l : List (List Cell)} {i : Nat} (h : i < l.length) (d : List Cell) :
    l.getD i d ∈ l := by
  rw [List.getD_eq_getElem?_getD, List.getElem?_eq_getElem h, Option.getD_some]
  exact List.getElem_mem h

/-- A column is free exactly when it is in range and its top cell is empty. -/
lemma mem_get_free_columns (board : Board) (c : Int) :
    c ∈ get_free_columns board ↔
      1 ≤ c ∧ c ≤ (num_cols board : Int) ∧ cellAt board (0, (c - 1).toNat) = 0 := by
  rw [get_free_columns, List.mem_filterMap]
  constructor
  · rintro ⟨⟨i, cell⟩, hmem, hf⟩
    rw [List.mem_enum_iff_getElem?] at hmem
    by_cases h0 : cell = 0
    · rw [if_pos h0] at hf
      have hc : c = (i : Int) + 1 := (Option.some.injEq _ _).mp hf.symm
      have hlt : i < (board.headD []).length := by
        by_contra hcon
        rw [List.getElem?_eq_none (not_lt.mp hcon)] at hmem
        exact Option.noConfusion hmem
      subst hc
      refine ⟨by omega, by rw [num_cols]; omega, ?_⟩
      have ht : ((i : Int) + 1 - 1).toNat = i := by omega
      rw [cellAt, ht, ← headD_eq_getD_zero, List.getD_eq_getElem?_getD, hmem,
        Option.getD_some, h0]
    · rw [if_neg h0] at hf
      exact Option.noConfusion hf
  · rintro ⟨h1, h2, h3⟩
    have ht : (c - 1).toNat < (board.headD []).length := by
      rw [num_cols] at h2
      omega
    have hv : (board.headD [])[(c - 1).toNat] = 0 := by
      rw [cellAt, ← headD_eq_getD_zero, List.getD_eq_getElem?_getD,
        List.getElem?_eq_getElem ht, Option.getD_some] at h3
      exact h3
    refine ⟨((c - 1).toNat, 0), ?_, ?_⟩
    · rw [List.mem_enum_iff_getElem?, List.getElem?_eq_getElem ht, hv]
    · rw [if_pos rfl]
      congr 1
      omega

/-- The gravity invariant: in every column, all cells below a non-empty
cell are non-empty. -/
def Gravity (board : Board) : Prop :=
  ∀ j, j < num_cols board → ∀ i i', i ≤ i' → i' < num_rows board →
    cellAt board (i, j) ≠ 0 → cellAt board (i', j) ≠ 0

/-- Dropping in an in-range column with an empty cell places the piece in
the lowest empty cell of the column. -/
lemma drop_piece_spec (board : Board) (player : Player) {j : Nat}
    (hrect : Rect board) (hj : j < num_cols board)
    (hex : ∃ i, i < num_rows board ∧ cellAt board (i, j) = 0) :
    ∃ istar, istar < num_rows board ∧ cellAt board (istar, j) = 0 ∧
      (∀ i, istar < i → i < num_rows board → cellAt board (i, j) ≠ 0) ∧
      drop_piece board player ((j : Int) + 1) =
        some (true, updateCell board istar j player) := by
  obtain ⟨i0, hi0, hcell0⟩ := hex
  have hPex : ∃ t, (board.reverse.getD t []).getD j 0 = 0 := by
    refine ⟨board.length - 1 - i0, ?_⟩
    rw [getD_reverse (show board.length - 1 - i0 < board.length by
      rw [num_rows] at hi0; omega)]
    have harith : board.length - 1 - (board.length - 1 - i0) = i0 := by
      rw [num_rows] at hi0; omega
    rw [harith]
    exact hcell0
  classical
  set m := Nat.find hPex with hmdef
  have hm : (board.reverse.getD m []).getD j 0 = 0 := Nat.find_spec hPex
  have hmin : ∀ t, t < m → (board.reverse.getD t []).getD j 0 ≠ 0 :=
    fun t ht => Nat.find_min hPex ht
  have hmle : m ≤ board.length - 1 - i0 := Nat.find_min' hPex (by
    rw [getD_reverse (show board.length - 1 - i0 < board.length by
      rw [num_rows] at hi0; omega)]
    have harith : board.length - 1 - (board.length - 1 - i0) = i0 := by
      rw [num_rows] at hi0; omega
    rw [harith]
    exact hcell0)
  have hn : 0 < board.length := by rw [num_rows] at hi0; omega
  have hmlt : m < board.length := by omega
  have hidx : (j : Int) + 1 - 1 = (j : Int) := by ring
  have hpy : pyIdx (num_cols board) ((j : Int) + 1 - 1) = some j := by
    rw [hidx, pyIdx_of_nonneg (Int.natCast_nonneg j) (by exact_mod_cast hj)]
    rw [Int.toNat_natCast]
  have hfound : drop_piece_rev player ((j : Int) + 1 - 1) board.reverse =
      some (true, board.reverse.set m ((board.reverse.getD m []).set j player)) :=
    drop_piece_rev_found hpy board.reverse
      (fun r hr => hrect r (List.mem_reverse.mp hr)) m
      (by simpa using hmlt) hm hmin
  refine ⟨board.length - 1 - m, by rw [num_rows]; omega, ?_, ?_, ?_⟩
  · have := hm
    rw [getD_reverse hmlt] at this
    exact this
  · intro i hgt hlt
    rw [num_rows] at hlt
    have ht : board.length - 1 - i < m := by omega
    have := hmin (board.length - 1 - i) ht
    rw [getD_reverse (show board.length - 1 - i < board.length by omega)] at this
    have harith : board.length - 1 - (board.length - 1 - i) = i := by omega
    rw [harith] at this
    exact this
  · rw [drop_piece, hfound]
    simp only [Option.map_some']
    congr 2
    rw [getD_reverse hmlt, reverse_set_comm hmlt]
    rfl

/-- C7: dropping into an in-range column with at least one empty cell
returns `True` and places the piece exactly in the lowest empty cell of
that column, changing no other cell; a column is free exactly when its
top cell is empty; the free columns after the drop are a subset of those
before; and the drop preserves the gravity invariant. -/
theorem c7_drop_invariants (board : Board) (player : Player) (column : Int)
    (hrect : Rect board) (hp : player ≠ 0)
    (h1 : 1 ≤ column) (h2 : column ≤ (num_cols board : Int))
    (hex : ∃ i, i < num_rows board ∧ cellAt board (i, (column - 1).toNat) = 0) :
    (∀ c : Int, c ∈ get_free_columns board ↔
      1 ≤ c ∧ c ≤ (num_cols board : Int) ∧ cellAt board (0, (c - 1).toNat) = 0)
  ∧ ∃ istar, istar < num_rows board ∧
      cellAt board (istar, (column - 1).toNat) = 0 ∧
      (∀ i, istar < i → i < num_rows board →
        cellAt board (i, (column - 1).toNat) ≠ 0) ∧
      drop_piece board player column =
        some (true, updateCell board istar (column - 1).toNat player) ∧
      (∀ p : Position,
        cellAt (updateCell board istar (column - 1).toNat player) p =
          if p = (istar, (column - 1).toNat) then player else cellAt board p) ∧
      get_free_columns (updateCell board istar (column - 1).toNat player) ⊆
        get_free_columns board ∧
      (Gravity board → Gravity (updateCell board istar (column - 1).toNat player)) := by
  have hjlt : (column - 1).toNat < num_cols board := by omega
  have hcol : ((((column - 1).toNat : Nat) : Int) + 1) = column := by omega
  obtain ⟨istar, hlt, hcell, hmax, hdrop⟩ :=
    drop_piece_spec board player hrect hjlt hex
  rw [hcol] at hdrop
  have hrowlen : (board.getD istar []).length = num_cols board := by
    rw [num_rows] at hlt
    exact hrect _ (getD_mem hlt [])
  have hpoint : ∀ p : Position,
      cellAt (updateCell board istar (column - 1).toNat player) p =
        if p = (istar, (column - 1).toNat) then player else cellAt board p :=
    cellAt_updateCell board player (by rw [hrowlen]; exact hjlt)
  refine ⟨mem_get_free_columns board, istar, hlt, hcell, hmax, hdrop, hpoint, ?_, ?_⟩
  · intro c hc
    rw [mem_get_free_columns] at hc
    rw [num_cols_updateCell] at hc
    obtain ⟨hc1, hc2, hc3⟩ := hc
    rw [hpoint (0, (c - 1).toNat)] at hc3
    rw [mem_get_free_columns]
    refine ⟨hc1, hc2, ?_⟩
    by_cases heq : ((0 : Nat), (c - 1).toNat) = (istar, (column - 1).toNat)
    · rw [if_pos heq] at hc3
      exact absurd hc3 hp
    · rw [if_neg heq] at hc3
      exact hc3
  · intro hgrav j0 hj0 i i' hii hi' hcelli
    rw [num_cols_updateCell] at hj0
    rw [num_rows_updateCell] at hi'
    rw [hpoint (i, j0)] at hcelli
    rw [hpoint (i', j0)]
    by_cases heq' : ((i' : Nat), j0) = (istar, (column - 1).toNat)
    · rw [if_pos heq']
      exact hp
    · rw [if_neg heq']
      by_cases heq : ((i : Nat), j0) = (istar, (column - 1).toNat)
      · rw [Prod.mk.injEq] at heq heq'
        obtain ⟨he1, he2⟩ := heq
        have hne : i' ≠ istar := fun hcon => heq' ⟨hcon, he2⟩
        rw [he2]
        exact hmax i' (by omega) hi'
      · rw [if_neg heq] at hcelli
        exact hgrav j0 hj0 i i' hii hi' hcelli

/-- Witness for C7 at a concrete board and column. -/
theorem c7_witness :
    (1 : Int) ∈ get_free_columns [[0, 0], [1, 0]] ↔
      1 ≤ (1 : Int) ∧ (1 : Int) ≤ (num_cols [[0, 0], [1, 0]] : Int) ∧
        cellAt [[0, 0], [1, 0]] (0, ((1 : Int) - 1).toNat) = 0 :=
  (c7_drop_invariants [[0, 0], [1, 0]] 2 1 (by decide) (by decide) (by decide)
    (by decide) ⟨0, by decide, by decide⟩).1 1

/-! ### Claim C1: the outcome evaluator -/

/-- Every run the scanner yields has a non-empty owner and length ≥ 2. -/
lemma runs_aux_sound :
    ∀ (cs : List (Position × Cell)) (p : Cell) (acc : List Position)
      (r : Player × List Position), r ∈ runs_from_cells_aux p acc cs →
      r.1 ≠ 0 ∧ 2 ≤ r.2.length
  | [], p, acc, r => by
    intro hr
    rw [runs_from_cells_aux, runs_flush] at hr
    split at hr
    · rename_i hcond
      rw [List.mem_singleton] at hr
      subst hr
      refine ⟨hcond.2, ?_⟩
      have h1 := hcond.1
      dsimp only
      omega
    · exact absurd hr (List.not_mem_nil r)
  | (pos, cell) :: rest, p, acc, r => by
    intro hr
    rw [runs_from_cells_aux] at hr
    by_cases hc : cell = p
    · rw [if_pos hc] at hr
      exact runs_aux_sound rest p (acc ++ [pos]) r hr
    · rw [if_neg hc, List.mem_append] at hr
      rcases hr with hr | hr
      · rw [runs_flush] at hr
        split at hr
        · rename_i hcond
          rw [List.mem_singleton] at hr
          subst hr
          refine ⟨hcond.2, ?_⟩
          have h1 := hcond.1
          dsimp only
          omega
        · exact absurd hr (List.not_mem_nil r)
      · exact runs_aux_sound rest cell [pos] r hr

lemma pieces_sound (board : Board) (r : Player × List Position)
    (hr : r ∈ pieces_in_a_row board) : r.1 ≠ 0 ∧ 2 ≤ r.2.length := by
  rw [pieces_in_a_row, List.mem_flatten] at hr
  obtain ⟨l, hl, hrl⟩ := hr
  rw [List.mem_map] at hl
  obtain ⟨cs, _, hcs⟩ := hl
  subst hcs
  exact runs_aux_sound cs 0 [] r hrl

/-- C1: `end_of_game` returns the owner of the first run of length ≥ k in
scan order when one exists, and otherwise 0 exactly when the top row has
an empty cell and -1 exactly when it does not; the result is always one
of {0, -1, winner ≥ 1}, a winner implies a run of length ≥ k owned by that
player, and each of 0 and -1 implies no such run (with the matching top-row
condition). -/
theorem c1_end_of_game (k : Nat) (board : Board) (hk : 1 ≤ k)
    (hrect : Rect board) (hnr : board ≠ []) (hnc : 0 < num_cols board) :
    (∀ r, (pieces_in_a_row board).find? (fun s => k ≤ s.2.length) = some r →
      end_of_game k board = (r.1 : Int) ∧ 1 ≤ r.1 ∧
        r ∈ pieces_in_a_row board ∧ k ≤ r.2.length)
  ∧ ((∀ r ∈ pieces_in_a_row board, r.2.length < k) →
      end_of_game k board = if (0 : Nat) ∈ board.headD [] then 0 else -1)
  ∧ (end_of_game k board = 0 ∨ end_of_game k board = -1 ∨ 1 ≤ end_of_game k board)
  ∧ (∀ p : Player, end_of_game k board = (p : Int) → 1 ≤ p →
      ∃ cells, (p, cells) ∈ pieces_in_a_row board ∧ k ≤ cells.length)
  ∧ (end_of_game k board = -1 →
      (∀ c ∈ board.headD [], c ≠ 0) ∧ ∀ r ∈ pieces_in_a_row board, r.2.length < k)
  ∧ (end_of_game k board = 0 →
      (0 : Nat) ∈ board.headD [] ∧ ∀ r ∈ pieces_in_a_row board, r.2.length < k) := by
  cases hfind : (pieces_in_a_row board).find? (fun s => k ≤ s.2.length) with
  | some r0 =>
    have hend : end_of_game k board = (r0.1 : Int) := by rw [end_of_game, hfind]
    have hmem := List.mem_of_find?_eq_some hfind
    have hlen : k ≤ r0.2.length := by simpa using List.find?_some hfind
    have hpos : r0.1 ≠ 0 := (pieces_sound board r0 hmem).1
    refine ⟨?_, ?_, ?_, ?_, ?_, ?_⟩
    · intro r hr
      obtain rfl : r0 = r := Option.some_inj.mp hr
      exact ⟨hend, Nat.one_le_iff_ne_zero.mpr hpos, hmem, hlen⟩
    · intro hall
      exact absurd hlen (by have := hall r0 hmem; omega)
    · right; right
      rw [hend]
      exact_mod_cast Nat.one_le_iff_ne_zero.mpr hpos
    · intro p hp _
      rw [hend] at hp
      have hpr : p = r0.1 := by exact_mod_cast hp.symm
      subst hpr
      exact ⟨r0.2, by simpa using hmem, hlen⟩
    · intro hm1
      rw [hend] at hm1
      have := Int.natCast_nonneg r0.1
      omega
    · intro hm0
      rw [hend] at hm0
      have : r0.1 = 0 := by exact_mod_cast hm0
      exact absurd this hpos
  | none =>
    have hnolong : ∀ r ∈ pieces_in_a_row board, r.2.length < k := by
      intro r hr
      have := List.find?_eq_none.mp hfind r hr
      simpa using this
    have hend : end_of_game k board =
        if (0 : Nat) ∈ board.headD [] then 0 else -1 := by
      rw [end_of_game, hfind]
    refine ⟨?_, fun _ => hend, ?_, ?_, ?_, ?_⟩
    · intro r hr
      exact Option.noConfusion hr
    · rw [hend]
      by_cases hmem : (0 : Nat) ∈ board.headD []
      · rw [if_pos hmem]
        left
        rfl
      · rw [if_neg hmem]
        right
        left
        rfl
    · intro p hp hp1
      rw [hend] at hp
      by_cases hmem : (0 : Nat) ∈ board.headD []
      · rw [if_pos hmem] at hp
        have hp0 : p = 0 := by exact_mod_cast hp.symm
        exact absurd hp0 (Nat.one_le_iff_ne_zero.mp hp1)
      · rw [if_neg hmem] at hp
        have := Int.natCast_nonneg p
        omega
    · intro hm1
      rw [hend] at hm1
      by_cases hmem : (0 : Nat) ∈ board.headD []
      · rw [if_pos hmem] at hm1
        exact absurd hm1 (by decide)
      · exact ⟨fun c hc hc0 => hmem (hc0 ▸ hc), hnolong⟩
    · intro hm0
      rw [hend] at hm0
      by_cases hmem : (0 : Nat) ∈ board.headD []
      · exact ⟨hmem, hnolong⟩
      · rw [if_neg hmem] at hm0
        exact absurd hm0 (by decide)

/-- Witness for C1 on a concrete winning board. -/
theorem c1_witness :
    end_of_game 4 [[1, 1, 1, 1]] = 0 ∨ end_of_game 4 [[1, 1, 1, 1]] = -1 ∨
      1 ≤ end_of_game 4 [[1, 1, 1, 1]] :=
  (c1_end_of_game 4 [[1, 1, 1, 1]] (by decide) (by decide) (by decide)
    (by decide)).2.2.1

/-! ### Claim C5: `win_or_block_column` -/

lemma copy_and_drop_isSome (board : Board) (player : Player) {c : Int}
    (hrect : Rect board) (h1 : 1 ≤ c) (h2 : c ≤ (num_cols board : Int)) :
    ∃ b, copy_and_drop_piece board player c = some b := by
  have hj : pyIdx (num_cols board) (c - 1) = some (c - 1).toNat :=
    pyIdx_of_nonneg (by omega) (by omega)
  have hs : (drop_piece_rev player (c - 1) board.reverse).isSome :=
    drop_piece_rev_isSome hj board.reverse
      (fun r hr => hrect r (List.mem_reverse.mp hr))
  rw [Option.isSome_iff_exists] at hs
  obtain ⟨br, hbr⟩ := hs
  exact ⟨br.2.reverse, by rw [copy_and_drop_piece, drop_piece, hbr]; rfl⟩

/-- Modelled from the spec wording of 4.4: a drop of `q` in column `c`
makes `q` the winner (the no-exception variant used to state the
refinement; under the claims' hypotheses `copy_and_drop_piece` never
raises). -/
def wins_spec (k : Nat) (board : Board) (q : Player) (c : Int) : Bool :=
  end_of_game k ((copy_and_drop_piece board q c).getD board) = (q : Int)

/-- Modelled from the spec wording of 4.4: opponents in turn order
starting from the player after `player`, wrapping around. -/
def opponent_order (num_players : Nat) (player : Player) : List Player :=
  (List.range (num_players - 1)).map (fun i => (player + i) % num_players + 1)

/-- Modelled from the spec wording of 4.4 (`winOrBlock`): the first free
column that wins for `player`, else the first free column that would let
the soonest opponent win, else no column. -/
def win_or_block_spec (k num_players : Nat) (board : Board)
    (free_columns : List Int) (player : Player) : Option Int :=
  match free_columns.find? (wins_spec k board player) with
  | some c => some c
  | none =>
    (opponent_order num_players player).findSome?
      (fun opp => free_columns.find? (wins_spec k board opp))

lemma find_win_column_eq (k : Nat) (board : Board) (q : Player)
    (hrect : Rect board) :
    ∀ columns : List Int, (∀ c ∈ columns, 1 ≤ c ∧ c ≤ (num_cols board : Int)) →
      find_win_column k board q columns =
        some (columns.find? (wins_spec k board q))
  | [], _ => rfl
  | c :: rest, hc => by
    obtain ⟨b, hb⟩ := copy_and_drop_isSome board q hrect
      (hc c (List.mem_cons_self c rest)).1 (hc c (List.mem_cons_self c rest)).2
    have ih : find_win_column k board q rest = some (rest.find? (wins_spec k board q)) :=
      find_win_column_eq k board q hrect rest
        (fun x hx => hc x (List.mem_cons_of_mem _ hx))
    rw [find_win_column, hb, List.find?_cons]
    dsimp only
    by_cases hwin : end_of_game k b = (q : Int)
    · have hwq : wins_spec k board q c = true := by
        rw [wins_spec, hb]
        simpa using hwin
      rw [if_pos hwin, hwq]
    · have hwq : wins_spec k board q c = false := by
        rw [wins_spec, hb]
        simpa using hwin
      rw [if_neg hwin, ih, hwq]

lemma win_or_block_opps_eq (k num_players : Nat) (board : Board)
    (free_columns : List Int) (player : Player) (hrect : Rect board)
    (hcols : ∀ c ∈ free_columns, 1 ≤ c ∧ c ≤ (num_cols board : Int)) :
    ∀ is : List Nat,
      win_or_block_opps k num_players board free_columns player is =
        some ((is.map (fun i => (player + i) % num_players + 1)).findSome?
          (fun opp => free_columns.find? (wins_spec k board opp)))
  | [] => rfl
  | i :: is => by
    rw [win_or_block_opps,
      find_win_column_eq k board ((player + i) % num_players + 1) hrect
        free_columns hcols, List.map_cons, List.findSome?_cons]
    cases hf : free_columns.find? (wins_spec k board ((player + i) % num_players + 1)) with
    | some c => rfl
    | none =>
      exact win_or_block_opps_eq k num_players board free_columns player hrect hcols is

/-- C5: `win_or_block_column` returns the first free column (in the given
order) whose drop wins for `player`; failing that it scans opponents in
turn order from the next player (wrapping) and returns the first free
column that would let that opponent win now; otherwise no column.  On the
concrete 6×7 board with bottom row `[1,0,1,1,1,0,0]`, k = 4, 2 players and
player 2 it returns column 2. -/
theorem c5_win_or_block (k num_players : Nat) (board : Board)
    (free_columns : List Int) (player : Player) (hrect : Rect board)
    (hcols : ∀ c ∈ free_columns, 1 ≤ c ∧ c ≤ (num_cols board : Int)) :
    win_or_block_column k num_players board free_columns player =
      some (win_or_block_spec k num_players board free_columns player)
  ∧ win_or_block_column 4 2
      [[0, 0, 0, 0, 0, 0, 0], [0, 0, 0, 0, 0, 0, 0], [0, 0, 0, 0, 0, 0, 0],
       [0, 0, 0, 0, 0, 0, 0], [0, 0, 0, 0, 0, 0, 0], [1, 0, 1, 1, 1, 0, 0]]
      [1, 2, 3, 4, 5, 6, 7] 2 = some (some 2) := by
  constructor
  · rw [win_or_block_column, find_win_column_eq k board player hrect free_columns hcols,
      win_or_block_spec]
    cases hf : free_columns.find? (wins_spec k board player) with
    | some c => rfl
    | none =>
      rw [win_or_block_opps_eq k num_players board free_columns player hrect hcols]
      rfl
  · decide

/-- Witness for C5 at a concrete input. -/
theorem c5_witness :
    win_or_block_column 4 2 [[0]] [1] 1 = some (win_or_block_spec 4 2 [[0]] [1] 1) :=
  (c5_win_or_block 4 2 [[0]] [1] 1 (by decide) (by decide)).1

/-! ### Claim C3: `column_score` counterexample, and claim C9 -/

/-- C3 counterexample: on the board `[[1,1,1,0]]` with k = 4, player 1
dropping in (free) column 4 completes a run of length 4; the code indexes
`counts[4 - 4 - 1] = counts[-1]`, which Python wraps to the last row (run
length 2).  So `column_score` returns `(True, [[0,0],[1,0]])` although the
post-drop board `[[1,1,1,1]]` has no player run of length 2 at all — the
claimed reading "row (k - runLength - 1) holds the count of extendable
runs of length runLength" (which would give `[[0,0],[0,0]]`) is false. -/
theorem c3_counterexample :
    column_score 4 2 [[1, 1, 1, 0]] 1 4 = some (true, [[0, 0], [1, 0]])
  ∧ copy_and_drop_piece [[1, 1, 1, 0]] 1 4 = some [[1, 1, 1, 1]]
  ∧ ((pieces_in_a_row [[1, 1, 1, 1]]).filter
      (fun r => r.1 == 1 && r.2.length == 2)).length = 0
  ∧ some (true, [[0, 0], [1, 0]]) ≠ some ((true : Bool), [[0, 0], [0, 0]]) := by
  exact ⟨by decide, by decide, by decide, by decide⟩

/-- C9: in `column_score` the extendability of the player's runs is
checked against the pre-drop board while each opponent's runs are checked
against that opponent's own post-drop board.  Consequence exhibited here:
with k = 4 on `[[1,1,0,0]]`, player 1 dropping in column 4 gives the board
`[[1,1,0,1]]`, whose run `(1, [(0,0),(0,1)])` does not contain the new
piece at (0,3); `can_win_from_pieces` accepts it on the pre-drop board but
rejects it on the post-drop board, because the new piece occupies one of
the empty cells the run needs to reach length 4 — and `column_score`
counts it (the length-2 row reads `[1, 0]`). -/
theorem c9_extendability_asymmetry :
    copy_and_drop_piece [[1, 1, 0, 0]] 1 4 = some [[1, 1, 0, 1]]
  ∧ (1, [((0 : Nat), (0 : Nat)), (0, 1)]) ∈ pieces_in_a_row [[1, 1, 0, 1]]
  ∧ ((0 : Nat), (3 : Nat)) ∉ [((0 : Nat), (0 : Nat)), (0, 1)]
  ∧ cellAt [[1, 1, 0, 1]] (0, 3) = 1
  ∧ can_win_from_pieces 4 [[1, 1, 0, 0]] [(0, 0), (0, 1)] = some true
  ∧ can_win_from_pieces 4 [[1, 1, 0, 1]] [(0, 0), (0, 1)] = some false
  ∧ column_score 4 2 [[1, 1, 0, 0]] 1 4 = some (true, [[0, 0], [1, 0]])
  ∧ score_player_runs 4 [[1, 1, 0, 1]] 1 [[0, 0], [0, 0]]
      (pieces_in_a_row [[1, 1, 0, 1]]) = some [[0, 0], [0, 0]] := by
  refine ⟨by decide, by decide, by decide, by decide, by decide, by decide,
    by decide, by decide⟩

/-! ### Claim C2, layer A: maximal-segment decomposition of one line -/

/-- The maximal equal-cell segments of a line, in order (all of them,
including empty-cell ones and length-1 ones). -/
def segs : List (Position × Cell) → List (Cell × List Position)
  | [] => []
  | (a, c) :: rest =>
    match segs rest with
    | [] => [(c, [a])]
    | (c', as') :: t =>
      if c = c' then (c, a :: as') :: t else (c, [a]) :: (c', as') :: t

/-- Prepend a pending segment (cell `p`, positions `acc`) to a segment
list, merging with the first segment when the cells agree. -/
def mergeSegs (p : Cell) (acc : List Position) :
    List (Cell × List Position) → List (Cell × List Position)
  | [] => [(p, acc)]
  | (c', as') :: t =>
    if c' = p then (p, acc ++ as') :: t else (p, acc) :: (c', as') :: t

/-- The filter `pieces_in_a_row_from_cells` applies to the segments:
length at least 2 and a non-empty owner. -/
def run_keep (s : Cell × List Position) : Bool :=
  decide (1 < s.2.length) && decide (s.1 ≠ 0)

lemma segs_cons (a : Position) (c : Cell) (rest : List (Position × Cell)) :
    segs ((a, c) :: rest) = mergeSegs c [a] (segs rest) := by
  rw [segs]
  cases segs rest with
  | nil => rfl
  | cons s t =>
    obtain ⟨c', as'⟩ := s
    dsimp only [mergeSegs]
    by_cases h : c = c'
    · rw [if_pos h, if_pos h.symm]
      rfl
    · rw [if_neg h, if_neg (fun hc => h hc.symm)]

lemma mergeSegs_head_cell (c : Cell) (as : List Position)
    (S : List (Cell × List Position)) :
    ∃ bs t, mergeSegs c as S = (c, bs) :: t := by
  cases S with
  | nil => exact ⟨as, [], rfl⟩
  | cons s t =>
    obtain ⟨c', as'⟩ := s
    dsimp only [mergeSegs]
    by_cases h : c' = c
    · rw [if_pos h]
      exact ⟨as ++ as', t, rfl⟩
    · rw [if_neg h]
      exact ⟨as, (c', as') :: t, rfl⟩

lemma mergeSegs_merge (p : Cell) (acc : List Position) (a : Position)
    (S : List (Cell × List Position)) :
    mergeSegs p acc (mergeSegs p [a] S) = mergeSegs p (acc ++ [a]) S := by
  cases S with
  | nil =>
    dsimp only [mergeSegs]
    rw [if_pos rfl]
  | cons s t =>
    obtain ⟨c', as'⟩ := s
    dsimp only [mergeSegs]
    by_cases h : c' = p
    · rw [if_pos h]
      dsimp only [mergeSegs]
      rw [if_pos rfl, if_pos h, List.append_assoc]
    · rw [if_neg h]
      dsimp only [mergeSegs]
      rw [if_pos rfl, if_neg h]

lemma mergeSegs_ne (p c : Cell) (acc : List Position) (hne : c ≠ p)
    (a : Position) (S : List (Cell × List Position)) :
    mergeSegs p acc (mergeSegs c [a] S) = (p, acc) :: mergeSegs c [a] S := by
  obtain ⟨bs, t, hbs⟩ := mergeSegs_head_cell c [a] S
  rw [hbs]
  dsimp only [mergeSegs]
  rw [if_neg hne]

lemma run_keep_iff (p : Cell) (acc : List Position) :
    run_keep (p, acc) = true ↔ (1 < acc.length ∧ p ≠ 0) := by
  rw [run_keep]
  simp

lemma runs_flush_eq_filter (p : Cell) (acc : List Position) :
    runs_flush p acc = [(p, acc)].filter run_keep := by
  rw [runs_flush, List.filter_cons, List.filter_nil]
  by_cases h : 1 < acc.length ∧ p ≠ 0
  · rw [if_pos h, if_pos ((run_keep_iff p acc).mpr h)]
  · rw [if_neg h, if_neg (fun hc => h ((run_keep_iff p acc).mp hc))]

lemma runs_aux_eq_filter :
    ∀ (cs : List (Position × Cell)) (p : Cell) (acc : List Position),
      runs_from_cells_aux p acc cs = (mergeSegs p acc (segs cs)).filter run_keep
  | [], p, acc => by
    rw [runs_from_cells_aux, segs, mergeSegs, runs_flush_eq_filter]
  | (a, c) :: rest, p, acc => by
    rw [runs_from_cells_aux, segs_cons]
    by_cases h : c = p
    · subst h
      rw [if_pos rfl, mergeSegs_merge]
      exact runs_aux_eq_filter rest c (acc ++ [a])
    · rw [if_neg h, mergeSegs_ne p c acc h, List.filter_cons,
        runs_aux_eq_filter rest c [a], runs_flush_eq_filter,
        List.filter_cons, List.filter_nil]
      by_cases hk : run_keep (p, acc) = true
      · rw [if_pos hk, if_pos hk]
        rfl
      · rw [if_neg hk, if_neg hk]
        rfl

/-- Layer-A main equation: one line's runs are exactly the maximal
segments of length ≥ 2 with non-empty owner, in order. -/
lemma runs_from_cells_eq_filter_segs (cs : List (Position × Cell)) :
    runs_from_cells cs = (segs cs).filter run_keep := by
  rw [runs_from_cells, runs_aux_eq_filter]
  cases hs : segs cs with
  | nil =>
    rw [mergeSegs, List.filter_cons, List.filter_nil,
      if_neg (fun hc => by simpa using ((run_keep_iff 0 []).mp hc).1)]
  | cons s t =>
    obtain ⟨c', as'⟩ := s
    dsimp only [mergeSegs]
    by_cases h : c' = 0
    · rw [if_pos h, List.filter_cons, List.filter_cons,
        if_neg (fun hc => ((run_keep_iff 0 ([] ++ as')).mp hc).2 rfl),
        if_neg (fun hc => ((run_keep_iff c' as').mp hc).2 h)]
    · rw [if_neg h, List.filter_cons,
        if_neg (fun hc => by simpa using ((run_keep_iff 0 []).mp hc).1)]

/-- Reconstruction: concatenating the segments (with their cells) gives
back the line. -/
lemma segs_flatten :
    ∀ cs : List (Position × Cell),
      ((segs cs).map (fun s => s.2.map (fun a => (a, s.1)))).flatten = cs
  | [] => rfl
  | (a, c) :: rest => by
    have ih := segs_flatten rest
    rw [segs_cons]
    cases hs : segs rest with
    | nil =>
      rw [hs] at ih
      simp only [List.map_nil, List.flatten_nil] at ih
      rw [mergeSegs]
      simp [← ih]
    | cons s t =>
      obtain ⟨c', as'⟩ := s
      rw [hs] at ih
      dsimp only [mergeSegs]
      by_cases h : c' = c
      · rw [if_pos h]
        subst h
        simp only [List.map_cons, List.flatten_cons] at ih ⊢
        simp [← ih]
      · rw [if_neg h]
        simp only [List.map_cons, List.flatten_cons] at ih ⊢
        simp [← ih]

/-- Adjacent segments have different cells. -/
lemma segs_chain :
    ∀ cs : List (Position × Cell), (segs cs).Chain' (fun s t => s.1 ≠ t.1)
  | [] => List.chain'_nil
  | (a, c) :: rest => by
    have ih := segs_chain rest
    rw [segs_cons]
    cases hs : segs rest with
    | nil => simp [mergeSegs]
    | cons s t =>
      obtain ⟨c', as'⟩ := s
      rw [hs] at ih
      dsimp only [mergeSegs]
      by_cases h : c' = c
      · rw [if_pos h]
        subst h
        rw [List.chain'_cons'] at ih ⊢
        exact ⟨fun y hy => ih.1 y hy, ih.2⟩
      · rw [if_neg h]
        exact List.Chain'.cons (fun hc => h (hc.symm)) ih

/-- Every segment is non-empty. -/
lemma segs_nonempty :
    ∀ cs : List (Position × Cell), ∀ s ∈ segs cs, s.2 ≠ []
  | [] => by intro s hs; exact absurd hs (List.not_mem_nil s)
  | (a, c) :: rest => by
    intro s hs
    have ih := segs_nonempty rest
    rw [segs_cons] at hs
    cases hseg : segs rest with
    | nil =>
      rw [hseg] at hs
      dsimp only [mergeSegs] at hs
      rw [List.mem_singleton] at hs
      subst hs
      simp
    | cons s0 t =>
      obtain ⟨c', as'⟩ := s0
      rw [hseg] at hs ih
      dsimp only [mergeSegs] at hs
      by_cases h : c' = c
      · rw [if_pos h] at hs
        rcases List.mem_cons.mp hs with hh | hh
        · subst hh
          simp
        · exact ih s (List.mem_cons_of_mem _ hh)
      · rw [if_neg h] at hs
        rcases List.mem_cons.mp hs with hh | hh
        · subst hh
          simp
        · exact ih s hh

/-! ### Claim C2, layer B: membership in `segs` = maximal segment -/

/-- `as` is (the position list of) a maximal constant-cell segment of the
line `cs` with cell value `c`: the line splits as `pre ++ as-block ++ suf`
with a different cell (or nothing) on both sides. -/
def IsMaxSeg (cs : List (Position × Cell)) (c : Cell) (as : List Position) : Prop :=
  as ≠ [] ∧ ∃ pre suf, cs = pre ++ as.map (fun a => (a, c)) ++ suf ∧
    (∀ x ∈ pre.getLast?, x.2 ≠ c) ∧ (∀ x ∈ suf.head?, x.2 ≠ c)

lemma block_ne_nil {c : Cell} {as : List Position} (h : as ≠ []) :
    as.map (fun a => (a, c)) ≠ [] := by
  simpa using h

lemma option_some_or {α : Type} (a : α) (o : Option α) : (some a).or o = some a := rfl

lemma mem_segs_isMaxSeg {cs : List (Position × Cell)} {c : Cell}
    {as : List Position} (hmem : (c, as) ∈ segs cs) : IsMaxSeg cs c as := by
  obtain ⟨S₁, S₂, hsplit⟩ := List.append_of_mem hmem
  have hflat := segs_flatten cs
  rw [hsplit] at hflat
  have hchain := segs_chain cs
  rw [hsplit] at hchain
  have hne : as ≠ [] := segs_nonempty cs (c, as) hmem
  refine ⟨hne, (S₁.map (fun s => s.2.map (fun a => (a, s.1)))).flatten,
    (S₂.map (fun s => s.2.map (fun a => (a, s.1)))).flatten, ?_, ?_, ?_⟩
  · rw [← hflat]
    simp
  · intro x hx
    rcases List.eq_nil_or_concat S₁ with h1 | ⟨S₁', sl, h1⟩
    · subst h1
      simp at hx
    · rw [List.concat_eq_append] at h1
      subst h1
      have hslne : sl.2 ≠ [] :=
        segs_nonempty cs sl (by rw [hsplit]; simp)
      obtain ⟨a, ha⟩ : ∃ a, sl.2.getLast? = some a := by
        cases hgl : sl.2.getLast? with
        | none => exact absurd (List.getLast?_eq_none_iff.mp hgl) hslne
        | some a => exact ⟨a, rfl⟩
      have hlastx : ((S₁' ++ [sl]).map
          (fun s => s.2.map (fun a => (a, s.1)))).flatten.getLast? =
          some (a, sl.1) := by
        rw [List.map_append, List.flatten_append, List.getLast?_append]
        simp only [List.map_cons, List.map_nil, List.flatten_cons, List.flatten_nil,
          List.append_nil]
        rw [List.getLast?_map, ha, Option.map_some']
        exact option_some_or _ _
      rw [hlastx, Option.mem_def, Option.some.injEq] at hx
      have hrel : sl.1 ≠ c := by
        rw [List.chain'_append] at hchain
        exact hchain.2.2 sl (by rw [List.getLast?_concat]; rfl) (c, as) rfl
      rw [← hx]
      exact hrel
  · intro x hx
    cases hS2 : S₂ with
    | nil =>
      subst hS2
      simp at hx
    | cons sh S₂' =>
      subst hS2
      have hshne : sh.2 ≠ [] :=
        segs_nonempty cs sh (by rw [hsplit]; simp)
      obtain ⟨b, hb⟩ : ∃ b, sh.2.head? = some b := by
        cases hgl : sh.2.head? with
        | none => exact absurd (List.head?_eq_none_iff.mp hgl) hshne
        | some b => exact ⟨b, rfl⟩
      have hheadx : ((sh :: S₂').map
          (fun s => s.2.map (fun a => (a, s.1)))).flatten.head? =
          some (b, sh.1) := by
        rw [List.map_cons, List.flatten_cons, List.head?_append,
          List.head?_map, hb, Option.map_some']
        exact option_some_or _ _
      rw [hheadx, Option.mem_def, Option.some.injEq] at hx
      have hrel : c ≠ sh.1 := by
        rw [List.chain'_append] at hchain
        have hch2 := hchain.2.1
        rw [List.chain'_cons'] at hch2
        exact hch2.1 sh (by simp)
      rw [← hx]
      exact fun hcc => hrel hcc.symm

lemma segs_head_structure (cs : List (Position × Cell)) (s : Cell × List Position)
    (t : List (Cell × List Position)) (h : segs cs = s :: t) :
    ∃ a rest0, cs = (a, s.1) :: rest0 ∧ s.2.head? = some a := by
  have hflat := segs_flatten cs
  rw [h] at hflat
  have hsne : s.2 ≠ [] := segs_nonempty cs s (by rw [h]; exact List.mem_cons_self s t)
  cases hs2 : s.2 with
  | nil => exact absurd hs2 hsne
  | cons a as' =>
    refine ⟨a, as'.map (fun x => (x, s.1)) ++
      (t.map (fun u => u.2.map (fun x => (x, u.1)))).flatten, ?_, rfl⟩
    rw [← hflat, List.map_cons, List.flatten_cons, hs2, List.map_cons]
    rfl

lemma segs_block_append (c : Cell) (suf : List (Position × Cell))
    (hsuf : ∀ x ∈ suf.head?, x.2 ≠ c) :
    ∀ as : List Position, as ≠ [] →
      segs (as.map (fun a => (a, c)) ++ suf) = (c, as) :: segs suf
  | [], h => absurd rfl h
  | [a], _ => by
    rw [List.map_cons, List.map_nil, List.singleton_append, segs_cons]
    cases hs : segs suf with
    | nil => rfl
    | cons s t =>
      obtain ⟨a0, rest0, hcs, hh⟩ := segs_head_structure suf s t hs
      dsimp only [mergeSegs]
      rw [if_neg (hsuf (a0, s.1) (by rw [hcs]; rfl))]
  | a :: b :: as', _ => by
    rw [List.map_cons, List.cons_append, segs_cons,
      segs_block_append c suf hsuf (b :: as') (by simp)]
    dsimp only [mergeSegs]
    rw [if_pos rfl]
    rfl

lemma isMaxSeg_mem_aux :
    ∀ (pre : List (Position × Cell)) (c : Cell) (as : List Position)
      (suf : List (Position × Cell)), as ≠ [] →
      (∀ x ∈ pre.getLast?, x.2 ≠ c) → (∀ x ∈ suf.head?, x.2 ≠ c) →
      ((pre ++ as.map (fun a => (a, c)) ++ suf).map Prod.fst).Nodup →
      (c, as) ∈ segs (pre ++ as.map (fun a => (a, c)) ++ suf)
  | [], c, as, suf, hne, _, hsuf, _ => by
    rw [List.nil_append, segs_block_append c suf hsuf as hne]
    exact List.mem_cons_self _ _
  | (b, cb) :: pre', c, as, suf, hne, hpre, hsuf, hnd => by
    have hpre' : ∀ x ∈ pre'.getLast?, x.2 ≠ c := by
      intro x hx
      apply hpre
      cases hp' : pre' with
      | nil => subst hp'; simp at hx
      | cons y ys =>
        subst hp'
        rw [List.getLast?_cons_cons]
        exact hx
    have hnd' : ((pre' ++ as.map (fun a => (a, c)) ++ suf).map Prod.fst).Nodup := by
      rw [List.cons_append, List.cons_append, List.map_cons] at hnd
      exact (List.nodup_cons.mp hnd).2
    have ih := isMaxSeg_mem_aux pre' c as suf hne hpre' hsuf hnd'
    rw [List.cons_append, List.cons_append, segs_cons]
    cases hs : segs (pre' ++ as.map (fun a => (a, c)) ++ suf) with
    | nil =>
      rw [hs] at ih
      exact absurd ih (List.not_mem_nil _)
    | cons s t =>
      rw [hs] at ih
      obtain ⟨sc, sas⟩ := s
      dsimp only [mergeSegs]
      by_cases hcb : sc = cb
      · rw [if_pos hcb]
        rcases List.mem_cons.mp ih with hh | hh
        · exfalso
          obtain ⟨hceq, haseq⟩ := Prod.mk.injEq .. ▸ hh
          cases hp' : pre' with
          | nil =>
            subst hp'
            exact hpre (b, cb) rfl (by rw [← hcb, ← hceq])
          | cons y ys =>
            subst hp'
            obtain ⟨a0, rest0, hcs, hhd⟩ :=
              segs_head_structure _ (sc, sas) t hs
            dsimp only at hcs hhd
            have hy : y = (a0, sc) := by
              rw [List.cons_append, List.cons_append] at hcs
              exact (List.cons.injEq .. ▸ hcs).1
            have ha0as : a0 ∈ as := by
              rw [haseq]
              cases hsas : sas with
              | nil =>
                rw [hsas] at hhd
                exact Option.noConfusion hhd
              | cons z zs =>
                rw [hsas, List.head?_cons, Option.some.injEq] at hhd
                exact List.mem_cons.mpr (Or.inl hhd.symm)
            have hdisj : ((y :: ys).map Prod.fst).Disjoint
                ((as.map (fun a => (a, c)) ++ suf).map Prod.fst) := by
              apply List.disjoint_of_nodup_append
              rw [← List.map_append]
              simpa using hnd'
            have hmem1 : a0 ∈ (y :: ys).map Prod.fst := by
              rw [List.map_cons, hy]
              exact List.mem_cons_self _ _
            have hmem2 : a0 ∈ ((as.map (fun a => (a, c)) ++ suf).map Prod.fst) := by
              rw [List.map_append]
              refine List.mem_append_left _ ?_
              rw [List.map_map]
              simpa using ha0as
            exact hdisj hmem1 hmem2
        · exact List.mem_cons_of_mem _ hh
      · rw [if_neg hcb]
        exact List.mem_cons_of_mem _ ih

lemma isMaxSeg_mem_segs {cs : List (Position × Cell)} {c : Cell}
    {as : List Position} (hnd : (cs.map Prod.fst).Nodup)
    (h : IsMaxSeg cs c as) : (c, as) ∈ segs cs := by
  obtain ⟨hne, pre, suf, hdec, hpre, hsuf⟩ := h
  subst hdec
  exact isMaxSeg_mem_aux pre c as suf hne hpre hsuf hnd

lemma segs_nodup (cs : List (Position × Cell))
    (hnd : (cs.map Prod.fst).Nodup) : (segs cs).Nodup := by
  have hflat : ((segs cs).map (fun s => s.2)).flatten.Nodup := by
    have heq : ((segs cs).map (fun s => s.2)).flatten = cs.map Prod.fst := by
      conv_rhs => rw [← segs_flatten cs]
      rw [List.map_flatten, List.map_map]
      congr 1
      apply List.map_congr_left
      intro s _
      rw [Function.comp_apply, List.map_map]
      exact (List.map_id s.2).symm
    rw [heq]
    exact hnd
  rw [List.nodup_flatten] at hflat
  obtain ⟨_, hpair⟩ := hflat
  rw [List.pairwise_map] at hpair
  refine List.Pairwise.imp_of_mem ?_ hpair
  intro a b ha _ hdisj heq
  obtain ⟨x, hx⟩ := List.exists_mem_of_ne_nil a.2 (segs_nonempty cs a ha)
  exact hdisj hx (by rw [← heq]; exact hx)

lemma runs_from_cells_nodup (cs : List (Position × Cell))
    (hnd : (cs.map Prod.fst).Nodup) : (runs_from_cells cs).Nodup := by
  rw [runs_from_cells_eq_filter_segs]
  exact (segs_nodup cs hnd).filter run_keep

/-- Layer-B main characterization: a pair is yielded for a line with
distinct positions exactly when it is a maximal segment of length ≥ 2
with a non-empty owner. -/
lemma mem_runs_from_cells_iff {cs : List (Position × Cell)} {c : Cell}
    {as : List Position} (hnd : (cs.map Prod.fst).Nodup) :
    (c, as) ∈ runs_from_cells cs ↔
      IsMaxSeg cs c as ∧ 1 < as.length ∧ c ≠ 0 := by
  rw [runs_from_cells_eq_filter_segs, List.mem_filter]
  constructor
  · rintro ⟨hmem, hkeep⟩
    exact ⟨mem_segs_isMaxSeg hmem, (run_keep_iff c as).mp hkeep⟩
  · rintro ⟨hmax, hlen, hc⟩
    exact ⟨isMaxSeg_mem_segs hnd hmax, (run_keep_iff c as).mpr ⟨hlen, hc⟩⟩

/-! ### Claim C2, layer C: the four directions and the board-level
maximal-run predicate -/

/-- One step from `p` in direction `d` (`none` when it would leave the
grid's non-negative quadrant). -/
def stepPos (d : Int × Int) (p : Position) : Option Position :=
  if 0 ≤ (p.1 : Int) + d.1 ∧ 0 ≤ (p.2 : Int) + d.2 then
    some (((p.1 : Int) + d.1).toNat, ((p.2 : Int) + d.2).toNat)
  else none

/-- The four scan directions: row →, column ↓, diagonal ↘, diagonal ↗. -/
def dirs : List (Int × Int) := [(0, 1), (1, 0), (1, 1), (-1, 1)]

/-- The reverse of a direction. -/
def negD (d : Int × Int) : Int × Int := (-d.1, -d.2)

/-- `ps` is a consecutive chain of positions in direction `d`. -/
def StepChain (d : Int × Int) (ps : List Position) : Prop :=
  List.Chain' (fun a b => stepPos d a = some b) ps

/-- The cell one step from `p` in direction `d` is not an in-board cell
holding `c` (either off the board or a different value). -/
def BlockedAt (board : Board) (c : Cell) (d : Int × Int) (p : Position) : Prop :=
  ∀ q ∈ stepPos d p, ¬(inBoard board q ∧ cellAt board q = c)

/-- A maximal run of the board in direction `d`: non-empty owner, length
at least 2, all cells on the board holding the owner, consecutive in `d`,
and not extendable at either end. -/
def IsMaxRunD (board : Board) (d : Int × Int) (r : Player × List Position) : Prop :=
  r.1 ≠ 0 ∧ 2 ≤ r.2.length ∧
  (∀ p ∈ r.2, inBoard board p ∧ cellAt board p = r.1) ∧
  StepChain d r.2 ∧
  (∀ pl ∈ r.2.getLast?, BlockedAt board r.1 d pl) ∧
  (∀ ph ∈ r.2.head?, BlockedAt board r.1 (negD d) ph)

/-- A maximal run of the board in one of the four scan directions. -/
def IsMaxRun (board : Board) (r : Player × List Position) : Prop :=
  ∃ d ∈ dirs, IsMaxRunD board d r

instance decInBoard (board : Board) (p : Position) : Decidable (inBoard board p) :=
  inferInstanceAs (Decidable (_ ∧ _))

instance decBlockedAt (board : Board) (c : Cell) (d : Int × Int) (p : Position) :
    Decidable (BlockedAt board c d p) :=
  inferInstanceAs (Decidable (∀ q ∈ stepPos d p, ¬(inBoard board q ∧ cellAt board q = c)))

instance decStepChain (d : Int × Int) (ps : List Position) :
    Decidable (StepChain d ps) :=
  inferInstanceAs (Decidable (List.Chain' _ ps))

instance decIsMaxRunD (board : Board) (d : Int × Int) (r : Player × List Position) :
    Decidable (IsMaxRunD board d r) :=
  inferInstanceAs (Decidable (_ ∧ _ ∧ _ ∧ _ ∧ _ ∧ _))

instance decIsMaxRun (board : Board) (r : Player × List Position) :
    Decidable (IsMaxRun board r) :=
  inferInstanceAs (Decidable (∃ d ∈ dirs, IsMaxRunD board d r))

lemma stepPos_some {d : Int × Int} {p q : Position} (h : stepPos d p = some q) :
    (q.1 : Int) = (p.1 : Int) + d.1 ∧ (q.2 : Int) = (p.2 : Int) + d.2 := by
  rw [stepPos] at h
  by_cases hc : 0 ≤ (p.1 : Int) + d.1 ∧ 0 ≤ (p.2 : Int) + d.2
  · rw [if_pos hc] at h
    have h' : ((((p.1 : Int) + d.1).toNat, ((p.2 : Int) + d.2).toNat) : Position) = q :=
      Option.some_inj.mp h
    obtain ⟨q1, q2⟩ := q
    obtain ⟨e1, e2⟩ := Prod.mk.injEq .. ▸ h'
    constructor
    · rw [← e1, Int.toNat_of_nonneg hc.1]
    · rw [← e2, Int.toNat_of_nonneg hc.2]
  · rw [if_neg hc] at h
    exact Option.noConfusion h

lemma stepPos_of_eq {d : Int × Int} {p q : Position}
    (h1 : (q.1 : Int) = (p.1 : Int) + d.1) (h2 : (q.2 : Int) = (p.2 : Int) + d.2) :
    stepPos d p = some q := by
  rw [stepPos, if_pos ⟨by omega, by omega⟩]
  congr 1
  obtain ⟨q1, q2⟩ := q
  simp only [Prod.mk.injEq]
  constructor
  · omega
  · omega

lemma stepPos_inv {d : Int × Int} {p q : Position} (h : stepPos d p = some q) :
    stepPos (negD d) q = some p := by
  obtain ⟨h1, h2⟩ := stepPos_some h
  exact stepPos_of_eq (by rw [negD]; omega) (by rw [negD]; omega)

/-- The clean position lists of the scanned lines. -/
def hLine (nc : Nat) (i : Nat) : List Position :=
  (List.range nc).map (fun j => (i, j))

def vLine (nr : Nat) (j : Nat) : List Position :=
  (List.range nr).map (fun i => (i, j))

def d1Line (len : Nat) (start : Position) : List Position :=
  (List.range len).map (fun t => (start.1 + t, start.2 + t))

def d2Line (len : Nat) (start : Position) : List Position :=
  (List.range len).map (fun t => (start.1 - t, start.2 + t))

/-- A position paired with its cell, the element form used by the scanner. -/
def posCell (board : Board) (p : Position) : Position × Cell :=
  (p, cellAt board p)

lemma list_eq_of_getElem? {α : Type} (l1 l2 : List α) (hlen : l1.length = l2.length)
    (h : ∀ i, i < l1.length → l1[i]? = l2[i]?) : l1 = l2 := by
  apply List.ext_getElem?
  intro n
  by_cases hn : n < l1.length
  · exact h n hn
  · rw [List.getElem?_eq_none (le_of_not_lt hn),
      List.getElem?_eq_none (by omega)]

lemma cellAt_of_getElem {board : Board} {i j : Nat} {row : List Cell}
    (hrow : board[i]? = some row) (hj : j < row.length) :
    cellAt board (i, j) = row[j] := by
  rw [cellAt]
  dsimp only
  have hb : board.getD i [] = row := by
    rw [List.getD_eq_getElem?_getD, hrow]
    rfl
  rw [hb, List.getD_eq_getElem?_getD, List.getElem?_eq_getElem hj]
  rfl

lemma bwp_row_eq (board : Board) (hrect : Rect board) (i : Nat)
    (row : List Cell) (hrow : board[i]? = some row) :
    row.enum.map (fun jc => ((i, jc.1), jc.2)) =
      (hLine (num_cols board) i).map (posCell board) := by
  have hlen : row.length = num_cols board :=
    hrect row (List.mem_iff_getElem?.mpr ⟨i, hrow⟩)
  apply list_eq_of_getElem?
  · simp [hLine, hlen]
  · intro j hj
    simp only [List.length_map, List.enum_length] at hj
    rw [List.getElem?_map, List.getElem?_enum,
      List.getElem?_eq_getElem hj, Option.map_some', hLine, List.getElem?_map,
      List.getElem?_map, List.getElem?_range (by omega : j < num_cols board),
      Option.map_some', Option.map_some']
    simp only [Option.map_some', posCell]
    rw [cellAt_of_getElem hrow hj]

lemma bwp_getElem? (board : Board) (hrect : Rect board) (i : Nat) :
    (board_with_positions board)[i]? =
      if i < num_rows board then
        some ((hLine (num_cols board) i).map (posCell board))
      else none := by
  rw [board_with_positions, List.getElem?_map, List.getElem?_enum]
  by_cases hi : i < num_rows board
  · rw [num_rows] at hi
    obtain ⟨row, hrow⟩ : ∃ row, board[i]? = some row :=
      ⟨board[i], List.getElem?_eq_getElem hi⟩
    rw [hrow, Option.map_some', Option.map_some', if_pos (by rw [num_rows]; exact hi)]
    dsimp only
    rw [bwp_row_eq board hrect i row hrow]
  · rw [num_rows] at hi
    rw [List.getElem?_eq_none (by omega), if_neg (by rw [num_rows]; omega)]
    rfl

lemma bwp_length (board : Board) :
    (board_with_positions board).length = num_rows board := by
  simp [board_with_positions, num_rows]

/-- Evaluation of the horizontal line family. -/
lemma linesH_eq (board : Board) (hrect : Rect board) :
    linesH board = (List.range (num_rows board)).map
      (fun i => (hLine (num_cols board) i).map (posCell board)) := by
  apply list_eq_of_getElem?
  · simp [linesH, bwp_length]
  · intro i hi
    rw [linesH] at hi ⊢
    rw [bwp_length] at hi
    rw [bwp_getElem? board hrect i, if_pos hi, List.getElem?_map,
      List.getElem?_range hi, Option.map_some']

/-- Evaluation of the vertical line family. -/
lemma linesV_eq (board : Board) (hrect : Rect board) :
    linesV board = (List.range (num_cols board)).map
      (fun j => (vLine (num_rows board) j).map (posCell board)) := by
  rw [linesV]
  apply List.map_congr_left
  intro j hj
  rw [List.mem_range] at hj
  apply list_eq_of_getElem?
  · simp [bwp_length, vLine]
  · intro i hi
    simp only [List.length_map, bwp_length] at hi
    rw [List.getElem?_map, bwp_getElem? board hrect i, if_pos hi,
      Option.map_some', vLine, List.getElem?_map, List.getElem?_map,
      List.getElem?_range hi, Option.map_some', Option.map_some']
    congr 1
    rw [List.getD_eq_getElem?_getD, List.getElem?_map, hLine, List.getElem?_map,
      List.getElem?_range hj, Option.map_some', Option.map_some', Option.getD_some]

lemma hLine_map_getD (board : Board) (i j : Nat) (hj : j < num_cols board)
    (dflt : Position × Cell) :
    ((hLine (num_cols board) i).map (posCell board)).getD j dflt =
      ((i, j), cellAt board (i, j)) := by
  rw [List.getD_eq_getElem?_getD, List.getElem?_map, hLine, List.getElem?_map,
    List.getElem?_range hj, Option.map_some', Option.map_some', Option.getD_some]
  rfl

/-- Evaluation of the first ↘ family (diagonals from the top row). -/
lemma linesD1a_eq (board : Board) (hrect : Rect board) :
    linesD1a board = (List.range (num_cols board - 1)).map
      (fun s => (d1Line (min (num_cols board - s) (num_rows board)) (0, s)).map
        (posCell board)) := by
  rw [linesD1a]
  apply List.map_congr_left
  intro s hs
  rw [List.mem_range] at hs
  apply list_eq_of_getElem?
  · simp [bwp_length, d1Line]
  · intro t ht
    simp only [List.length_map, List.enum_length, List.length_take,
      bwp_length] at ht
    have ht1 : t < num_cols board - s := by omega
    have ht2 : t < num_rows board := by omega
    rw [List.getElem?_map, List.getElem?_enum, List.getElem?_take, if_pos ht1,
      bwp_getElem? board hrect t, if_pos ht2, Option.map_some', Option.map_some',
      d1Line, List.getElem?_map, List.getElem?_map,
      List.getElem?_range ht, Option.map_some', Option.map_some']
    dsimp only
    rw [hLine_map_getD board t (s + t) (by omega)]
    simp [posCell]

/-- Evaluation of the second ↘ family (diagonals from the first column). -/
lemma linesD1b_eq (board : Board) (hrect : Rect board) :
    linesD1b board = (List.range' 1 (num_rows board - 2)).map
      (fun r => (d1Line (min (num_cols board) (num_rows board - r)) (r, 0)).map
        (posCell board)) := by
  rw [linesD1b]
  apply List.map_congr_left
  intro r hr
  rw [List.mem_range'_1] at hr
  apply list_eq_of_getElem?
  · simp [bwp_length, d1Line, Nat.min_comm]
  · intro t ht
    simp only [List.length_map, List.enum_length, List.length_take,
      List.length_drop, bwp_length] at ht
    have ht1 : t < num_cols board := by omega
    have ht2 : r + t < num_rows board := by omega
    rw [List.getElem?_map, List.getElem?_enum, List.getElem?_take, if_pos ht1,
      List.getElem?_drop, bwp_getElem? board hrect (r + t), if_pos ht2,
      Option.map_some', Option.map_some', d1Line, List.getElem?_map,
      List.getElem?_map, List.getElem?_range (by omega : t < min (num_cols board) (num_rows board - r)),
      Option.map_some', Option.map_some']
    dsimp only
    rw [hLine_map_getD board (r + t) t ht1]
    simp [posCell]

/-- Evaluation of the first ↗ family (diagonals from the bottom row). -/
lemma linesD2a_eq (board : Board) (hrect : Rect board) :
    linesD2a board = (List.range (num_cols board - 1)).map
      (fun s => (d2Line (min (num_cols board - s) (num_rows board))
        (num_rows board - 1, s)).map (posCell board)) := by
  rw [linesD2a]
  apply List.map_congr_left
  intro s hs
  rw [List.mem_range] at hs
  apply list_eq_of_getElem?
  · simp [bwp_length, d2Line]
  · intro t ht
    simp only [List.length_map, List.enum_length, List.length_take,
      List.length_reverse, bwp_length] at ht
    have ht1 : t < num_cols board - s := by omega
    have ht2 : t < num_rows board := by omega
    rw [List.getElem?_map, List.getElem?_enum, List.getElem?_take, if_pos ht1,
      List.getElem?_reverse (by rw [bwp_length]; exact ht2), bwp_length,
      bwp_getElem? board hrect (num_rows board - 1 - t),
      if_pos (by omega), Option.map_some', Option.map_some', d2Line,
      List.getElem?_map, List.getElem?_map, List.getElem?_range ht,
      Option.map_some', Option.map_some']
    dsimp only
    rw [hLine_map_getD board (num_rows board - 1 - t) (s + t) (by omega)]
    simp [posCell]

/-- Evaluation of the second ↗ family (diagonals from the first column). -/
lemma linesD2b_eq (board : Board) (hrect : Rect board) :
    linesD2b board = (List.range' 1 (num_rows board - 2)).map
      (fun r => (d2Line (min (r + 1) (num_cols board)) (r, 0)).map
        (posCell board)) := by
  rw [linesD2b]
  apply List.map_congr_left
  intro r hr
  rw [List.mem_range'_1] at hr
  have hrlt : r + 1 < num_rows board := by omega
  have htake : (List.take (r + 1) (board_with_positions board)).length = r + 1 := by
    rw [List.length_take, bwp_length]
    omega
  apply list_eq_of_getElem?
  · simp only [List.length_map, List.enum_length, List.length_take,
      List.length_reverse, htake, d2Line, List.length_range]
    omega
  · intro t ht
    simp only [List.length_map, List.enum_length, List.length_take,
      List.length_reverse, htake] at ht
    have ht1 : t < num_cols board := by omega
    have ht2 : t < r + 1 := by omega
    rw [List.getElem?_map, List.getElem?_enum, List.getElem?_take, if_pos ht1,
      List.getElem?_reverse (by rw [htake]; exact ht2), htake]
    have hidx : r + 1 - 1 - t = r - t := by omega
    rw [hidx, List.getElem?_take, if_pos (by omega : r - t < r + 1),
      bwp_getElem? board hrect (r - t), if_pos (by omega),
      Option.map_some', Option.map_some', d2Line, List.getElem?_map,
      List.getElem?_map,
      List.getElem?_range (by omega : t < min (r + 1) (num_cols board)),
      Option.map_some', Option.map_some']
    dsimp only
    rw [hLine_map_getD board (r - t) t ht1]
    simp [posCell]

/-! ### Claim C2, layer D: runs of a full line are exactly the maximal
runs of the board lying on it -/

/-- `ps` is a complete scanned line of the board in direction `d`: an
in-board chain of distinct positions that leaves the board one step
before its head and one step after its last element. -/
def FullLine (board : Board) (d : Int × Int) (ps : List Position) : Prop :=
  StepChain d ps ∧ (∀ p ∈ ps, inBoard board p) ∧ ps.Nodup ∧
  (∀ h ∈ ps.head?, ∀ q ∈ stepPos (negD d) h, ¬ inBoard board q) ∧
  (∀ l ∈ ps.getLast?, ∀ q ∈ stepPos d l, ¬ inBoard board q)

/-- Two chains in the same direction with the same head: the shorter is a
prefix of the longer. -/
lemma chain_prefix {d : Int × Int} :
    ∀ (xs ys : List Position), StepChain d xs → StepChain d ys →
      xs.head? = ys.head? → xs.length ≤ ys.length → ∃ t, ys = xs ++ t
  | [], ys, _, _, _, _ => ⟨ys, rfl⟩
  | x :: xs', [], _, _, hh, hlen => by
    exact absurd hlen (by simp)
  | x :: xs', y :: ys', hcx, hcy, hh, hlen => by
    have hxy : x = y := by
      rw [List.head?_cons, List.head?_cons, Option.some.injEq] at hh
      exact hh
    subst hxy
    cases hxs' : xs' with
    | nil =>
      exact ⟨ys', rfl⟩
    | cons x' xs'' =>
      cases hys' : ys' with
      | nil =>
        rw [hxs'] at hlen
        rw [hys'] at hlen
        exact absurd hlen (by simp)
      | cons y' ys'' =>
        rw [hxs'] at hcx
        rw [hys'] at hcy
        rw [StepChain, List.chain'_cons'] at hcx hcy
        have hx' : stepPos d x = some x' := hcx.1 x' rfl
        have hy' : stepPos d x = some y' := hcy.1 y' rfl
        have hx'y' : x' = y' := by
          rw [hx'] at hy'
          exact Option.some_inj.mp hy'
        subst hx'y'
        obtain ⟨t, ht⟩ := chain_prefix (x' :: xs'') (x' :: ys'') hcx.2 hcy.2
          rfl (by rw [hxs', hys'] at hlen; simpa using hlen)
        exact ⟨t, by rw [ht]; simp⟩

/-- A run chain whose positions stay on the board and whose head lies on a
full line is a contiguous slice of that line. -/
lemma chain_slice {board : Board} {d : Int × Int} {ps as : List Position}
    (hfl : FullLine board d ps) (hch : StepChain d as)
    (hin : ∀ p ∈ as, inBoard board p) (hne : as ≠ [])
    (hhead : ∀ h ∈ as.head?, h ∈ ps) :
    ∃ pre₀ suf₀, ps = pre₀ ++ as ++ suf₀ := by
  obtain ⟨h0, hh0⟩ : ∃ h0, as.head? = some h0 := by
    cases hh : as.head? with
    | none => exact absurd (List.head?_eq_none_iff.mp hh) hne
    | some h0 => exact ⟨h0, rfl⟩
  have hmem : h0 ∈ ps := hhead h0 (by rw [hh0]; rfl)
  obtain ⟨t₀, ht₀lt, ht₀⟩ := List.mem_iff_getElem.mp hmem
  have hsplit : ps.take t₀ ++ ps.drop t₀ = ps := List.take_append_drop t₀ ps
  have hchdrop : StepChain d (ps.drop t₀) := by
    have := hfl.1
    rw [StepChain, ← hsplit, List.chain'_append] at this
    exact this.2.1
  have hheaddrop : (ps.drop t₀).head? = some h0 := by
    rw [List.head?_drop, List.getElem?_eq_getElem ht₀lt, ht₀]
  have hlastdrop : (ps.drop t₀).getLast? = ps.getLast? := by
    conv_rhs => rw [← hsplit]
    rw [List.getLast?_append]
    have hne' : ps.drop t₀ ≠ [] := by
      intro hcon
      rw [hcon] at hheaddrop
      exact Option.noConfusion hheaddrop
    cases hgl : (ps.drop t₀).getLast? with
    | none => exact absurd (List.getLast?_eq_none_iff.mp hgl) hne'
    | some z => rfl
  have hlen : as.length ≤ (ps.drop t₀).length := by
    by_contra hcon
    push_neg at hcon
    obtain ⟨t, ht⟩ := chain_prefix (ps.drop t₀) as hchdrop hch
      (by rw [hheaddrop, hh0]) (le_of_lt hcon)
    have htne : t ≠ [] := by
      intro hcon2
      rw [hcon2, List.append_nil] at ht
      rw [ht] at hcon
      exact lt_irrefl _ hcon
    obtain ⟨q0, hq0⟩ : ∃ q0, t.head? = some q0 := by
      cases hq : t.head? with
      | none => exact absurd (List.head?_eq_none_iff.mp hq) htne
      | some q0 => exact ⟨q0, rfl⟩
    have hq0in : inBoard board q0 := by
      apply hin
      rw [ht]
      rcases t with _ | ⟨q, t'⟩
      · exact absurd rfl htne
      · rw [List.head?_cons, Option.some.injEq] at hq0
        subst hq0
        exact List.mem_append_right _ (List.mem_cons_self _ _)
    have hdropne : ps.drop t₀ ≠ [] := by
      intro hcon2
      rw [hcon2] at hheaddrop
      exact Option.noConfusion hheaddrop
    obtain ⟨z, hz⟩ : ∃ z, (ps.drop t₀).getLast? = some z := by
      cases hgl : (ps.drop t₀).getLast? with
      | none => exact absurd (List.getLast?_eq_none_iff.mp hgl) hdropne
      | some z => exact ⟨z, rfl⟩
    have hstep : stepPos d z = some q0 := by
      have := hch
      rw [StepChain, ht, List.chain'_append] at this
      exact this.2.2 z hz q0 hq0
    have hblocked := hfl.2.2.2.2 z (by rw [← hlastdrop]; rw [hz]; rfl) q0 hstep
    exact hblocked hq0in
  obtain ⟨suf₀, hsuf₀⟩ := chain_prefix as (ps.drop t₀) hch hchdrop
    (by rw [hheaddrop, hh0]) hlen
  refine ⟨ps.take t₀, suf₀, ?_⟩
  conv_lhs => rw [← hsplit]
  rw [hsuf₀, List.append_assoc]

lemma posCell_map_fst (board : Board) : ∀ ps : List Position,
    (ps.map (posCell board)).map Prod.fst = ps
  | [] => rfl
  | p :: t => by
    rw [List.map_cons, List.map_cons, posCell_map_fst board t]
    rfl

lemma map_fst_pair (c : Cell) : ∀ as : List Position,
    List.map (Prod.fst ∘ fun x => (x, c)) as = as
  | [] => rfl
  | a :: t => by
    rw [List.map_cons, map_fst_pair c t]
    rfl

lemma mem_posCell_map {board : Board} {ps : List Position} {x : Position × Cell}
    (hx : x ∈ ps.map (posCell board)) : x.1 ∈ ps ∧ cellAt board x.1 = x.2 := by
  obtain ⟨p, hp, he⟩ := List.mem_map.mp hx
  subst he
  exact ⟨hp, rfl⟩

lemma exists_head?_of_ne_nil {α : Type} {l : List α} (h : l ≠ []) :
    ∃ a, l.head? = some a := by
  cases hh : l.head? with
  | none => exact absurd (List.head?_eq_none_iff.mp hh) h
  | some a => exact ⟨a, rfl⟩

lemma exists_getLast?_of_ne_nil {α : Type} {l : List α} (h : l ≠ []) :
    ∃ a, l.getLast? = some a := by
  cases hh : l.getLast? with
  | none => exact absurd (List.getLast?_eq_none_iff.mp hh) h
  | some a => exact ⟨a, rfl⟩

lemma head?_mem {α : Type} {l : List α} {a : α} (h : l.head? = some a) : a ∈ l := by
  cases l with
  | nil => exact Option.noConfusion h
  | cons x xs =>
    rw [List.head?_cons, Option.some.injEq] at h
    rw [← h]
    exact List.mem_cons_self _ _

lemma getLast?_mem {α : Type} : ∀ {l : List α} {a : α}, l.getLast? = some a → a ∈ l
  | [], _, h => Option.noConfusion h
  | [x], a, h => by
    rw [List.getLast?_singleton, Option.some.injEq] at h
    rw [← h]
    exact List.mem_singleton_self x
  | x :: y :: t, a, h => by
    rw [List.getLast?_cons_cons] at h
    exact List.mem_cons_of_mem _ (getLast?_mem h)

/-- Splitting a step chain around a middle block gives the block's chain and
the two junction steps. -/
lemma chain_decomp {d : Int × Int} {pre as suf : List Position}
    (h : StepChain d (pre ++ as ++ suf)) :
    StepChain d as ∧
    (∀ x ∈ pre.getLast?, ∀ y ∈ as.head?, stepPos d x = some y) ∧
    (∀ x ∈ as.getLast?, ∀ y ∈ suf.head?, stepPos d x = some y) := by
  rw [StepChain, List.chain'_append, List.chain'_append] at h
  refine ⟨h.1.2.1, h.1.2.2, ?_⟩
  intro x hx y hy
  have hx' : (pre ++ as).getLast? = some x := by
    rw [List.getLast?_append, Option.mem_def.mp hx, option_some_or]
  exact h.2.2 x hx' y hy

/-- Layer-D main equivalence: for a full scanned line, the runs yielded by
the scanner are exactly the board's maximal runs in that direction whose
head lies on the line. -/
lemma line_run_iff {board : Board} {d : Int × Int} {ps : List Position}
    (hfl : FullLine board d ps) (c : Cell) (as : List Position) :
    (c, as) ∈ runs_from_cells (ps.map (posCell board)) ↔
      IsMaxRunD board d (c, as) ∧ ∃ h ∈ as.head?, h ∈ ps := by
  have hnd : ((ps.map (posCell board)).map Prod.fst).Nodup := by
    rw [posCell_map_fst]
    exact hfl.2.2.1
  rw [mem_runs_from_cells_iff hnd]
  constructor
  · rintro ⟨⟨hne, pre, suf, hdec, hpre, hsuf⟩, hlen, hc0⟩
    have hblockmem : ∀ a ∈ as, a ∈ ps ∧ cellAt board a = c := by
      intro a ha
      have hac : (a, c) ∈ ps.map (posCell board) := by
        rw [hdec]
        exact List.mem_append_left _
          (List.mem_append_right _ (List.mem_map_of_mem _ ha))
      exact mem_posCell_map hac
    have hps : ps = pre.map Prod.fst ++ as ++ suf.map Prod.fst := by
      have h1 := congrArg (List.map Prod.fst) hdec
      rw [posCell_map_fst, List.map_append, List.map_append, List.map_map] at h1
      rw [map_fst_pair c as] at h1
      exact h1
    obtain ⟨h0, hh0⟩ := exists_head?_of_ne_nil hne
    have hchainps := hfl.1
    rw [hps] at hchainps
    obtain ⟨hchas, hJ1, hJ2⟩ := chain_decomp hchainps
    refine ⟨⟨hc0, hlen,
      fun p hp => ⟨hfl.2.1 p ((hblockmem p hp).1), (hblockmem p hp).2⟩,
      hchas, ?_, ?_⟩, h0, hh0, (hblockmem h0 (head?_mem hh0)).1⟩
    · intro pl hpl q hq hcon
      cases hsufc : suf with
      | nil =>
        subst hsufc
        have hpslast : ps.getLast? = some pl := by
          rw [hps]
          simp only [List.map_nil, List.append_nil]
          rw [List.getLast?_append, Option.mem_def.mp hpl, option_some_or]
        exact hfl.2.2.2.2 pl hpslast q hq hcon.1
      | cons x suf₂ =>
        subst hsufc
        have hstep : stepPos d pl = some x.1 := hJ2 pl hpl x.1 rfl
        have hqx : q = x.1 := by
          rw [Option.mem_def.mp hq] at hstep
          exact Option.some_inj.mp hstep
        have hxcs : x ∈ ps.map (posCell board) := by
          rw [hdec]
          exact List.mem_append_right _ (List.mem_cons_self _ _)
        have hxc : x.2 ≠ c := hsuf x rfl
        apply hxc
        rw [← (mem_posCell_map hxcs).2, ← hqx]
        exact hcon.2
    · intro ph hph q hq hcon
      rcases List.eq_nil_or_concat pre with hpre0 | ⟨pre₁, xl, hpre1⟩
      · subst hpre0
        have hpshead : ps.head? = some ph := by
          rw [hps]
          simp only [List.map_nil, List.nil_append]
          rw [List.head?_append, Option.mem_def.mp hph, option_some_or]
        exact hfl.2.2.2.1 ph hpshead q hq hcon.1
      · rw [List.concat_eq_append] at hpre1
        subst hpre1
        have hlastpre : ((pre₁ ++ [xl]).map Prod.fst).getLast? = some xl.1 := by
          rw [List.map_append, List.map_cons, List.map_nil, List.getLast?_concat]
        have hstep : stepPos d xl.1 = some ph := hJ1 xl.1 hlastpre ph hph
        have hinv := stepPos_inv hstep
        have hqx : q = xl.1 := by
          rw [Option.mem_def.mp hq] at hinv
          exact Option.some_inj.mp hinv
        have hxcs : xl ∈ ps.map (posCell board) := by
          rw [hdec]
          exact List.mem_append_left _
            (List.mem_append_left _ (List.mem_append_right _ (List.mem_cons_self _ _)))
        have hxc : xl.2 ≠ c := hpre xl (List.getLast?_concat _)
        apply hxc
        rw [← (mem_posCell_map hxcs).2, ← hqx]
        exact hcon.2
  · rintro ⟨⟨hc0, hlen2, hcells, hchain, hlastB, hheadB⟩, h0, hh0, hh0ps⟩
    have hne : as ≠ [] := by
      intro h
      rw [h] at hh0
      exact Option.noConfusion hh0
    obtain ⟨pre₀, suf₀, hps₀⟩ := chain_slice hfl hchain
      (fun p hp => (hcells p hp).1) hne
      (fun h hh => by
        rw [hh0] at hh
        exact (Option.some_inj.mp (Option.mem_def.mp hh)) ▸ hh0ps)
    have hblock : as.map (posCell board) = as.map (fun a => (a, c)) :=
      List.map_congr_left (fun a ha => by rw [posCell, (hcells a ha).2])
    have hdecomp : ps.map (posCell board) = pre₀.map (posCell board) ++
        as.map (fun a => (a, c)) ++ suf₀.map (posCell board) := by
      rw [hps₀, List.map_append, List.map_append, hblock]
    have hchainps := hfl.1
    rw [hps₀] at hchainps
    obtain ⟨_, hJ1, hJ2⟩ := chain_decomp hchainps
    refine ⟨⟨hne, pre₀.map (posCell board), suf₀.map (posCell board),
      hdecomp, ?_, ?_⟩, hlen2, hc0⟩
    · intro x hx
      rw [Option.mem_def, List.getLast?_map] at hx
      obtain ⟨p, hp, hpx⟩ := Option.map_eq_some'.mp hx
      have hstep : stepPos d p = some h0 := hJ1 p hp h0 hh0
      have hinv := stepPos_inv hstep
      have hpin : inBoard board p := hfl.2.1 p (by
        rw [hps₀]
        exact List.mem_append_left _ (List.mem_append_left _ (getLast?_mem hp)))
      have hnc := hheadB h0 hh0 p hinv
      intro hxc
      apply hnc
      refine ⟨hpin, ?_⟩
      rw [← hpx] at hxc
      exact hxc
    · intro x hx
      rw [Option.mem_def, List.head?_map] at hx
      obtain ⟨q₀, hq₀, hqx⟩ := Option.map_eq_some'.mp hx
      obtain ⟨pl, hpl⟩ := exists_getLast?_of_ne_nil hne
      have hstep : stepPos d pl = some q₀ := hJ2 pl hpl q₀ hq₀
      have hqin : inBoard board q₀ := hfl.2.1 q₀ (by
        rw [hps₀]
        exact List.mem_append_right _ (head?_mem hq₀))
      have hnc := hlastB pl hpl q₀ hstep
      intro hxc
      apply hnc
      refine ⟨hqin, ?_⟩
      rw [← hqx] at hxc
      exact hxc

lemma count_eq_one_of_nodup_mem {α : Type} [BEq α] [LawfulBEq α] :
    ∀ {l : List α} {a : α}, l.Nodup → a ∈ l → l.count a = 1
  | [], a, _, ha => absurd ha (List.not_mem_nil a)
  | x :: t, a, hnd, ha => by
    rw [List.count_cons]
    rcases List.mem_cons.mp ha with hax | hat
    · subst hax
      rw [if_pos (beq_self_eq_true a)]
      rw [List.count_eq_zero.mpr (List.nodup_cons.mp hnd).1]
    · have hne : a ≠ x := by
        intro h
        subst h
        exact (List.nodup_cons.mp hnd).1 hat
      rw [if_neg (by simpa using Ne.symm hne),
        count_eq_one_of_nodup_mem (List.nodup_cons.mp hnd).2 hat]

/-- Count of a run in one full line's scan: 1 when it is the maximal run of
the direction with head on the line, else 0. -/
lemma count_runs_line {board : Board} {d : Int × Int} {ps : List Position}
    (hfl : FullLine board d ps) (r : Player × List Position) :
    (runs_from_cells (ps.map (posCell board))).count r =
      if IsMaxRunD board d r ∧ ∃ h ∈ r.2.head?, h ∈ ps then 1 else 0 := by
  obtain ⟨c, as⟩ := r
  by_cases h : IsMaxRunD board d (c, as) ∧ ∃ h ∈ as.head?, h ∈ ps
  · rw [if_pos h]
    exact count_eq_one_of_nodup_mem
      (runs_from_cells_nodup _ (by rw [posCell_map_fst]; exact hfl.2.2.1))
      ((line_run_iff hfl c as).mpr h)
  · rw [if_neg h]
    exact List.count_eq_zero.mpr (fun hc => h ((line_run_iff hfl c as).mp hc))

/-- A run of length at least 2 fixes its direction. -/
lemma maxRunD_dir_unique {board : Board} {d d' : Int × Int}
    {r : Player × List Position}
    (h : IsMaxRunD board d r) (h' : IsMaxRunD board d' r) : d = d' := by
  obtain ⟨-, hlen, -, hch, -, -⟩ := h
  obtain ⟨-, -, -, hch', -, -⟩ := h'
  cases hr2 : r.2 with
  | nil =>
    rw [hr2] at hlen
    simp at hlen
  | cons p0 t =>
    cases t with
    | nil =>
      rw [hr2] at hlen
      simp at hlen
    | cons p1 rest =>
      rw [StepChain, hr2, List.chain'_cons] at hch hch'
      obtain ⟨e1, e2⟩ := stepPos_some hch.1
      obtain ⟨e1', e2'⟩ := stepPos_some hch'.1
      obtain ⟨dx, dy⟩ := d
      obtain ⟨dx', dy'⟩ := d'
      simp only [Prod.mk.injEq]
      constructor <;> omega

/-- Count of a run over a family of pairwise-disjoint full lines of one
direction: 1 when it is a maximal run of the direction headed on one of
the lines, else 0. -/
lemma count_family {β : Type} {board : Board} {d : Int × Int}
    (line : β → List Position) :
    ∀ params : List β,
      (∀ b ∈ params, FullLine board d (line b)) →
      params.Pairwise (fun b b' => ∀ x, x ∈ line b → x ∈ line b' → False) →
      ∀ r : Player × List Position,
      ((params.map
        (fun b => runs_from_cells ((line b).map (posCell board)))).flatten).count r =
        if IsMaxRunD board d r ∧ ∃ b ∈ params, ∃ h ∈ r.2.head?, h ∈ line b
        then 1 else 0
  | [], _, _, r => by
    simp only [List.map_nil, List.flatten_nil, List.count_nil]
    rw [if_neg (by rintro ⟨-, b, hb, -⟩; exact absurd hb (List.not_mem_nil _))]
  | p :: params', hfull, hdisj, r => by
    rw [List.map_cons, List.flatten_cons, List.count_append,
      count_runs_line (hfull p (List.mem_cons_self _ _)) r]
    have ih := count_family line params'
      (fun b hb => hfull b (List.mem_cons_of_mem _ hb))
      (List.pairwise_cons.mp hdisj).2 r
    rw [ih]
    by_cases hmr : IsMaxRunD board d r
    · have hne : r.2 ≠ [] := by
        have h2 := hmr.2.1
        intro h
        rw [h] at h2
        simp at h2
      obtain ⟨h0, hh0⟩ := exists_head?_of_ne_nil hne
      by_cases hhp : h0 ∈ line p
      · rw [if_pos ⟨hmr, h0, hh0, hhp⟩]
        rw [if_neg (by
          rintro ⟨-, b, hb, h, hh, hhb⟩
          rw [hh0, Option.mem_def, Option.some.injEq] at hh
          subst hh
          exact (List.pairwise_cons.mp hdisj).1 b hb h0 hhp hhb)]
        rw [if_pos ⟨hmr, p, List.mem_cons_self _ _, h0, hh0, hhp⟩]
      · rw [if_neg (by
          rintro ⟨-, h, hh, hhb⟩
          rw [hh0, Option.mem_def, Option.some.injEq] at hh
          subst hh
          exact hhp hhb)]
        by_cases hrest : ∃ b ∈ params', ∃ h ∈ r.2.head?, h ∈ line b
        · rw [if_pos ⟨hmr, hrest⟩]
          obtain ⟨b, hb, w⟩ := hrest
          rw [if_pos ⟨hmr, b, List.mem_cons_of_mem _ hb, w⟩]
        · rw [if_neg (fun hcon => hrest hcon.2)]
          rw [if_neg (by
            rintro ⟨-, b, hb, h, hh, hhb⟩
            rcases List.mem_cons.mp hb with hbp | hbr
            · subst hbp
              rw [hh0, Option.mem_def, Option.some.injEq] at hh
              subst hh
              exact hhp hhb
            · exact hrest ⟨b, hbr, h, hh, hhb⟩)]
    · rw [if_neg (fun hcon => hmr hcon.1), if_neg (fun hcon => hmr hcon.1),
        if_neg (fun hcon => hmr hcon.1)]

lemma chain'_range_map {α : Type} (R : α → α → Prop) (f : Nat → α) (n : Nat)
    (h : ∀ i, i + 1 < n → R (f i) (f (i + 1))) : ((List.range n).map f).Chain' R := by
  rw [List.chain'_map]
  cases n with
  | zero => exact List.chain'_nil
  | succ m =>
    rw [List.chain'_range_succ]
    intro i hi
    exact h i (by omega)

lemma head?_range_map {α : Type} (f : Nat → α) {n : Nat} (hn : 0 < n) :
    ((List.range n).map f).head? = some (f 0) := by
  cases n with
  | zero => omega
  | succ m => rw [List.range_succ_eq_map, List.map_cons, List.head?_cons]

lemma getLast?_range_map {α : Type} (f : Nat → α) {n : Nat} (hn : 0 < n) :
    ((List.range n).map f).getLast? = some (f (n - 1)) := by
  cases n with
  | zero => omega
  | succ m =>
    rw [List.range_succ, List.map_append, List.map_cons, List.map_nil,
      List.getLast?_concat]
    rfl

lemma nodup_range_map {α : Type} (f : Nat → α) (n : Nat)
    (hinj : ∀ i < n, ∀ j < n, f i = f j → i = j) : ((List.range n).map f).Nodup := by
  apply List.Nodup.map_on ?_ (List.nodup_range n)
  intro x hx y hy hxy
  exact hinj x (List.mem_range.mp hx) y (List.mem_range.mp hy) hxy

lemma not_inBoard_step {board : Board} {d : Int × Int} {p : Position}
    (h : ∀ q : Position, (q.1 : Int) = (p.1 : Int) + d.1 →
      (q.2 : Int) = (p.2 : Int) + d.2 → ¬ inBoard board q) :
    ∀ q ∈ stepPos d p, ¬ inBoard board q := by
  intro q hq
  obtain ⟨h1, h2⟩ := stepPos_some (Option.mem_def.mp hq)
  exact h q h1 h2

/-- Generic constructor for `FullLine` over an indexed list of positions. -/
lemma fullLine_of_range (board : Board) (d : Int × Int) (f : Nat → Position) (n : Nat)
    (hstep : ∀ t, t + 1 < n → stepPos d (f t) = some (f (t + 1)))
    (hin : ∀ t < n, inBoard board (f t))
    (hinj : ∀ i < n, ∀ j < n, f i = f j → i = j)
    (hhead : 0 < n → ∀ q ∈ stepPos (negD d) (f 0), ¬ inBoard board q)
    (hlast : 0 < n → ∀ q ∈ stepPos d (f (n - 1)), ¬ inBoard board q) :
    FullLine board d ((List.range n).map f) := by
  refine ⟨?_, ?_, nodup_range_map f n hinj, ?_, ?_⟩
  · rw [StepChain]
    exact chain'_range_map _ f n hstep
  · intro p hp
    simp only [List.mem_map, List.mem_range] at hp
    obtain ⟨t, ht, rfl⟩ := hp
    exact hin t ht
  · intro h hh q hq
    cases n with
    | zero =>
      rw [List.range_zero, List.map_nil] at hh
      exact absurd hh (by simp)
    | succ m =>
      rw [head?_range_map f (Nat.succ_pos m), Option.mem_def, Option.some.injEq] at hh
      exact hhead (Nat.succ_pos m) q (hh ▸ hq)
  · intro l hl q hq
    cases n with
    | zero =>
      rw [List.range_zero, List.map_nil] at hl
      exact absurd hl (by simp)
    | succ m =>
      rw [getLast?_range_map f (Nat.succ_pos m), Option.mem_def, Option.some.injEq] at hl
      exact hlast (Nat.succ_pos m) q (hl ▸ hq)

/-- Each row is a full horizontal line. -/
lemma fullLine_h (board : Board) (i : Nat) (hi : i < num_rows board) :
    FullLine board (0, 1) (hLine (num_cols board) i) := by
  rw [hLine]
  apply fullLine_of_range
  · intro t ht
    apply stepPos_of_eq <;> dsimp only <;> omega
  · intro t ht
    rw [inBoard]
    refine ⟨?_, ?_⟩ <;> dsimp only <;> omega
  · intro a _ b _ hab
    have h2 := congrArg Prod.snd hab
    dsimp only at h2
    omega
  · intro hpos
    apply not_inBoard_step
    intro q h1 h2 hin
    obtain ⟨q1, q2⟩ := q
    dsimp only [negD] at h1 h2
    omega
  · intro hpos
    apply not_inBoard_step
    intro q h1 h2 hin
    obtain ⟨q1, q2⟩ := q
    rw [inBoard] at hin
    dsimp only at h1 h2 hin
    omega

/-- Each column is a full vertical line. -/
lemma fullLine_v (board : Board) (j : Nat) (hj : j < num_cols board) :
    FullLine board (1, 0) (vLine (num_rows board) j) := by
  rw [vLine]
  apply fullLine_of_range
  · intro t ht
    apply stepPos_of_eq <;> dsimp only <;> omega
  · intro t ht
    rw [inBoard]
    refine ⟨?_, ?_⟩ <;> dsimp only <;> omega
  · intro a _ b _ hab
    have h1 := congrArg Prod.fst hab
    dsimp only at h1
    omega
  · intro hpos
    apply not_inBoard_step
    intro q h1 h2 hin
    obtain ⟨q1, q2⟩ := q
    dsimp only [negD] at h1 h2
    omega
  · intro hpos
    apply not_inBoard_step
    intro q h1 h2 hin
    obtain ⟨q1, q2⟩ := q
    rw [inBoard] at hin
    dsimp only at h1 h2 hin
    omega

/-- Each ↘ diagonal starting in the top row is a full line. -/
lemma fullLine_d1a (board : Board) (s : Nat) :
    FullLine board (1, 1)
      (d1Line (min (num_cols board - s) (num_rows board)) (0, s)) := by
  rw [d1Line]
  apply fullLine_of_range
  · intro t ht
    apply stepPos_of_eq <;> dsimp only <;> omega
  · intro t ht
    rw [inBoard]
    refine ⟨?_, ?_⟩ <;> dsimp only <;> omega
  · intro a _ b _ hab
    have h1 := congrArg Prod.fst hab
    dsimp only at h1
    omega
  · intro hpos
    apply not_inBoard_step
    intro q h1 h2 hin
    obtain ⟨q1, q2⟩ := q
    dsimp only [negD] at h1 h2
    omega
  · intro hpos
    apply not_inBoard_step
    intro q h1 h2 hin
    obtain ⟨q1, q2⟩ := q
    rw [inBoard] at hin
    dsimp only at h1 h2 hin
    omega

/-- Each ↘ diagonal starting in the first column is a full line. -/
lemma fullLine_d1b (board : Board) (r : Nat) :
    FullLine board (1, 1)
      (d1Line (min (num_cols board) (num_rows board - r)) (r, 0)) := by
  rw [d1Line]
  apply fullLine_of_range
  · intro t ht
    apply stepPos_of_eq <;> dsimp only <;> omega
  · intro t ht
    rw [inBoard]
    refine ⟨?_, ?_⟩ <;> dsimp only <;> omega
  · intro a _ b _ hab
    have h2 := congrArg Prod.snd hab
    dsimp only at h2
    omega
  · intro hpos
    apply not_inBoard_step
    intro q h1 h2 hin
    obtain ⟨q1, q2⟩ := q
    dsimp only [negD] at h1 h2
    omega
  · intro hpos
    apply not_inBoard_step
    intro q h1 h2 hin
    obtain ⟨q1, q2⟩ := q
    rw [inBoard] at hin
    dsimp only at h1 h2 hin
    omega

/-- Each ↗ diagonal starting in the bottom row is a full line. -/
lemma fullLine_d2a (board : Board) (s : Nat) :
    FullLine board (-1, 1)
      (d2Line (min (num_cols board - s) (num_rows board)) (num_rows board - 1, s)) := by
  rw [d2Line]
  apply fullLine_of_range
  · intro t ht
    apply stepPos_of_eq <;> dsimp only <;> omega
  · intro t ht
    rw [inBoard]
    refine ⟨?_, ?_⟩ <;> dsimp only <;> omega
  · intro a _ b _ hab
    have h2 := congrArg Prod.snd hab
    dsimp only at h2
    omega
  · intro hpos
    apply not_inBoard_step
    intro q h1 h2 hin
    obtain ⟨q1, q2⟩ := q
    rw [inBoard] at hin
    dsimp only [negD] at h1 h2 hin
    omega
  · intro hpos
    apply not_inBoard_step
    intro q h1 h2 hin
    obtain ⟨q1, q2⟩ := q
    rw [inBoard] at hin
    dsimp only at h1 h2 hin
    omega

/-- Each ↗ diagonal starting in the first column is a full line. -/
lemma fullLine_d2b (board : Board) (r : Nat) (hr : r < num_rows board) :
    FullLine board (-1, 1)
      (d2Line (min (r + 1) (num_cols board)) (r, 0)) := by
  rw [d2Line]
  apply fullLine_of_range
  · intro t ht
    apply stepPos_of_eq <;> dsimp only <;> omega
  · intro t ht
    rw [inBoard]
    refine ⟨?_, ?_⟩ <;> dsimp only <;> omega
  · intro a _ b _ hab
    have h2 := congrArg Prod.snd hab
    dsimp only at h2
    omega
  · intro hpos
    apply not_inBoard_step
    intro q h1 h2 hin
    obtain ⟨q1, q2⟩ := q
    dsimp only [negD] at h1 h2
    omega
  · intro hpos
    apply not_inBoard_step
    intro q h1 h2 hin
    obtain ⟨q1, q2⟩ := q
    rw [inBoard] at hin
    dsimp only at h1 h2 hin
    omega

/-- Horizontal-family count. -/
lemma count_linesH (board : Board) (hrect : Rect board) (r : Player × List Position) :
    (((linesH board).map runs_from_cells).flatten).count r =
      if IsMaxRunD board (0, 1) r ∧ ∃ i ∈ List.range (num_rows board),
        ∃ h ∈ r.2.head?, h ∈ hLine (num_cols board) i then 1 else 0 := by
  rw [linesH_eq board hrect, List.map_map]
  refine count_family (fun i => hLine (num_cols board) i) (List.range (num_rows board))
    (fun b hb => fullLine_h board b (List.mem_range.mp hb)) ?_ r
  refine List.Pairwise.imp ?_ (List.pairwise_lt_range _)
  intro a b hab x hxa hxb
  obtain ⟨x1, x2⟩ := x
  simp only [hLine, List.mem_map, List.mem_range, Prod.mk.injEq] at hxa hxb
  obtain ⟨t1, ht1, he1a, he1b⟩ := hxa
  obtain ⟨t2, ht2, he2a, he2b⟩ := hxb
  omega

/-- Vertical-family count. -/
lemma count_linesV (board : Board) (hrect : Rect board) (r : Player × List Position) :
    (((linesV board).map runs_from_cells).flatten).count r =
      if IsMaxRunD board (1, 0) r ∧ ∃ j ∈ List.range (num_cols board),
        ∃ h ∈ r.2.head?, h ∈ vLine (num_rows board) j then 1 else 0 := by
  rw [linesV_eq board hrect, List.map_map]
  refine count_family (fun j => vLine (num_rows board) j) (List.range (num_cols board))
    (fun b hb => fullLine_v board b (List.mem_range.mp hb)) ?_ r
  refine List.Pairwise.imp ?_ (List.pairwise_lt_range _)
  intro a b hab x hxa hxb
  obtain ⟨x1, x2⟩ := x
  simp only [vLine, List.mem_map, List.mem_range, Prod.mk.injEq] at hxa hxb
  obtain ⟨t1, ht1, he1a, he1b⟩ := hxa
  obtain ⟨t2, ht2, he2a, he2b⟩ := hxb
  omega

/-- First ↘ family count. -/
lemma count_linesD1a (board : Board) (hrect : Rect board) (r : Player × List Position) :
    (((linesD1a board).map runs_from_cells).flatten).count r =
      if IsMaxRunD board (1, 1) r ∧ ∃ s ∈ List.range (num_cols board - 1),
        ∃ h ∈ r.2.head?,
          h ∈ d1Line (min (num_cols board - s) (num_rows board)) (0, s) then 1 else 0 := by
  rw [linesD1a_eq board hrect, List.map_map]
  refine count_family
    (fun s => d1Line (min (num_cols board - s) (num_rows board)) (0, s))
    (List.range (num_cols board - 1))
    (fun b _ => fullLine_d1a board b) ?_ r
  refine List.Pairwise.imp ?_ (List.pairwise_lt_range _)
  intro a b hab x hxa hxb
  obtain ⟨x1, x2⟩ := x
  simp only [d1Line, List.mem_map, List.mem_range, Prod.mk.injEq] at hxa hxb
  obtain ⟨t1, ht1, he1a, he1b⟩ := hxa
  obtain ⟨t2, ht2, he2a, he2b⟩ := hxb
  omega

/-- Second ↘ family count. -/
lemma count_linesD1b (board : Board) (hrect : Rect board) (r : Player × List Position) :
    (((linesD1b board).map runs_from_cells).flatten).count r =
      if IsMaxRunD board (1, 1) r ∧ ∃ c ∈ List.range' 1 (num_rows board - 2),
        ∃ h ∈ r.2.head?,
          h ∈ d1Line (min (num_cols board) (num_rows board - c)) (c, 0) then 1 else 0 := by
  rw [linesD1b_eq board hrect, List.map_map]
  refine count_family
    (fun c => d1Line (min (num_cols board) (num_rows board - c)) (c, 0))
    (List.range' 1 (num_rows board - 2))
    (fun b _ => fullLine_d1b board b) ?_ r
  have hpw : (List.range' 1 (num_rows board - 2)).Pairwise (· < ·) := by
    rw [List.range'_eq_map_range, List.pairwise_map]
    exact (List.pairwise_lt_range _).imp (by omega)
  refine List.Pairwise.imp ?_ hpw
  intro a b hab x hxa hxb
  obtain ⟨x1, x2⟩ := x
  simp only [d1Line, List.mem_map, List.mem_range, Prod.mk.injEq] at hxa hxb
  obtain ⟨t1, ht1, he1a, he1b⟩ := hxa
  obtain ⟨t2, ht2, he2a, he2b⟩ := hxb
  omega

/-- First ↗ family count. -/
lemma count_linesD2a (board : Board) (hrect : Rect board) (r : Player × List Position) :
    (((linesD2a board).map runs_from_cells).flatten).count r =
      if IsMaxRunD board (-1, 1) r ∧ ∃ s ∈ List.range (num_cols board - 1),
        ∃ h ∈ r.2.head?,
          h ∈ d2Line (min (num_cols board - s) (num_rows board))
            (num_rows board - 1, s) then 1 else 0 := by
  rw [linesD2a_eq board hrect, List.map_map]
  refine count_family
    (fun s => d2Line (min (num_cols board - s) (num_rows board)) (num_rows board - 1, s))
    (List.range (num_cols board - 1))
    (fun b _ => fullLine_d2a board b) ?_ r
  refine List.Pairwise.imp ?_ (List.pairwise_lt_range _)
  intro a b hab x hxa hxb
  obtain ⟨x1, x2⟩ := x
  simp only [d2Line, List.mem_map, List.mem_range, Prod.mk.injEq] at hxa hxb
  obtain ⟨t1, ht1, he1a, he1b⟩ := hxa
  obtain ⟨t2, ht2, he2a, he2b⟩ := hxb
  omega

/-- Second ↗ family count. -/
lemma count_linesD2b (board : Board) (hrect : Rect board) (r : Player × List Position) :
    (((linesD2b board).map runs_from_cells).flatten).count r =
      if IsMaxRunD board (-1, 1) r ∧ ∃ c ∈ List.range' 1 (num_rows board - 2),
        ∃ h ∈ r.2.head?,
          h ∈ d2Line (min (c + 1) (num_cols board)) (c, 0) then 1 else 0 := by
  rw [linesD2b_eq board hrect, List.map_map]
  refine count_family
    (fun c => d2Line (min (c + 1) (num_cols board)) (c, 0))
    (List.range' 1 (num_rows board - 2))
    (fun b hb => fullLine_d2b board b (by
      have := List.mem_range'_1.mp hb
      omega)) ?_ r
  have hpw : (List.range' 1 (num_rows board - 2)).Pairwise (· < ·) := by
    rw [List.range'_eq_map_range, List.pairwise_map]
    exact (List.pairwise_lt_range _).imp (by omega)
  refine List.Pairwise.imp ?_ hpw
  intro a b hab x hxa hxb
  obtain ⟨x1, x2⟩ := x
  simp only [d2Line, List.mem_map, List.mem_range, Prod.mk.injEq] at hxa hxb
  obtain ⟨t1, ht1, he1a, he1b⟩ := hxa
  obtain ⟨t2, ht2, he2a, he2b⟩ := hxb
  omega

/-- A maximal run has a head with an in-board successor one step away. -/
lemma maxRunD_head {board : Board} {d : Int × Int} {r : Player × List Position}
    (h : IsMaxRunD board d r) :
    ∃ h0 h1, r.2.head? = some h0 ∧ inBoard board h0 ∧ inBoard board h1 ∧
      stepPos d h0 = some h1 := by
  obtain ⟨-, hlen, hcells, hch, -, -⟩ := h
  cases hr2 : r.2 with
  | nil =>
    rw [hr2] at hlen
    simp at hlen
  | cons p0 t =>
    cases t with
    | nil =>
      rw [hr2] at hlen
      simp at hlen
    | cons p1 rest =>
      rw [StepChain, hr2, List.chain'_cons] at hch
      exact ⟨p0, p1, rfl,
        (hcells p0 (by rw [hr2]; exact List.mem_cons_self _ _)).1,
        (hcells p1 (by rw [hr2]; exact List.mem_cons_of_mem _ (List.mem_cons_self _ _))).1,
        hch.1⟩

/-- The head of a horizontal maximal run lies on a scanned row. -/
lemma cover_h {board : Board} {r : Player × List Position}
    (h : IsMaxRunD board (0, 1) r) :
    ∃ i ∈ List.range (num_rows board), ∃ h0 ∈ r.2.head?,
      h0 ∈ hLine (num_cols board) i := by
  obtain ⟨h0, h1, hh0, hin0, hin1, hstep⟩ := maxRunD_head h
  obtain ⟨i, j⟩ := h0
  rw [inBoard] at hin0
  dsimp only at hin0
  refine ⟨i, List.mem_range.mpr hin0.1, (i, j), hh0, ?_⟩
  simp only [hLine, List.mem_map, List.mem_range]
  exact ⟨j, hin0.2, rfl⟩

/-- The head of a vertical maximal run lies on a scanned column. -/
lemma cover_v {board : Board} {r : Player × List Position}
    (h : IsMaxRunD board (1, 0) r) :
    ∃ j ∈ List.range (num_cols board), ∃ h0 ∈ r.2.head?,
      h0 ∈ vLine (num_rows board) j := by
  obtain ⟨h0, h1, hh0, hin0, hin1, hstep⟩ := maxRunD_head h
  obtain ⟨i, j⟩ := h0
  rw [inBoard] at hin0
  dsimp only at hin0
  refine ⟨j, List.mem_range.mpr hin0.2, (i, j), hh0, ?_⟩
  simp only [vLine, List.mem_map, List.mem_range]
  exact ⟨i, hin0.1, rfl⟩

/-- The head of a ↘ maximal run lies on exactly one of the two scanned ↘
diagonal families. -/
lemma cover_d1 {board : Board} {r : Player × List Position}
    (h : IsMaxRunD board (1, 1) r) :
    ((∃ s ∈ List.range (num_cols board - 1), ∃ h0 ∈ r.2.head?,
        h0 ∈ d1Line (min (num_cols board - s) (num_rows board)) (0, s)) ∧
      ¬(∃ c ∈ List.range' 1 (num_rows board - 2), ∃ h0 ∈ r.2.head?,
        h0 ∈ d1Line (min (num_cols board) (num_rows board - c)) (c, 0))) ∨
    ((¬∃ s ∈ List.range (num_cols board - 1), ∃ h0 ∈ r.2.head?,
        h0 ∈ d1Line (min (num_cols board - s) (num_rows board)) (0, s)) ∧
      (∃ c ∈ List.range' 1 (num_rows board - 2), ∃ h0 ∈ r.2.head?,
        h0 ∈ d1Line (min (num_cols board) (num_rows board - c)) (c, 0))) := by
  obtain ⟨h0, h1, hh0, hin0, hin1, hstep⟩ := maxRunD_head h
  obtain ⟨e1, e2⟩ := stepPos_some hstep
  obtain ⟨i, j⟩ := h0
  obtain ⟨i', j'⟩ := h1
  rw [inBoard] at hin0 hin1
  dsimp only at hin0 hin1 e1 e2
  by_cases hij : i ≤ j
  · left
    constructor
    · refine ⟨j - i, List.mem_range.mpr (by omega), (i, j), hh0, ?_⟩
      simp only [d1Line, List.mem_map, List.mem_range, Prod.mk.injEq]
      exact ⟨i, by omega, by omega, by omega⟩
    · rintro ⟨c, hc, h', hh', hmem⟩
      rw [hh0, Option.mem_def, Option.some.injEq] at hh'
      subst hh'
      rw [List.mem_range'_1] at hc
      simp only [d1Line, List.mem_map, List.mem_range, Prod.mk.injEq] at hmem
      obtain ⟨t, ht, hta, htb⟩ := hmem
      omega
  · right
    constructor
    · rintro ⟨s, hs, h', hh', hmem⟩
      rw [hh0, Option.mem_def, Option.some.injEq] at hh'
      subst hh'
      simp only [d1Line, List.mem_map, List.mem_range, Prod.mk.injEq] at hmem
      obtain ⟨t, ht, hta, htb⟩ := hmem
      omega
    · refine ⟨i - j, List.mem_range'_1.mpr ⟨by omega, by omega⟩, (i, j), hh0, ?_⟩
      simp only [d1Line, List.mem_map, List.mem_range, Prod.mk.injEq]
      exact ⟨j, by omega, by omega, by omega⟩

/-- The head of a ↗ maximal run lies on exactly one of the two scanned ↗
diagonal families. -/
lemma cover_d2 {board : Board} {r : Player × List Position}
    (h : IsMaxRunD board (-1, 1) r) :
    ((∃ s ∈ List.range (num_cols board - 1), ∃ h0 ∈ r.2.head?,
        h0 ∈ d2Line (min (num_cols board - s) (num_rows board))
          (num_rows board - 1, s)) ∧
      ¬(∃ c ∈ List.range' 1 (num_rows board - 2), ∃ h0 ∈ r.2.head?,
        h0 ∈ d2Line (min (c + 1) (num_cols board)) (c, 0))) ∨
    ((¬∃ s ∈ List.range (num_cols board - 1), ∃ h0 ∈ r.2.head?,
        h0 ∈ d2Line (min (num_cols board - s) (num_rows board))
          (num_rows board - 1, s)) ∧
      (∃ c ∈ List.range' 1 (num_rows board - 2), ∃ h0 ∈ r.2.head?,
        h0 ∈ d2Line (min (c + 1) (num_cols board)) (c, 0))) := by
  obtain ⟨h0, h1, hh0, hin0, hin1, hstep⟩ := maxRunD_head h
  obtain ⟨e1, e2⟩ := stepPos_some hstep
  obtain ⟨i, j⟩ := h0
  obtain ⟨i', j'⟩ := h1
  rw [inBoard] at hin0 hin1
  dsimp only at hin0 hin1 e1 e2
  by_cases hij : num_rows board - 1 ≤ i + j
  · left
    constructor
    · refine ⟨i + j - (num_rows board - 1), List.mem_range.mpr (by omega),
        (i, j), hh0, ?_⟩
      simp only [d2Line, List.mem_map, List.mem_range, Prod.mk.injEq]
      exact ⟨num_rows board - 1 - i, by omega, by omega, by omega⟩
    · rintro ⟨c, hc, h', hh', hmem⟩
      rw [hh0, Option.mem_def, Option.some.injEq] at hh'
      subst hh'
      rw [List.mem_range'_1] at hc
      simp only [d2Line, List.mem_map, List.mem_range, Prod.mk.injEq] at hmem
      obtain ⟨t, ht, hta, htb⟩ := hmem
      omega
  · right
    constructor
    · rintro ⟨s, hs, h', hh', hmem⟩
      rw [hh0, Option.mem_def, Option.some.injEq] at hh'
      subst hh'
      simp only [d2Line, List.mem_map, List.mem_range, Prod.mk.injEq] at hmem
      obtain ⟨t, ht, hta, htb⟩ := hmem
      omega
    · refine ⟨i + j, List.mem_range'_1.mpr ⟨by omega, by omega⟩, (i, j), hh0, ?_⟩
      simp only [d2Line, List.mem_map, List.mem_range, Prod.mk.injEq]
      exact ⟨j, by omega, by omega, by omega⟩

lemma and_not_left {A C : Prop} (h : ¬A) : ¬(A ∧ C) := fun hac => h hac.1

/-- The scanner's output counts every maximal run exactly once. -/
lemma pieces_count (board : Board) (hrect : Rect board) (r : Player × List Position) :
    (pieces_in_a_row board).count r = if IsMaxRun board r then 1 else 0 := by
  rw [pieces_in_a_row, lineList]
  rw [List.map_append, List.map_append, List.map_append, List.map_append,
    List.map_append, List.flatten_append, List.flatten_append, List.flatten_append,
    List.flatten_append, List.flatten_append, List.count_append, List.count_append,
    List.count_append, List.count_append, List.count_append]
  rw [count_linesH board hrect r, count_linesV board hrect r,
    count_linesD1a board hrect r, count_linesD1b board hrect r,
    count_linesD2a board hrect r, count_linesD2b board hrect r]
  by_cases hmr : IsMaxRun board r
  · rw [if_pos hmr]
    obtain ⟨d, hd, hmd⟩ := hmr
    have hd4 : d = (0, 1) ∨ d = (1, 0) ∨ d = (1, 1) ∨ d = (-1, 1) := by
      simpa [dirs] using hd
    rcases hd4 with rfl | rfl | rfl | rfl
    · have hV : ¬ IsMaxRunD board (1, 0) r :=
        fun hA => absurd (maxRunD_dir_unique hmd hA) (by decide)
      have hD1 : ¬ IsMaxRunD board (1, 1) r :=
        fun hA => absurd (maxRunD_dir_unique hmd hA) (by decide)
      have hD2 : ¬ IsMaxRunD board (-1, 1) r :=
        fun hA => absurd (maxRunD_dir_unique hmd hA) (by decide)
      rw [if_neg (and_not_left hV), if_neg (and_not_left hD1),
        if_neg (and_not_left hD1), if_neg (and_not_left hD2),
        if_neg (and_not_left hD2), if_pos ⟨hmd, cover_h hmd⟩]
    · have hH : ¬ IsMaxRunD board (0, 1) r :=
        fun hA => absurd (maxRunD_dir_unique hmd hA) (by decide)
      have hD1 : ¬ IsMaxRunD board (1, 1) r :=
        fun hA => absurd (maxRunD_dir_unique hmd hA) (by decide)
      have hD2 : ¬ IsMaxRunD board (-1, 1) r :=
        fun hA => absurd (maxRunD_dir_unique hmd hA) (by decide)
      rw [if_neg (and_not_left hH), if_neg (and_not_left hD1),
        if_neg (and_not_left hD1), if_neg (and_not_left hD2),
        if_neg (and_not_left hD2), if_pos ⟨hmd, cover_v hmd⟩]
    · have hH : ¬ IsMaxRunD board (0, 1) r :=
        fun hA => absurd (maxRunD_dir_unique hmd hA) (by decide)
      have hV : ¬ IsMaxRunD board (1, 0) r :=
        fun hA => absurd (maxRunD_dir_unique hmd hA) (by decide)
      have hD2 : ¬ IsMaxRunD board (-1, 1) r :=
        fun hA => absurd (maxRunD_dir_unique hmd hA) (by decide)
      rcases cover_d1 hmd with ⟨hca, hcb⟩ | ⟨hca, hcb⟩
      · have hnB : ¬(IsMaxRunD board (1, 1) r ∧
            ∃ c ∈ List.range' 1 (num_rows board - 2), ∃ h ∈ r.2.head?,
              h ∈ d1Line (min (num_cols board) (num_rows board - c)) (c, 0)) :=
          fun hA => hcb hA.2
        rw [if_neg hnB, if_neg (and_not_left hH), if_neg (and_not_left hV),
          if_neg (and_not_left hD2), if_neg (and_not_left hD2),
          if_pos ⟨hmd, hca⟩]
      · have hnA : ¬(IsMaxRunD board (1, 1) r ∧
            ∃ s ∈ List.range (num_cols board - 1), ∃ h ∈ r.2.head?,
              h ∈ d1Line (min (num_cols board - s) (num_rows board)) (0, s)) :=
          fun hA => hca hA.2
        rw [if_neg hnA, if_neg (and_not_left hH), if_neg (and_not_left hV),
          if_neg (and_not_left hD2), if_neg (and_not_left hD2),
          if_pos ⟨hmd, hcb⟩]
    · have hH : ¬ IsMaxRunD board (0, 1) r :=
        fun hA => absurd (maxRunD_dir_unique hmd hA) (by decide)
      have hV : ¬ IsMaxRunD board (1, 0) r :=
        fun hA => absurd (maxRunD_dir_unique hmd hA) (by decide)
      have hD1 : ¬ IsMaxRunD board (1, 1) r :=
        fun hA => absurd (maxRunD_dir_unique hmd hA) (by decide)
      rcases cover_d2 hmd with ⟨hca, hcb⟩ | ⟨hca, hcb⟩
      · have hnB : ¬(IsMaxRunD board (-1, 1) r ∧
            ∃ c ∈ List.range' 1 (num_rows board - 2), ∃ h ∈ r.2.head?,
              h ∈ d2Line (min (c + 1) (num_cols board)) (c, 0)) :=
          fun hA => hcb hA.2
        rw [if_neg hnB, if_neg (and_not_left hH), if_neg (and_not_left hV),
          if_neg (and_not_left hD1), if_neg (and_not_left hD1),
          if_pos ⟨hmd, hca⟩]
      · have hnA : ¬(IsMaxRunD board (-1, 1) r ∧
            ∃ s ∈ List.range (num_cols board - 1), ∃ h ∈ r.2.head?,
              h ∈ d2Line (min (num_cols board - s) (num_rows board))
                (num_rows board - 1, s)) :=
          fun hA => hca hA.2
        rw [if_neg hnA, if_neg (and_not_left hH), if_neg (and_not_left hV),
          if_neg (and_not_left hD1), if_neg (and_not_left hD1),
          if_pos ⟨hmd, hcb⟩]
  · have hni : ∀ d' ∈ dirs, ¬ IsMaxRunD board d' r :=
      fun d' hd' hA => hmr ⟨d', hd', hA⟩
    rw [if_neg hmr, if_neg (and_not_left (hni (0, 1) (by decide))),
      if_neg (and_not_left (hni (1, 0) (by decide))),
      if_neg (and_not_left (hni (1, 1) (by decide))),
      if_neg (and_not_left (hni (1, 1) (by decide))),
      if_neg (and_not_left (hni (-1, 1) (by decide))),
      if_neg (and_not_left (hni (-1, 1) (by decide)))]

/-- C2: on a rectangular board, `pieces_in_a_row` yields exactly the maximal
runs of the board: a pair is yielded iff it is a maximal run of length ≥ 2
with a non-empty owner, all its cells on the board holding that owner,
consecutive and colinear in one of the four scan directions and extendable
at neither end (`IsMaxRun`), and each such run is yielded exactly once
(count 1); everything else (in particular any run of length 1 or with an
empty owner) is never yielded (count 0). -/
theorem c2_pieces_in_a_row (board : Board) (hrect : Rect board)
    (r : Player × List Position) :
    (r ∈ pieces_in_a_row board ↔ IsMaxRun board r) ∧
    (pieces_in_a_row board).count r = if IsMaxRun board r then 1 else 0 := by
  have hc := pieces_count board hrect r
  refine ⟨⟨fun hmem => ?_, fun hmr => ?_⟩, hc⟩
  · by_contra hmr
    rw [if_neg hmr] at hc
    rw [← List.count_pos_iff_mem] at hmem
    omega
  · rw [if_pos hmr] at hc
    exact List.count_pos_iff_mem.mp (by omega)

theorem c2_witness :
    Rect [[1, 1], [0, 0]] ∧
    (((1, [((0 : Nat), (0 : Nat)), (0, 1)]) ∈ pieces_in_a_row [[1, 1], [0, 0]] ↔
        IsMaxRun [[1, 1], [0, 0]] (1, [(0, 0), (0, 1)])) ∧
      (pieces_in_a_row [[1, 1], [0, 0]]).count (1, [(0, 0), (0, 1)]) =
        if IsMaxRun [[1, 1], [0, 0]] (1, [(0, 0), (0, 1)]) then 1 else 0) :=
  ⟨by decide, c2_pieces_in_a_row [[1, 1], [0, 0]] (by decide) (1, [(0, 0), (0, 1)])⟩

/-! ### Claim C10: effect of filling one empty cell on the scanned runs -/

lemma runs_flush_zero (acc : List Position) : runs_flush 0 acc = [] := by
  rw [runs_flush, if_neg (fun h => h.2 rfl)]

/-- The accumulator is irrelevant while the scanner is in an empty-cell
region: owner-0 runs are never yielded. -/
lemma runs_aux_zero_acc : ∀ (cs : List (Position × Cell)) (acc : List Position),
    runs_from_cells_aux 0 acc cs = runs_from_cells cs
  | [], acc => by
    rw [runs_from_cells, runs_from_cells_aux, runs_from_cells_aux,
      runs_flush_zero, runs_flush_zero]
  | (pos, cell) :: rest, acc => by
    rw [runs_from_cells]
    conv_lhs => rw [runs_from_cells_aux]
    conv_rhs => rw [runs_from_cells_aux]
    by_cases hc : cell = 0
    · rw [if_pos hc, if_pos hc, runs_aux_zero_acc rest (acc ++ [pos]),
        runs_aux_zero_acc rest ([] ++ [pos])]
    · rw [if_neg hc, if_neg hc, runs_flush_zero, runs_flush_zero]

/-- An empty cell splits the scan: runs left and right of it are
independent. -/
lemma runs_aux_split_zero (a : Position) (B : List (Position × Cell)) :
    ∀ (A : List (Position × Cell)) (p : Cell) (acc : List Position),
    runs_from_cells_aux p acc (A ++ (a, 0) :: B) =
      runs_from_cells_aux p acc A ++ runs_from_cells B
  | [], p, acc => by
    rw [List.nil_append]
    conv_lhs => rw [runs_from_cells_aux]
    conv_rhs => rw [runs_from_cells_aux]
    by_cases hp : (0 : Cell) = p
    · rw [if_pos hp, ← hp, runs_aux_zero_acc, runs_flush_zero, List.nil_append]
    · rw [if_neg hp, runs_aux_zero_acc]
  | (pos, cell) :: A', p, acc => by
    rw [List.cons_append]
    conv_lhs => rw [runs_from_cells_aux]
    conv_rhs => rw [runs_from_cells_aux]
    by_cases hc : cell = p
    · rw [if_pos hc, if_pos hc, runs_aux_split_zero a B A' p (acc ++ [pos])]
    · rw [if_neg hc, if_neg hc, runs_aux_split_zero a B A' cell [pos],
        List.append_assoc]

lemma runs_split_zero (A : List (Position × Cell)) (a : Position)
    (B : List (Position × Cell)) :
    runs_from_cells (A ++ (a, 0) :: B) = runs_from_cells A ++ runs_from_cells B := by
  rw [runs_from_cells, runs_from_cells, runs_aux_split_zero]

/-- Segments of an append with different cells at the boundary. -/
lemma segs_append_ne :
    ∀ (A B : List (Position × Cell)),
      (∀ x ∈ A.getLast?, ∀ y ∈ B.head?, x.2 ≠ y.2) →
      segs (A ++ B) = segs A ++ segs B
  | [], B, _ => by
    rw [List.nil_append]
    rfl
  | [(p, c)], B, h => by
    rw [List.singleton_append, segs_cons]
    cases hB : B with
    | nil => rfl
    | cons b B' =>
      obtain ⟨bp, bc⟩ := b
      rw [segs_cons]
      obtain ⟨bs, t, hbs⟩ := mergeSegs_head_cell bc [bp] (segs B')
      rw [hbs]
      dsimp only [mergeSegs]
      rw [if_neg (fun he => (h (p, c) rfl (bp, bc) (by rw [hB]; rfl)) he.symm)]
      rfl
  | (p, c) :: q :: A'', B, h => by
    obtain ⟨qp, qc⟩ := q
    have ih := segs_append_ne ((qp, qc) :: A'') B
      (fun x hx y hy => h x (by rw [List.getLast?_cons_cons]; exact hx) y hy)
    obtain ⟨bs, t, hbs⟩ := mergeSegs_head_cell qc [qp] (segs A'')
    have hsq : segs ((qp, qc) :: A'') = (qc, bs) :: t := by
      rw [segs_cons, hbs]
    conv_lhs => rw [List.cons_append, segs_cons, ih, hsq, List.cons_append]
    conv_rhs => rw [segs_cons, hsq]
    dsimp only [mergeSegs]
    by_cases hqc : qc = c
    · rw [if_pos hqc, if_pos hqc]
      rfl
    · rw [if_neg hqc, if_neg hqc]
      rfl

/-- Extract the maximal trailing block of `w`-cells. -/
lemma split_trailing_w (w : Cell) :
    ∀ A : List (Position × Cell),
      ∃ (A₀ : List (Position × Cell)) (wa : List Position),
        A = A₀ ++ wa.map (fun q => (q, w)) ∧
        (∀ x ∈ A₀.getLast?, x.2 ≠ w)
  | [] => ⟨[], [], rfl, fun x hx => absurd hx (by simp)⟩
  | (p, c) :: A' => by
    obtain ⟨A₀, wa, heq, hb⟩ := split_trailing_w w A'
    cases hA₀ : A₀ with
    | nil =>
      rw [hA₀, List.nil_append] at heq
      by_cases hc : c = w
      · refine ⟨[], p :: wa, ?_, fun x hx => absurd hx (by simp)⟩
        rw [List.nil_append, List.map_cons, heq, hc]
      · refine ⟨[(p, c)], wa, ?_, ?_⟩
        · rw [List.singleton_append, heq]
        · intro x hx
          rw [List.getLast?_singleton, Option.mem_def, Option.some.injEq] at hx
          rw [← hx]
          exact hc
    | cons y A₁ =>
      refine ⟨(p, c) :: A₀, wa, ?_, ?_⟩
      · rw [List.cons_append, ← heq]
      · intro x hx
        apply hb
        rw [hA₀, List.getLast?_cons_cons] at hx
        rw [hA₀]
        exact hx

/-- Extract the maximal leading block of `w`-cells. -/
lemma split_leading_w (w : Cell) :
    ∀ B : List (Position × Cell),
      ∃ (wb : List Position) (B₀ : List (Position × Cell)),
        B = wb.map (fun q => (q, w)) ++ B₀ ∧
        (∀ x ∈ B₀.head?, x.2 ≠ w)
  | [] => ⟨[], [], rfl, fun x hx => absurd hx (by simp)⟩
  | (p, c) :: B' => by
    by_cases hc : c = w
    · obtain ⟨wb, B₀, heq, hb⟩ := split_leading_w w B'
      refine ⟨p :: wb, B₀, ?_, hb⟩
      rw [List.map_cons, List.cons_append, ← heq, hc]
    · refine ⟨[], (p, c) :: B', rfl, ?_⟩
      intro x hx
      rw [List.head?_cons, Option.mem_def, Option.some.injEq] at hx
      rw [← hx]
      exact hc

lemma head?_append_of_ne_nil {α : Type} {L : List α} (M : List α) (h : L ≠ []) :
    (L ++ M).head? = L.head? := by
  cases L with
  | nil => exact absurd rfl h
  | cons x xs => rfl

lemma segs_wblock (c : Cell) (as : List Position) (hne : as ≠ []) :
    segs (as.map (fun q => (q, c))) = [(c, as)] := by
  have h := segs_block_append c [] (fun x hx => absurd hx (by simp)) as hne
  rw [List.append_nil] at h
  rw [h]
  rfl

lemma filter_keep_singleton (w : Cell) (as : List Position) :
    [(w, as)].filter run_keep =
      if 1 < as.length ∧ w ≠ 0 then [(w, as)] else [] := by
  rw [List.filter_cons, List.filter_nil]
  by_cases hk : run_keep (w, as) = true
  · rw [if_pos hk, if_pos ((run_keep_iff w as).mp hk)]
  · rw [if_neg hk, if_neg (fun hc => hk ((run_keep_iff w as).mpr hc))]

lemma runs_append_wblock (w : Cell) (A₀ : List (Position × Cell))
    (wa : List Position) (hb : ∀ x ∈ A₀.getLast?, x.2 ≠ w) :
    runs_from_cells (A₀ ++ wa.map (fun q => (q, w))) =
      runs_from_cells A₀ ++ (if 1 < wa.length ∧ w ≠ 0 then [(w, wa)] else []) := by
  cases hwa : wa with
  | nil =>
    rw [List.map_nil, List.append_nil, if_neg (by simp), List.append_nil]
  | cons w0 wa' =>
    rw [runs_from_cells_eq_filter_segs, runs_from_cells_eq_filter_segs,
      segs_append_ne A₀ _ (fun x hx y hy => by
        rw [List.map_cons, List.head?_cons, Option.mem_def, Option.some.injEq] at hy
        rw [← hy]
        exact hb x hx),
      List.filter_append, segs_wblock w _ (by simp), filter_keep_singleton]

lemma runs_wblock_append (w : Cell) (wb : List Position)
    (B₀ : List (Position × Cell)) (hb : ∀ x ∈ B₀.head?, x.2 ≠ w) :
    runs_from_cells (wb.map (fun q => (q, w)) ++ B₀) =
      (if 1 < wb.length ∧ w ≠ 0 then [(w, wb)] else []) ++ runs_from_cells B₀ := by
  cases hwb : wb with
  | nil =>
    rw [List.map_nil, List.nil_append, if_neg (by simp), List.nil_append]
  | cons w0 wb' =>
    rw [runs_from_cells_eq_filter_segs, runs_from_cells_eq_filter_segs,
      segs_block_append w B₀ hb (w0 :: wb') (by simp), List.filter_cons]
    by_cases hk : run_keep (w, w0 :: wb') = true
    · rw [if_pos hk, if_pos ((run_keep_iff w (w0 :: wb')).mp hk)]
      rfl
    · rw [if_neg hk, if_neg (fun hc => hk ((run_keep_iff w (w0 :: wb')).mpr hc)),
        List.nil_append]

/-- Filling one empty cell `a` with `w`: the runs of the line before and
after share a common prefix `P` and suffix `S`; in between, the separate
short `w`-runs on each side of `a` are replaced by the single merged
`w`-run through `a`. -/
lemma runs_change (w : Cell) (A B : List (Position × Cell)) (a : Position) :
    ∃ (P S : List (Player × List Position)) (wa wb : List Position),
      runs_from_cells (A ++ (a, 0) :: B) =
        (P ++ (if 1 < wa.length ∧ w ≠ 0 then [(w, wa)] else [])) ++
          ((if 1 < wb.length ∧ w ≠ 0 then [(w, wb)] else []) ++ S) ∧
      runs_from_cells (A ++ (a, w) :: B) =
        P ++ ((if 1 < (wa ++ a :: wb).length ∧ w ≠ 0
          then [(w, wa ++ a :: wb)] else []) ++ S) := by
  obtain ⟨A₀, wa, hA, hbA⟩ := split_trailing_w w A
  obtain ⟨wb, B₀, hB, hbB⟩ := split_leading_w w B
  refine ⟨runs_from_cells A₀, runs_from_cells B₀, wa, wb, ?_, ?_⟩
  · rw [runs_split_zero, hA, hB, runs_append_wblock w A₀ wa hbA,
      runs_wblock_append w wb B₀ hbB]
  · rw [hA, hB]
    have hmid : A₀ ++ wa.map (fun q => (q, w)) ++
        (a, w) :: (wb.map (fun q => (q, w)) ++ B₀) =
        A₀ ++ ((wa ++ a :: wb).map (fun q => (q, w)) ++ B₀) := by
      rw [List.map_append, List.map_cons]
      simp [List.append_assoc]
    rw [hmid, runs_from_cells_eq_filter_segs,
      segs_append_ne A₀ _ (fun x hx y hy => by
        rw [head?_append_of_ne_nil _ (by simp), List.map_append, List.map_cons] at hy
        have hym : y ∈ (wa.map (fun q => (q, w)) ++ (a, w) ::
            wb.map (fun q => (q, w))) := by
          exact head?_mem (Option.mem_def.mp hy)
        have hy2 : y.2 = w := by
          rcases List.mem_append.mp hym with hm | hm
          · obtain ⟨q, _, hq⟩ := List.mem_map.mp hm
            rw [← hq]
          · rcases List.mem_cons.mp hm with hm' | hm'
            · rw [hm']
            · obtain ⟨q, _, hq⟩ := List.mem_map.mp hm'
              rw [← hq]
        rw [hy2]
        exact hbA x hx),
      List.filter_append, segs_block_append w B₀ hbB (wa ++ a :: wb) (by simp),
      List.filter_cons, ← runs_from_cells_eq_filter_segs]
    by_cases hk : run_keep (w, wa ++ a :: wb) = true
    · rw [if_pos hk, if_pos ((run_keep_iff w (wa ++ a :: wb)).mp hk)]
      rw [← runs_from_cells_eq_filter_segs]
      rfl
    · rw [if_neg hk,
        if_neg (fun hc => hk ((run_keep_iff w (wa ++ a :: wb)).mpr hc)),
        ← runs_from_cells_eq_filter_segs, List.nil_append]

lemma find?_app {α : Type} (p : α → Bool) :
    ∀ (l₁ l₂ : List α), (l₁ ++ l₂).find? p = (l₁.find? p).or (l₂.find? p)
  | [], l₂ => by
    rw [List.nil_append, List.find?_nil, Option.none_or]
  | x :: l₁', l₂ => by
    rw [List.cons_append]
    by_cases hx : p x = true
    · rw [List.find?_cons_of_pos _ hx, List.find?_cons_of_pos _ hx, option_some_or]
    · rw [List.find?_cons_of_neg _ hx, List.find?_cons_of_neg _ hx, find?_app p l₁' l₂]

/-- The relation between one scanned line's runs before and after a cell of
the board is filled in by player `w`: non-`w` runs are preserved, and the
first run of length ≥ k keeps pointing at a `w` run whenever it did, or can
only newly appear as a `w` run. -/
def LineRel (k : Nat) (w : Player) (L L' : List (Player × List Position)) : Prop :=
  (∀ r ∈ L', r.1 ≠ w → r ∈ L) ∧
  (L.find? (fun r => k ≤ r.2.length) = none →
    ∀ r' ∈ L'.find? (fun r => k ≤ r.2.length), r'.1 = w) ∧
  (∀ r ∈ L.find? (fun r => k ≤ r.2.length), r.1 = w →
    ∃ r' ∈ L'.find? (fun r => k ≤ r.2.length), r'.1 = w)

lemma lineRel_refl (k : Nat) (w : Player) (L : List (Player × List Position)) :
    LineRel k w L L := by
  refine ⟨fun r hr _ => hr, ?_, fun r hr hrw => ⟨r, hr, hrw⟩⟩
  intro hn r' hr'
  rw [hn] at hr'
  exact absurd hr' (by simp)

lemma lineRel_append {k : Nat} {w : Player}
    {L L' X X' : List (Player × List Position)}
    (h1 : LineRel k w L L') (h2 : LineRel k w X X') :
    LineRel k w (L ++ X) (L' ++ X') := by
  obtain ⟨h1a, h1b, h1c⟩ := h1
  obtain ⟨h2a, h2b, h2c⟩ := h2
  refine ⟨?_, ?_, ?_⟩
  · intro r hr hrw
    rcases List.mem_append.mp hr with hm | hm
    · exact List.mem_append_left _ (h1a r hm hrw)
    · exact List.mem_append_right _ (h2a r hm hrw)
  · intro hn r' hr'
    have hall := List.find?_eq_none.mp hn
    have hLn : L.find? (fun r => k ≤ r.2.length) = none :=
      List.find?_eq_none.mpr (fun x hx => hall x (List.mem_append_left _ hx))
    have hXn : X.find? (fun r => k ≤ r.2.length) = none :=
      List.find?_eq_none.mpr (fun x hx => hall x (List.mem_append_right _ hx))
    rw [find?_app] at hr'
    cases hfL : L'.find? (fun r => k ≤ r.2.length) with
    | some rl =>
      rw [hfL, option_some_or, Option.mem_def, Option.some.injEq] at hr'
      subst hr'
      exact h1b hLn rl (Option.mem_def.mpr hfL)
    | none =>
      rw [hfL, Option.none_or] at hr'
      exact h2b hXn r' hr'
  · intro r hr hrw
    rw [find?_app] at hr
    cases hfL : L.find? (fun r => k ≤ r.2.length) with
    | some rl =>
      rw [hfL, option_some_or, Option.mem_def, Option.some.injEq] at hr
      subst hr
      obtain ⟨r', hr', hr'w⟩ := h1c rl (Option.mem_def.mpr hfL) hrw
      refine ⟨r', ?_, hr'w⟩
      rw [find?_app, Option.mem_def.mp hr', option_some_or]
      rfl
    | none =>
      rw [hfL, Option.none_or] at hr
      obtain ⟨r', hr', hr'w⟩ := h2c r hr hrw
      cases hfL' : L'.find? (fun r => k ≤ r.2.length) with
      | some ru =>
        refine ⟨ru, ?_, h1b hfL ru (Option.mem_def.mpr hfL')⟩
        rw [find?_app, hfL', option_some_or]
        rfl
      | none =>
        refine ⟨r', ?_, hr'w⟩
        rw [find?_app, hfL', Option.none_or]
        exact hr'

lemma lineRel_flatten {k : Nat} {w : Player} :
    ∀ {Ls Ls' : List (List (Player × List Position))},
      List.Forall₂ (LineRel k w) Ls Ls' → LineRel k w Ls.flatten Ls'.flatten := by
  intro Ls Ls' h
  induction h with
  | nil => exact lineRel_refl _ _ _
  | cons hL hT ih =>
    rw [List.flatten_cons, List.flatten_cons]
    exact lineRel_append hL ih

lemma lineRel_parts (k : Nat) (w : Player)
    (P S M₁ M₂ W : List (Player × List Position))
    (hM₁ : ∀ r ∈ M₁, r.1 = w) (hM₂ : ∀ r ∈ M₂, r.1 = w)
    (hW : ∀ r ∈ W, r.1 = w)
    (hlift₁ : ∀ r ∈ M₁, k ≤ r.2.length → ∃ r' ∈ W, k ≤ r'.2.length)
    (hlift₂ : ∀ r ∈ M₂, k ≤ r.2.length → ∃ r' ∈ W, k ≤ r'.2.length) :
    LineRel k w ((P ++ M₁) ++ (M₂ ++ S)) (P ++ (W ++ S)) := by
  have hWfind : ∀ r' ∈ W, k ≤ r'.2.length →
      ∃ ru ∈ W.find? (fun r => k ≤ r.2.length), ru.1 = w := by
    intro r' hr' hlen
    cases hf : W.find? (fun r => k ≤ r.2.length) with
    | some ru =>
      exact ⟨ru, rfl, hW ru (List.mem_of_find?_eq_some hf)⟩
    | none =>
      exact absurd (by simpa using List.find?_eq_none.mp hf r' hr') (by simpa using hlen)
  refine ⟨?_, ?_, ?_⟩
  · intro r hr hrw
    rcases List.mem_append.mp hr with hm | hm
    · exact List.mem_append_left _ (List.mem_append_left _ hm)
    · rcases List.mem_append.mp hm with hm' | hm'
      · exact absurd (hW r hm') hrw
      · exact List.mem_append_right _ (List.mem_append_right _ hm')
  · intro hn r' hr'
    have hall := List.find?_eq_none.mp hn
    have hPn : P.find? (fun r => k ≤ r.2.length) = none :=
      List.find?_eq_none.mpr (fun x hx => hall x
        (List.mem_append_left _ (List.mem_append_left _ hx)))
    have hSn : S.find? (fun r => k ≤ r.2.length) = none :=
      List.find?_eq_none.mpr (fun x hx => hall x
        (List.mem_append_right _ (List.mem_append_right _ hx)))
    rw [find?_app, find?_app, hPn, Option.none_or, hSn] at hr'
    cases hfW : W.find? (fun r => k ≤ r.2.length) with
    | some ru =>
      rw [hfW, option_some_or, Option.mem_def, Option.some.injEq] at hr'
      subst hr'
      exact hW ru (List.mem_of_find?_eq_some hfW)
    | none =>
      rw [hfW] at hr'
      exact absurd hr' (by simp)
  · intro r hr hrw
    rw [find?_app, find?_app, find?_app] at hr
    cases hfP : P.find? (fun r => k ≤ r.2.length) with
    | some rp =>
      rw [hfP, option_some_or, option_some_or, Option.mem_def,
        Option.some.injEq] at hr
      subst hr
      refine ⟨rp, ?_, hrw⟩
      rw [find?_app, hfP, option_some_or]
      rfl
    | none =>
      rw [hfP, Option.none_or] at hr
      cases hfM₁ : M₁.find? (fun r => k ≤ r.2.length) with
      | some rm =>
        rw [hfM₁, option_some_or, Option.mem_def, Option.some.injEq] at hr
        subst hr
        obtain ⟨ru, hru, hruw⟩ := hWfind _
          (hlift₁ rm (List.mem_of_find?_eq_some hfM₁)
            (by simpa using List.find?_some hfM₁)).choose_spec.1
          ((hlift₁ rm (List.mem_of_find?_eq_some hfM₁)
            (by simpa using List.find?_some hfM₁)).choose_spec.2)
        refine ⟨ru, ?_, hruw⟩
        rw [find?_app, find?_app, hfP, Option.none_or, Option.mem_def.mp hru,
          option_some_or]
        rfl
      | none =>
        rw [hfM₁, Option.none_or] at hr
        cases hfM₂ : M₂.find? (fun r => k ≤ r.2.length) with
        | some rm =>
          rw [hfM₂, option_some_or, Option.mem_def, Option.some.injEq] at hr
          subst hr
          obtain ⟨ru, hru, hruw⟩ := hWfind _
            (hlift₂ rm (List.mem_of_find?_eq_some hfM₂)
              (by simpa using List.find?_some hfM₂)).choose_spec.1
            ((hlift₂ rm (List.mem_of_find?_eq_some hfM₂)
              (by simpa using List.find?_some hfM₂)).choose_spec.2)
          refine ⟨ru, ?_, hruw⟩
          rw [find?_app, find?_app, hfP, Option.none_or, Option.mem_def.mp hru,
            option_some_or]
          rfl
        | none =>
          rw [hfM₂, Option.none_or] at hr
          cases hfW : W.find? (fun r => k ≤ r.2.length) with
          | some ru =>
            refine ⟨ru, ?_, hW ru (List.mem_of_find?_eq_some hfW)⟩
            rw [find?_app, find?_app, hfP, Option.none_or, hfW, option_some_or]
            rfl
          | none =>
            refine ⟨r, ?_, hrw⟩
            rw [find?_app, find?_app, hfP, Option.none_or, hfW, Option.none_or]
            exact hr

lemma lineRel_runs_change (k : Nat) (w : Player) (hw : w ≠ 0)
    (A B : List (Position × Cell)) (a : Position) :
    LineRel k w (runs_from_cells (A ++ (a, 0) :: B))
      (runs_from_cells (A ++ (a, w) :: B)) := by
  obtain ⟨P, S, wa, wb, h0, h1⟩ := runs_change w A B a
  rw [h0, h1]
  apply lineRel_parts
  · intro r hr
    by_cases hc : 1 < wa.length ∧ w ≠ 0
    · rw [if_pos hc, List.mem_singleton] at hr
      rw [hr]
    · rw [if_neg hc] at hr
      exact absurd hr (List.not_mem_nil r)
  · intro r hr
    by_cases hc : 1 < wb.length ∧ w ≠ 0
    · rw [if_pos hc, List.mem_singleton] at hr
      rw [hr]
    · rw [if_neg hc] at hr
      exact absurd hr (List.not_mem_nil r)
  · intro r hr
    by_cases hc : 1 < (wa ++ a :: wb).length ∧ w ≠ 0
    · rw [if_pos hc, List.mem_singleton] at hr
      rw [hr]
    · rw [if_neg hc] at hr
      exact absurd hr (List.not_mem_nil r)
  · intro r hr hlen
    by_cases hc : 1 < wa.length ∧ w ≠ 0
    · rw [if_pos hc, List.mem_singleton] at hr
      subst hr
      refine ⟨(w, wa ++ a :: wb), ?_, ?_⟩
      · rw [if_pos ⟨by rw [List.length_append, List.length_cons]; omega, hw⟩]
        exact List.mem_singleton_self _
      · dsimp only at hlen ⊢
        rw [List.length_append, List.length_cons]
        omega
    · rw [if_neg hc] at hr
      exact absurd hr (List.not_mem_nil r)
  · intro r hr hlen
    by_cases hc : 1 < wb.length ∧ w ≠ 0
    · rw [if_pos hc, List.mem_singleton] at hr
      subst hr
      refine ⟨(w, wa ++ a :: wb), ?_, ?_⟩
      · rw [if_pos ⟨by rw [List.length_append, List.length_cons]; omega, hw⟩]
        exact List.mem_singleton_self _
      · dsimp only at hlen ⊢
        rw [List.length_append, List.length_cons]
        omega
    · rw [if_neg hc] at hr
      exact absurd hr (List.not_mem_nil r)

lemma forall₂_app {α β : Type} {R : α → β → Prop} :
    ∀ {l₁ u₁ : List α} {l₂ u₂ : List β},
      List.Forall₂ R l₁ l₂ → List.Forall₂ R u₁ u₂ →
      List.Forall₂ R (l₁ ++ u₁) (l₂ ++ u₂)
  | _, _, _, _, List.Forall₂.nil, h => h
  | _, _, _, _, List.Forall₂.cons hx ht, h =>
    List.Forall₂.cons hx (forall₂_app ht h)

lemma forall₂_map_same {α β : Type} (R : β → β → Prop) (f g : α → β)
    (l : List α) (h : ∀ x ∈ l, R (f x) (g x)) :
    List.Forall₂ R (l.map f) (l.map g) := by
  induction l with
  | nil => exact List.Forall₂.nil
  | cons x t ih =>
    exact List.Forall₂.cons (h x (List.mem_cons_self _ _))
      (ih (fun y hy => h y (List.mem_cons_of_mem _ hy)))

lemma rect_updateCell (board : Board) (i j : Nat) (v : Cell)
    (hrect : Rect board) (hi : i < board.length) :
    Rect (updateCell board i j v) := by
  intro row hrow
  rw [num_cols_updateCell]
  rw [updateCell] at hrow
  rcases List.mem_or_eq_of_mem_set hrow with hm | he
  · exact hrect row hm
  · rw [he, List.length_set]
    exact hrect _ (getD_mem hi [])

/-- Per-line version of the cell-fill relation for a line given by a
position list. -/
lemma lineRel_map_posCell (k : Nat) (board : Board) {i j : Nat} (w : Player)
    (hw : w ≠ 0) (hj : j < (board.getD i []).length)
    (hcell : cellAt board (i, j) = 0)
    (ps : List Position) (hnd : ps.Nodup) :
    LineRel k w (runs_from_cells (ps.map (posCell board)))
      (runs_from_cells (ps.map (posCell (updateCell board i j w)))) := by
  by_cases hmem : (i, j) ∈ ps
  · obtain ⟨X, Y, hsplit⟩ := List.append_of_mem hmem
    subst hsplit
    have hnotin : (i, j) ∉ X ∧ (i, j) ∉ Y := by
      rw [List.nodup_middle, List.nodup_cons] at hnd
      exact ⟨fun h => hnd.1 (List.mem_append_left _ h),
        fun h => hnd.1 (List.mem_append_right _ h)⟩
    have hmapX : X.map (posCell (updateCell board i j w)) = X.map (posCell board) :=
      List.map_congr_left (fun p hp => by
        rw [posCell, posCell, cellAt_updateCell board w hj p,
          if_neg (fun (he : p = (i, j)) => hnotin.1 (he ▸ hp))])
    have hmapY : Y.map (posCell (updateCell board i j w)) = Y.map (posCell board) :=
      List.map_congr_left (fun p hp => by
        rw [posCell, posCell, cellAt_updateCell board w hj p,
          if_neg (fun (he : p = (i, j)) => hnotin.2 (he ▸ hp))])
    have e0 : (X ++ (i, j) :: Y).map (posCell board) =
        X.map (posCell board) ++ ((i, j), 0) :: Y.map (posCell board) := by
      rw [List.map_append, List.map_cons, posCell, hcell]
    have e1 : (X ++ (i, j) :: Y).map (posCell (updateCell board i j w)) =
        X.map (posCell board) ++ ((i, j), w) :: Y.map (posCell board) := by
      rw [List.map_append, List.map_cons, hmapX, hmapY, posCell,
        cellAt_updateCell board w hj (i, j), if_pos rfl]
    rw [e0, e1]
    exact lineRel_runs_change k w hw _ _ _
  · have heq : ps.map (posCell (updateCell board i j w)) = ps.map (posCell board) :=
      List.map_congr_left (fun p hp => by
        rw [posCell, posCell, cellAt_updateCell board w hj p,
          if_neg (fun (he : p = (i, j)) => hmem (he ▸ hp))])
    rw [heq]
    exact lineRel_refl _ _ _

/-- Board-level cell-fill relation: filling one empty cell with `w` keeps
all non-`w` runs and moves the first long run only onto `w` runs. -/
lemma pieces_lineRel (k : Nat) (board : Board) (hrect : Rect board)
    (i j : Nat) (w : Player) (hw : w ≠ 0)
    (hi : i < num_rows board) (hj : j < num_cols board)
    (hcell : cellAt board (i, j) = 0) :
    LineRel k w (pieces_in_a_row board)
      (pieces_in_a_row (updateCell board i j w)) := by
  have hilen : i < board.length := by rw [num_rows] at hi; exact hi
  have hjlen : j < (board.getD i []).length := by
    rw [hrect _ (getD_mem hilen [])]
    exact hj
  have hrect' : Rect (updateCell board i j w) :=
    rect_updateCell board i j w hrect hilen
  rw [pieces_in_a_row, pieces_in_a_row]
  apply lineRel_flatten
  rw [lineList, lineList]
  simp only [List.map_append]
  refine forall₂_app (forall₂_app (forall₂_app
    (forall₂_app (forall₂_app ?_ ?_) ?_) ?_) ?_) ?_
  · rw [linesH_eq board hrect, linesH_eq _ hrect', num_rows_updateCell,
      num_cols_updateCell, List.map_map, List.map_map]
    apply forall₂_map_same
    intro b hb
    exact lineRel_map_posCell k board w hw hjlen hcell _
      (fullLine_h board b (List.mem_range.mp hb)).2.2.1
  · rw [linesV_eq board hrect, linesV_eq _ hrect', num_rows_updateCell,
      num_cols_updateCell, List.map_map, List.map_map]
    apply forall₂_map_same
    intro b hb
    exact lineRel_map_posCell k board w hw hjlen hcell _
      (fullLine_v board b (List.mem_range.mp hb)).2.2.1
  · rw [linesD1a_eq board hrect, linesD1a_eq _ hrect', num_rows_updateCell,
      num_cols_updateCell, List.map_map, List.map_map]
    apply forall₂_map_same
    intro b hb
    exact lineRel_map_posCell k board w hw hjlen hcell _
      (fullLine_d1a board b).2.2.1
  · rw [linesD1b_eq board hrect, linesD1b_eq _ hrect', num_rows_updateCell,
      num_cols_updateCell, List.map_map, List.map_map]
    apply forall₂_map_same
    intro b hb
    exact lineRel_map_posCell k board w hw hjlen hcell _
      (fullLine_d1b board b).2.2.1
  · rw [linesD2a_eq board hrect, linesD2a_eq _ hrect', num_rows_updateCell,
      num_cols_updateCell, List.map_map, List.map_map]
    apply forall₂_map_same
    intro b hb
    exact lineRel_map_posCell k board w hw hjlen hcell _
      (fullLine_d2a board b).2.2.1
  · rw [linesD2b_eq board hrect, linesD2b_eq _ hrect', num_rows_updateCell,
      num_cols_updateCell, List.map_map, List.map_map]
    apply forall₂_map_same
    intro b hb
    exact lineRel_map_posCell k board w hw hjlen hcell _
      (fullLine_d2b board b (by
        have := List.mem_range'_1.mp hb
        omega)).2.2.1

lemma pieces_mem_iff (board : Board) (hrect : Rect board)
    (r : Player × List Position) :
    r ∈ pieces_in_a_row board ↔ IsMaxRun board r := by
  have hc := pieces_count board hrect r
  constructor
  · intro hmem
    by_contra hmr
    rw [if_neg hmr] at hc
    rw [← List.count_pos_iff_mem] at hmem
    omega
  · intro hmr
    rw [if_pos hmr] at hc
    exact List.count_pos_iff_mem.mp (by omega)

/-- The free-cell walk always terminates within `num_rows + num_cols + 1`
steps when moving monotonically in a row or column coordinate. -/
lemma count_free_cells_isSome (board : Board) :
    ∀ (fuel : Nat) (row col dr dc : Int), 0 < fuel →
      ((0 < dc ∧ (num_cols board : Int) - col ≤ (fuel : Int)) ∨
       (dc < 0 ∧ col + 1 ≤ (fuel : Int)) ∨
       (dc = 0 ∧ 0 < dr ∧ (num_rows board : Int) - row ≤ (fuel : Int)) ∨
       (dc = 0 ∧ dr < 0 ∧ row + 1 ≤ (fuel : Int))) →
      (count_free_cells board fuel row col dr dc).isSome
  | 0, _, _, _, _, hf, _ => absurd hf (by omega)
  | fuel + 1, row, col, dr, dc, _, h => by
    rw [count_free_cells]
    by_cases hguard : 0 ≤ row + dr ∧ row + dr < (num_rows board : Int) ∧
        0 ≤ col + dc ∧ col + dc < (num_cols board : Int) ∧
        cellAt board ((row + dr).toNat, (col + dc).toNat) = 0
    · rw [if_pos hguard]
      obtain ⟨hg1, hg2, hg3, hg4, -⟩ := hguard
      rw [Option.isSome_map']
      rcases h with ⟨hdc, hle⟩ | ⟨hdc, hle⟩ | ⟨hdc, hdr, hle⟩ | ⟨hdc, hdr, hle⟩
      · exact count_free_cells_isSome board fuel (row + dr) (col + dc) dr dc
          (by omega) (Or.inl ⟨hdc, by push_cast at hle ⊢; omega⟩)
      · exact count_free_cells_isSome board fuel (row + dr) (col + dc) dr dc
          (by omega) (Or.inr (Or.inl ⟨hdc, by push_cast at hle ⊢; omega⟩))
      · exact count_free_cells_isSome board fuel (row + dr) (col + dc) dr dc
          (by omega) (Or.inr (Or.inr (Or.inl ⟨hdc, hdr, by push_cast at hle ⊢; omega⟩)))
      · exact count_free_cells_isSome board fuel (row + dr) (col + dc) dr dc
          (by omega) (Or.inr (Or.inr (Or.inr ⟨hdc, hdr, by push_cast at hle ⊢; omega⟩)))
    · rw [if_neg hguard]
      rfl

/-- `can_win_from_pieces` never raises on a maximal run of a board with the
same dimensions. -/
lemma can_win_from_pieces_isSome (k : Nat) (board b2 : Board)
    (hnr : num_rows b2 = num_rows board) (hnc : num_cols b2 = num_cols board)
    (r : Player × List Position) (hmr : IsMaxRun b2 r) :
    (can_win_from_pieces k board r.2).isSome := by
  obtain ⟨d, hd, hmd⟩ := hmr
  obtain ⟨-, hlen, hcells, hch, -, -⟩ := hmd
  cases hr2 : r.2 with
  | nil =>
    rw [hr2] at hlen
    simp at hlen
  | cons p0 t =>
    cases t with
    | nil =>
      rw [hr2] at hlen
      simp at hlen
    | cons p1 rest =>
      rw [StepChain, hr2, List.chain'_cons] at hch
      obtain ⟨e1, e2⟩ := stepPos_some hch.1
      have hlastmem : (p0 :: p1 :: rest).getLastD (0, 0) ∈ (p0 :: p1 :: rest) := by
        have hne : (p0 :: p1 :: rest) ≠ ([] : List Position) := by simp
        obtain ⟨z, hz⟩ := exists_getLast?_of_ne_nil hne
        rw [List.getLastD_eq_getLast?, hz, Option.getD_some]
        exact getLast?_mem hz
      have hlastin := (hcells _ (by rw [hr2]; exact hlastmem)).1
      have hp0in := (hcells p0 (by rw [hr2]; exact List.mem_cons_self _ _)).1
      rw [inBoard, hnr, hnc] at hlastin hp0in
      rw [can_win_from_pieces]
      set L := (p0 :: p1 :: rest).getLastD (0, 0) with hL
      have hd4 : d = (0, 1) ∨ d = (1, 0) ∨ d = (1, 1) ∨ d = (-1, 1) := by
        simpa [dirs] using hd
      have hfuel : (0 : Nat) < num_rows board + num_cols board + 1 := by omega
      rcases hd4 with rfl | rfl | rfl | rfl
      all_goals (dsimp only at e1 e2)
      · have hd1 : (p1.1 : Int) - (p0.1 : Int) = 0 := by omega
        have hd2 : (p1.2 : Int) - (p0.2 : Int) = 1 := by omega
        rw [hd1, hd2]
        obtain ⟨v1, hv1⟩ := Option.isSome_iff_exists.mp
          (count_free_cells_isSome board (num_rows board + num_cols board + 1)
            (L.1 : Int) (L.2 : Int) 0 1 hfuel
            (Or.inl ⟨by omega, by push_cast; omega⟩))
        obtain ⟨v2, hv2⟩ := Option.isSome_iff_exists.mp
          (count_free_cells_isSome board (num_rows board + num_cols board + 1)
            (p0.1 : Int) (p0.2 : Int) (-0) (-1) hfuel
            (Or.inr (Or.inl ⟨by omega, by push_cast; omega⟩)))
        rw [hv1, hv2]
        rfl
      · have hd1 : (p1.1 : Int) - (p0.1 : Int) = 1 := by omega
        have hd2 : (p1.2 : Int) - (p0.2 : Int) = 0 := by omega
        rw [hd1, hd2]
        obtain ⟨v1, hv1⟩ := Option.isSome_iff_exists.mp
          (count_free_cells_isSome board (num_rows board + num_cols board + 1)
            (L.1 : Int) (L.2 : Int) 1 0 hfuel
            (Or.inr (Or.inr (Or.inl ⟨rfl, by omega, by push_cast; omega⟩))))
        obtain ⟨v2, hv2⟩ := Option.isSome_iff_exists.mp
          (count_free_cells_isSome board (num_rows board + num_cols board + 1)
            (p0.1 : Int) (p0.2 : Int) (-1) (-0) hfuel
            (Or.inr (Or.inr (Or.inr ⟨by omega, by omega, by push_cast; omega⟩))))
        rw [hv1, hv2]
        rfl
      · have hd1 : (p1.1 : Int) - (p0.1 : Int) = 1 := by omega
        have hd2 : (p1.2 : Int) - (p0.2 : Int) = 1 := by omega
        rw [hd1, hd2]
        obtain ⟨v1, hv1⟩ := Option.isSome_iff_exists.mp
          (count_free_cells_isSome board (num_rows board + num_cols board + 1)
            (L.1 : Int) (L.2 : Int) 1 1 hfuel
            (Or.inl ⟨by omega, by push_cast; omega⟩))
        obtain ⟨v2, hv2⟩ := Option.isSome_iff_exists.mp
          (count_free_cells_isSome board (num_rows board + num_cols board + 1)
            (p0.1 : Int) (p0.2 : Int) (-1) (-1) hfuel
            (Or.inr (Or.inl ⟨by omega, by push_cast; omega⟩)))
        rw [hv1, hv2]
        rfl
      · have hd1 : (p1.1 : Int) - (p0.1 : Int) = -1 := by omega
        have hd2 : (p1.2 : Int) - (p0.2 : Int) = 1 := by omega
        rw [hd1, hd2]
        obtain ⟨v1, hv1⟩ := Option.isSome_iff_exists.mp
          (count_free_cells_isSome board (num_rows board + num_cols board + 1)
            (L.1 : Int) (L.2 : Int) (-1) 1 hfuel
            (Or.inl ⟨by omega, by push_cast; omega⟩))
        obtain ⟨v2, hv2⟩ := Option.isSome_iff_exists.mp
          (count_free_cells_isSome board (num_rows board + num_cols board + 1)
            (p0.1 : Int) (p0.2 : Int) (- -1) (-1) hfuel
            (Or.inr (Or.inl ⟨by omega, by push_cast; omega⟩)))
        rw [hv1, hv2]
        rfl

/-- A drop into a free column succeeds and equals an `updateCell` at an
empty cell. -/
lemma copy_and_drop_free (board : Board) (q : Player) (c : Int)
    (hrect : Rect board) (hc : c ∈ get_free_columns board) :
    ∃ i j, i < num_rows board ∧ j < num_cols board ∧
      cellAt board (i, j) = 0 ∧
      copy_and_drop_piece board q c = some (updateCell board i j q) := by
  rw [mem_get_free_columns] at hc
  obtain ⟨h1, h2, h3⟩ := hc
  have hj : (c - 1).toNat < num_cols board := by omega
  have hnr : 0 < num_rows board := by
    by_contra hcon
    push_neg at hcon
    have hb : board = [] := List.length_eq_zero.mp (by rw [num_rows] at hcon; omega)
    rw [hb] at hj
    simp [num_cols] at hj
  obtain ⟨istar, hi, hcell, -, hdrop⟩ := drop_piece_spec board q hrect hj ⟨0, hnr, h3⟩
  refine ⟨istar, (c - 1).toNat, hi, hj, hcell, ?_⟩
  have hcol : ((c - 1).toNat : Int) + 1 = c := by omega
  rw [hcol] at hdrop
  rw [copy_and_drop_piece, hdrop]
  rfl

/-- Step 1 of the C10 argument: if no player can win by a single drop and a
free column exists, the board has no run of length ≥ k at all. -/
lemma no_long_runs_pre (k num_players : Nat) (board : Board) (hrect : Rect board)
    (hcells : ∀ row ∈ board, ∀ x ∈ row, x ≤ num_players)
    (c0 : Int) (hc0 : c0 ∈ get_free_columns board)
    (hP : ∀ q ∈ List.range' 1 num_players, ∀ c ∈ get_free_columns board,
      ∀ b ∈ copy_and_drop_piece board q c, end_of_game k b ≠ (q : Int)) :
    ∀ r ∈ pieces_in_a_row board, r.2.length < k := by
  by_contra hcon
  push_neg at hcon
  obtain ⟨r0, hr0m, hr0len⟩ := hcon
  have hfind : (pieces_in_a_row board).find? (fun r => k ≤ r.2.length) ≠ none := by
    intro hn
    have h1 := List.find?_eq_none.mp hn r0 hr0m
    simp at h1
    omega
  obtain ⟨rstar, hrstar⟩ := Option.ne_none_iff_exists'.mp hfind
  have hrsm : rstar ∈ pieces_in_a_row board := List.mem_of_find?_eq_some hrstar
  have hsound := pieces_sound board rstar hrsm
  have hmr : IsMaxRun board rstar := (pieces_mem_iff board hrect rstar).mp hrsm
  have howner : rstar.1 ≤ num_players := by
    obtain ⟨d, -, hmd⟩ := hmr
    obtain ⟨-, hlen2, hcells', -, -, -⟩ := hmd
    cases hr2 : rstar.2 with
    | nil =>
      rw [hr2] at hlen2
      simp at hlen2
    | cons p0 t =>
      have hin := hcells' p0 (by rw [hr2]; exact List.mem_cons_self _ _)
      have hib := hin.1
      rw [inBoard] at hib
      have hilen : p0.1 < board.length := by
        have := hib.1
        rw [num_rows] at this
        exact this
      have hrow : board.getD p0.1 [] ∈ board := getD_mem hilen []
      have hlenrow : (board.getD p0.1 []).length = num_cols board := hrect _ hrow
      have hplen : p0.2 < (board.getD p0.1 []).length := by
        rw [hlenrow]
        exact hib.2
      have hx : (board.getD p0.1 []).getD p0.2 0 ∈ board.getD p0.1 [] := by
        rw [List.getD_eq_getElem?_getD (board.getD p0.1 []) p0.2,
          List.getElem?_eq_getElem hplen, Option.getD_some]
        exact List.getElem_mem hplen
      have hval : rstar.1 = (board.getD p0.1 []).getD p0.2 0 := by
        rw [← hin.2]
        rfl
      rw [hval]
      exact hcells _ hrow _ hx
  have h1le : 1 ≤ rstar.1 := Nat.one_le_iff_ne_zero.mpr hsound.1
  obtain ⟨i, j, hi, hj, hcell0, hdrop⟩ := copy_and_drop_free board rstar.1 c0 hrect hc0
  have hrel := pieces_lineRel k board hrect i j rstar.1 hsound.1 hi hj hcell0
  obtain ⟨r', hr', hr'w⟩ := hrel.2.2 rstar (Option.mem_def.mpr hrstar) rfl
  have hend : end_of_game k (updateCell board i j rstar.1) = (rstar.1 : Int) := by
    rw [end_of_game, Option.mem_def.mp hr']
    dsimp only
    rw [hr'w]
  exact hP rstar.1 (List.mem_range'_1.mpr ⟨h1le, Nat.lt_one_add_iff.mpr howner⟩)
    c0 hc0 _ (Option.mem_def.mpr hdrop) hend

/-- Step 2 of the C10 argument: under the same precondition, a single drop
by any registered player leaves no run of length ≥ k either. -/
lemma no_long_runs_post (k num_players : Nat) (board : Board) (hrect : Rect board)
    (hcells : ∀ row ∈ board, ∀ x ∈ row, x ≤ num_players)
    (c0 : Int) (hc0 : c0 ∈ get_free_columns board)
    (hP : ∀ q ∈ List.range' 1 num_players, ∀ c ∈ get_free_columns board,
      ∀ b ∈ copy_and_drop_piece board q c, end_of_game k b ≠ (q : Int))
    (q : Player) (hq : q ∈ List.range' 1 num_players)
    (c : Int) (hc : c ∈ get_free_columns board) :
    ∀ b ∈ copy_and_drop_piece board q c, ∀ r ∈ pieces_in_a_row b,
      r.2.length < k := by
  intro b hb r hrm
  by_contra hlong
  push_neg at hlong
  obtain ⟨i, j, hi, hj, hcell0, hdrop⟩ := copy_and_drop_free board q c hrect hc
  have hbeq : b = updateCell board i j q := by
    have hmem := Option.mem_def.mp hb
    rw [hmem] at hdrop
    exact Option.some_inj.mp hdrop
  subst hbeq
  have hqb := List.mem_range'_1.mp hq
  have hqne : q ≠ 0 := Nat.one_le_iff_ne_zero.mp hqb.1
  have hrel := pieces_lineRel k board hrect i j q hqne hi hj hcell0
  have hpre := no_long_runs_pre k num_players board hrect hcells c0 hc0 hP
  have hfind : (pieces_in_a_row (updateCell board i j q)).find?
      (fun r => k ≤ r.2.length) ≠ none := by
    intro hn
    have h1 := List.find?_eq_none.mp hn r hrm
    simp at h1
    omega
  obtain ⟨rstar, hrstar⟩ := Option.ne_none_iff_exists'.mp hfind
  have hrsm := List.mem_of_find?_eq_some hrstar
  have hrslen : k ≤ rstar.2.length := by simpa using List.find?_some hrstar
  by_cases how : rstar.1 = q
  · have hend : end_of_game k (updateCell board i j q) = (q : Int) := by
      rw [end_of_game, hrstar]
      dsimp only
      rw [how]
    exact hP q hq c hc _ (Option.mem_def.mpr hdrop) hend
  · have hmem := hrel.1 rstar hrsm how
    exact absurd hrslen (not_le.mpr (hpre rstar hmem))

lemma bump_some (counts : List (List Nat)) (i : Int) (slot : Nat)
    (h0 : 0 ≤ i) (h1 : i < (counts.length : Int)) :
    ∃ counts', bump counts i slot = some counts' ∧
      counts'.length = counts.length := by
  rw [bump, pyIdx_of_nonneg h0 h1]
  exact ⟨_, rfl, by rw [List.length_set]⟩

lemma free_columns_bounds (b : Board) :
    ∀ c ∈ get_free_columns b, 1 ≤ c ∧ c ≤ (num_cols b : Int) := by
  intro c hc
  rw [mem_get_free_columns] at hc
  exact ⟨hc.1, hc.2.1⟩

lemma can_win_now_go_isSome (k : Nat) (b : Board) (q : Player) (hrect : Rect b) :
    ∀ cols : List Int, (∀ c ∈ cols, 1 ≤ c ∧ c ≤ (num_cols b : Int)) →
      (can_win_now_go k b q cols).isSome
  | [], _ => rfl
  | c :: rest, hc => by
    rw [can_win_now_go]
    obtain ⟨b2, hb2⟩ := copy_and_drop_isSome b q hrect
      (hc c (List.mem_cons_self _ _)).1 (hc c (List.mem_cons_self _ _)).2
    rw [hb2]
    dsimp only
    by_cases hend : end_of_game k b2 = (q : Int)
    · rw [if_pos hend]
      rfl
    · rw [if_neg hend]
      exact can_win_now_go_isSome k b q hrect rest
        (fun x hx => hc x (List.mem_cons_of_mem _ hx))

lemma can_win_now_isSome (k : Nat) (b : Board) (q : Player) (hrect : Rect b) :
    (can_win_now k b q).isSome := by
  rw [can_win_now]
  exact can_win_now_go_isSome k b q hrect _ (free_columns_bounds b)

lemma post_board_facts (board : Board) (hrect : Rect board) (q : Player)
    (c : Int) (hc : c ∈ get_free_columns board) :
    ∀ b ∈ copy_and_drop_piece board q c,
      Rect b ∧ num_rows b = num_rows board ∧ num_cols b = num_cols board := by
  intro b hb
  obtain ⟨i, j, hi, hj, hcell0, hdrop⟩ := copy_and_drop_free board q c hrect hc
  have hbeq : b = updateCell board i j q := by
    have hmem := Option.mem_def.mp hb
    rw [hmem] at hdrop
    exact Option.some_inj.mp hdrop
  subst hbeq
  exact ⟨rect_updateCell board i j q hrect (by rw [num_rows] at hi; exact hi),
    num_rows_updateCell board i j q, num_cols_updateCell board i j q⟩

lemma score_player_runs_some (k : Nat) (board : Board) (player : Player)
    (hk : 3 ≤ k) :
    ∀ (rs : List (Player × List Position)) (counts : List (List Nat)),
      counts.length = k - 2 →
      (∀ r ∈ rs, (can_win_from_pieces k board r.2).isSome ∧
        2 ≤ r.2.length ∧ r.2.length < k) →
      ∃ counts', score_player_runs k board player counts rs = some counts' ∧
        counts'.length = k - 2
  | [], counts, hlen, _ => ⟨counts, rfl, hlen⟩
  | (rp, cells) :: rest, counts, hlen, hall => by
    rw [score_player_runs]
    have htail : ∀ r ∈ rest, (can_win_from_pieces k board r.2).isSome ∧
        2 ≤ r.2.length ∧ r.2.length < k :=
      fun r hr => hall r (List.mem_cons_of_mem _ hr)
    by_cases hrp : rp = player
    · rw [if_pos hrp]
      have hfacts := hall (rp, cells) (List.mem_cons_self _ _)
      obtain ⟨v, hv⟩ := Option.isSome_iff_exists.mp hfacts.1
      rw [hv]
      dsimp only
      cases v with
      | true =>
        rw [if_pos rfl]
        have h2 : 2 ≤ cells.length := hfacts.2.1
        have h3 : cells.length < k := hfacts.2.2
        obtain ⟨counts', hbump, hlen'⟩ := bump_some counts
          ((k : Int) - (cells.length : Int) - 1) 0 (by omega)
          (by rw [hlen]; push_cast; omega)
        rw [hbump]
        exact score_player_runs_some k board player hk rest counts'
          (by rw [hlen', hlen]) htail
      | false =>
        rw [if_neg (by simp)]
        exact score_player_runs_some k board player hk rest counts hlen htail
    · rw [if_neg hrp]
      exact score_player_runs_some k board player hk rest counts hlen htail

lemma score_opp_runs_some (k : Nat) (board_op : Board) (opp : Player)
    (hk : 3 ≤ k) :
    ∀ (rs : List (Player × List Position)) (counts : List (List Nat)),
      counts.length = k - 2 →
      (∀ r ∈ rs, (can_win_from_pieces k board_op r.2).isSome ∧
        2 ≤ r.2.length ∧ r.2.length < k) →
      ∃ counts', score_opp_runs k board_op opp counts rs = some counts' ∧
        counts'.length = k - 2
  | [], counts, hlen, _ => ⟨counts, rfl, hlen⟩
  | (rp, cells) :: rest, counts, hlen, hall => by
    rw [score_opp_runs]
    have htail : ∀ r ∈ rest, (can_win_from_pieces k board_op r.2).isSome ∧
        2 ≤ r.2.length ∧ r.2.length < k :=
      fun r hr => hall r (List.mem_cons_of_mem _ hr)
    by_cases hrp : rp = opp
    · rw [if_pos hrp]
      have hfacts := hall (rp, cells) (List.mem_cons_self _ _)
      obtain ⟨v, hv⟩ := Option.isSome_iff_exists.mp hfacts.1
      rw [hv]
      dsimp only
      cases v with
      | true =>
        rw [if_pos rfl]
        by_cases h2len : cells.length ≠ 2
        · rw [if_pos h2len]
          have h2 : 2 ≤ cells.length := hfacts.2.1
          have h3 : cells.length < k := hfacts.2.2
          obtain ⟨counts', hbump, hlen'⟩ := bump_some counts
            ((k : Int) - (cells.length : Int) - 1) 1 (by omega)
            (by rw [hlen]; push_cast; omega)
          rw [hbump]
          exact score_opp_runs_some k board_op opp hk rest counts'
            (by rw [hlen', hlen]) htail
        · rw [if_neg h2len]
          exact score_opp_runs_some k board_op opp hk rest counts hlen htail
      | false =>
        rw [if_neg (by simp)]
        exact score_opp_runs_some k board_op opp hk rest counts hlen htail
    · rw [if_neg hrp]
      exact score_opp_runs_some k board_op opp hk rest counts hlen htail

instance decidableBAllOption {α : Type} (p : α → Prop) [DecidablePred p] :
    (o : Option α) → Decidable (∀ a ∈ o, p a)
  | none => isTrue (by simp)
  | some x => decidable_of_iff (p x) (by simp)

/-- Bounds and totality facts for all runs of a board obtained by one drop
into a free column, under the no-immediate-win precondition. -/
lemma post_runs_bounds (k num_players : Nat) (board : Board) (hrect : Rect board)
    (hcells : ∀ row ∈ board, ∀ x ∈ row, x ≤ num_players)
    (c0 : Int) (hc0 : c0 ∈ get_free_columns board)
    (hP : ∀ q ∈ List.range' 1 num_players, ∀ c ∈ get_free_columns board,
      ∀ b ∈ copy_and_drop_piece board q c, end_of_game k b ≠ (q : Int))
    (q : Player) (hq : q ∈ List.range' 1 num_players)
    (c : Int) (hc : c ∈ get_free_columns board)
    (cb : Board) (hnr : num_rows cb = num_rows board)
    (hnc : num_cols cb = num_cols board) :
    ∀ b ∈ copy_and_drop_piece board q c, ∀ r ∈ pieces_in_a_row b,
      (can_win_from_pieces k cb r.2).isSome ∧ 2 ≤ r.2.length ∧
        r.2.length < k := by
  intro b hb r hr
  obtain ⟨hrectb, hbnr, hbnc⟩ := post_board_facts board hrect q c hc b hb
  have hmr : IsMaxRun b r := (pieces_mem_iff b hrectb r).mp hr
  exact ⟨can_win_from_pieces_isSome k cb b (by rw [hbnr, hnr]) (by rw [hbnc, hnc]) r hmr,
    (pieces_sound b r hr).2,
    no_long_runs_post k num_players board hrect hcells c0 hc0 hP q hq c hc b hb r hr⟩

lemma score_opponents_some (k num_players : Nat) (board : Board) (player : Player)
    (column : Int) (hrect : Rect board) (hk : 3 ≤ k)
    (hcells : ∀ row ∈ board, ∀ x ∈ row, x ≤ num_players)
    (hfree : column ∈ get_free_columns board)
    (hP : ∀ q ∈ List.range' 1 num_players, ∀ c ∈ get_free_columns board,
      ∀ b ∈ copy_and_drop_piece board q c, end_of_game k b ≠ (q : Int)) :
    ∀ (opps : List Player), (∀ o ∈ opps, o ∈ List.range' 1 num_players) →
      ∀ counts : List (List Nat), counts.length = k - 2 →
      (score_opponents k num_players board player column counts opps).isSome
  | [], _, counts, _ => rfl
  | opp :: rest, hopps, counts, hlen => by
    rw [score_opponents]
    by_cases hop : opp = player
    · rw [if_pos hop]
      exact score_opponents_some k num_players board player column hrect hk hcells
        hfree hP rest (fun o ho => hopps o (List.mem_cons_of_mem _ ho)) counts hlen
    · rw [if_neg hop]
      obtain ⟨bP, hbP⟩ := copy_and_drop_isSome board player hrect
        (free_columns_bounds board column hfree).1
        (free_columns_bounds board column hfree).2
      rw [hbP]
      dsimp only
      have hrectP : Rect bP :=
        (post_board_facts board hrect player column hfree bP
          (Option.mem_def.mpr hbP)).1
      obtain ⟨cw, hcw⟩ := Option.isSome_iff_exists.mp
        (can_win_now_isSome k bP opp hrectP)
      rw [hcw]
      cases cw with
      | true => rfl
      | false =>
        dsimp only
        obtain ⟨bO, hbO⟩ := copy_and_drop_isSome board opp hrect
          (free_columns_bounds board column hfree).1
          (free_columns_bounds board column hfree).2
        rw [hbO]
        dsimp only
        obtain ⟨hrectO, hOnr, hOnc⟩ :=
          post_board_facts board hrect opp column hfree bO (Option.mem_def.mpr hbO)
        have hbnds := post_runs_bounds k num_players board hrect hcells column hfree
          hP opp (hopps opp (List.mem_cons_self _ _)) column hfree bO hOnr hOnc
          bO (Option.mem_def.mpr hbO)
        obtain ⟨counts', hscore, hlen'⟩ := score_opp_runs_some k bO opp hk
          (pieces_in_a_row bO) counts hlen (fun r hr => hbnds r hr)
        rw [hscore]
        exact score_opponents_some k num_players board player column hrect hk hcells
          hfree hP rest (fun o ho => hopps o (List.mem_cons_of_mem _ ho)) counts' hlen'

lemma column_score_isSome (k num_players : Nat) (board : Board) (player : Player)
    (column : Int) (hrect : Rect board) (hk : 3 ≤ k)
    (hplayer : player ∈ List.range' 1 num_players)
    (hcells : ∀ row ∈ board, ∀ x ∈ row, x ≤ num_players)
    (hfree : column ∈ get_free_columns board)
    (hP : ∀ q ∈ List.range' 1 num_players, ∀ c ∈ get_free_columns board,
      ∀ b ∈ copy_and_drop_piece board q c, end_of_game k b ≠ (q : Int)) :
    (column_score k num_players board player column).isSome := by
  rw [column_score]
  obtain ⟨nb, hnb⟩ := copy_and_drop_isSome board player hrect
    (free_columns_bounds board column hfree).1
    (free_columns_bounds board column hfree).2
  rw [hnb]
  dsimp only
  have hbnds := post_runs_bounds k num_players board hrect hcells column hfree hP
    player hplayer column hfree board rfl rfl nb (Option.mem_def.mpr hnb)
  obtain ⟨counts1, hsc, hlen1⟩ := score_player_runs_some k board player hk
    (pieces_in_a_row nb) (List.replicate (k - 2) [0, 0])
    (by rw [List.length_replicate]) (fun r hr => hbnds r hr)
  rw [hsc]
  dsimp only
  exact score_opponents_some k num_players board player column hrect hk hcells
    hfree hP ((List.range num_players).map (· + 1))
    (fun o ho => by
      obtain ⟨i, hi, hio⟩ := List.mem_map.mp ho
      rw [List.mem_range] at hi
      rw [List.mem_range'_1, ← hio]
      omega) counts1 hlen1

/-- C10: when no player (mover or opponent) can win by a single drop in any
free column — exactly the situation in which `cpu_player_hard` calls
`column_score`, since `win_or_block_column` returned no column — every run
of every board obtained by a single drop in the scored column has length
between 2 and k-1, so the counts-table index `k - length - 1` is in range
for the `k - 2`-row table (never negative, never past the end, resolved
without Python's negative-index wrap by `pyIdx`), and `column_score`
completes without raising (returns `some`).  Without that precondition, a
run of length exactly `k` yields index `-1`, which `pyIdx` silently wraps
to row `k - 3` — the row that counts runs of length 2. -/
theorem c10_column_score_safe (k num_players : Nat) (board : Board)
    (player : Player) (column : Int)
    (hrect : Rect board) (hk : 3 ≤ k)
    (hplayer : player ∈ List.range' 1 num_players)
    (hcells : ∀ row ∈ board, ∀ x ∈ row, x ≤ num_players)
    (hfree : column ∈ get_free_columns board)
    (hP : ∀ q ∈ List.range' 1 num_players, ∀ c ∈ get_free_columns board,
      ∀ b ∈ copy_and_drop_piece board q c, end_of_game k b ≠ (q : Int)) :
    (column_score k num_players board player column).isSome ∧
    (∀ q ∈ List.range' 1 num_players, ∀ b ∈ copy_and_drop_piece board q column,
      ∀ r ∈ pieces_in_a_row b,
        2 ≤ r.2.length ∧ r.2.length ≤ k - 1 ∧
        0 ≤ (k : Int) - (r.2.length : Int) - 1 ∧
        (k : Int) - (r.2.length : Int) - 1 < ((k - 2 : Nat) : Int) ∧
        pyIdx (k - 2) ((k : Int) - (r.2.length : Int) - 1) =
          some (k - r.2.length - 1)) ∧
    pyIdx (k - 2) ((k : Int) - (k : Int) - 1) = some (k - 3) := by
  refine ⟨column_score_isSome k num_players board player column hrect hk hplayer
    hcells hfree hP, ?_, ?_⟩
  · intro q hq b hb r hr
    have h2 := (pieces_sound b r hr).2
    have h3 := no_long_runs_post k num_players board hrect hcells column hfree hP
      q hq column hfree b hb r hr
    refine ⟨h2, by omega, by omega, by push_cast; omega, ?_⟩
    rw [pyIdx_of_nonneg (by omega) (by push_cast; omega)]
    congr 1
    omega
  · have he : (k : Int) - (k : Int) - 1 = -1 := by ring
    rw [he, pyIdx_of_neg (by omega) (by push_cast; omega)]
    congr 1
    omega

theorem c10_witness :
    Rect [[0, 0, 0], [0, 0, 0], [0, 0, 0]] ∧
    (column_score 4 2 [[0, 0, 0], [0, 0, 0], [0, 0, 0]] 1 2).isSome :=
  ⟨by decide,
    (c10_column_score_safe 4 2 [[0, 0, 0], [0, 0, 0], [0, 0, 0]] 1 2 (by decide)
      (by decide) (by decide) (by decide) (by decide) (by decide)).1⟩

/-! ### Claim C4: the hard AI maximizes the (score, tiebreak) key -/

lemma pyLtL_cons_iff (x y : Nat) (xs ys : List Nat) :
    pyLtL (x :: xs) (y :: ys) = true ↔ x < y ∨ (x = y ∧ pyLtL xs ys = true) := by
  rw [pyLtL]
  rcases Nat.lt_trichotomy x y with h | h | h
  · rw [if_pos h]
    simp [h]
  · subst h
    rw [if_neg (lt_irrefl x), if_neg (lt_irrefl x)]
    simp
  · rw [if_neg (by omega), if_pos h]
    simp
    omega

lemma pyLtL_irrefl : ∀ xs : List Nat, pyLtL xs xs = false
  | [] => rfl
  | x :: xs => by
    rw [pyLtL, if_neg (lt_irrefl x), if_neg (lt_irrefl x), pyLtL_irrefl xs]

lemma pyLtL_trans : ∀ xs ys zs : List Nat,
    pyLtL xs ys = true → pyLtL ys zs = true → pyLtL xs zs = true
  | _, [], _, h, _ => by rw [pyLtL] at h; exact absurd h (by simp)
  | _, _ :: _, [], _, h => by rw [pyLtL] at h; exact absurd h (by simp)
  | [], _ :: _, _ :: _, _, _ => by rw [pyLtL]
  | x :: xs, y :: ys, z :: zs, h1, h2 => by
    rw [pyLtL_cons_iff] at h1 h2 ⊢
    rcases h1 with h1 | ⟨h1e, h1r⟩
    · rcases h2 with h2 | ⟨h2e, h2r⟩
      · exact Or.inl (by omega)
      · exact Or.inl (by omega)
    · rcases h2 with h2 | ⟨h2e, h2r⟩
      · exact Or.inl (by omega)
      · exact Or.inr ⟨by omega, pyLtL_trans xs ys zs h1r h2r⟩

lemma pyLtL_cases : ∀ xs ys : List Nat,
    pyLtL xs ys = true ∨ pyLtL ys xs = true ∨ xs = ys
  | [], [] => Or.inr (Or.inr rfl)
  | [], _ :: _ => Or.inl (by rw [pyLtL])
  | _ :: _, [] => Or.inr (Or.inl (by rw [pyLtL]))
  | x :: xs, y :: ys => by
    rcases Nat.lt_trichotomy x y with h | h | h
    · exact Or.inl ((pyLtL_cons_iff x y xs ys).mpr (Or.inl h))
    · subst h
      rcases pyLtL_cases xs ys with hr | hr | hr
      · exact Or.inl ((pyLtL_cons_iff x x xs ys).mpr (Or.inr ⟨rfl, hr⟩))
      · exact Or.inr (Or.inl ((pyLtL_cons_iff x x ys xs).mpr (Or.inr ⟨rfl, hr⟩)))
      · exact Or.inr (Or.inr (by rw [hr]))
    · exact Or.inr (Or.inl ((pyLtL_cons_iff y x ys xs).mpr (Or.inl h)))

lemma pyLtLL_cons_iff (x y : List Nat) (xs ys : List (List Nat)) :
    pyLtLL (x :: xs) (y :: ys) = true ↔
      pyLtL x y = true ∨ (x = y ∧ pyLtLL xs ys = true) := by
  rw [pyLtLL]
  by_cases h : pyLtL x y = true
  · rw [if_pos h]
    simp [h]
  · rw [if_neg h]
    by_cases h2 : pyLtL y x = true
    · rw [if_pos h2]
      constructor
      · intro hc
        exact absurd hc (by simp)
      · rintro (hc | ⟨he, -⟩)
        · exact absurd hc h
        · subst he
          rw [pyLtL_irrefl x] at h2
          exact absurd h2 (by simp)
    · rw [if_neg h2]
      have hxy : x = y := by
        rcases pyLtL_cases x y with hc | hc | hc
        · exact absurd hc h
        · exact absurd hc h2
        · exact hc
      subst hxy
      constructor
      · intro hr
        exact Or.inr ⟨rfl, hr⟩
      · rintro (hc | ⟨-, hr⟩)
        · exact absurd hc h
        · exact hr

lemma pyLtLL_irrefl : ∀ xs : List (List Nat), pyLtLL xs xs = false
  | [] => rfl
  | x :: xs => by
    rw [pyLtLL, if_neg (by rw [pyLtL_irrefl x]; simp),
      if_neg (by rw [pyLtL_irrefl x]; simp), pyLtLL_irrefl xs]

lemma pyLtLL_trans : ∀ xs ys zs : List (List Nat),
    pyLtLL xs ys = true → pyLtLL ys zs = true → pyLtLL xs zs = true
  | _, [], _, h, _ => by rw [pyLtLL] at h; exact absurd h (by simp)
  | _, _ :: _, [], _, h => by rw [pyLtLL] at h; exact absurd h (by simp)
  | [], _ :: _, _ :: _, _, _ => by rw [pyLtLL]
  | x :: xs, y :: ys, z :: zs, h1, h2 => by
    rw [pyLtLL_cons_iff] at h1 h2 ⊢
    rcases h1 with h1 | ⟨h1e, h1r⟩
    · rcases h2 with h2 | ⟨h2e, h2r⟩
      · exact Or.inl (pyLtL_trans x y z h1 h2)
      · exact Or.inl (h2e ▸ h1)
    · subst h1e
      rcases h2 with h2 | ⟨h2e, h2r⟩
      · exact Or.inl h2
      · exact Or.inr ⟨h2e, pyLtLL_trans xs ys zs h1r h2r⟩

lemma pyLtLL_cases : ∀ xs ys : List (List Nat),
    pyLtLL xs ys = true ∨ pyLtLL ys xs = true ∨ xs = ys
  | [], [] => Or.inr (Or.inr rfl)
  | [], _ :: _ => Or.inl (by rw [pyLtLL])
  | _ :: _, [] => Or.inr (Or.inl (by rw [pyLtLL]))
  | x :: xs, y :: ys => by
    rcases pyLtL_cases x y with h | h | h
    · exact Or.inl ((pyLtLL_cons_iff x y xs ys).mpr (Or.inl h))
    · exact Or.inr (Or.inl ((pyLtLL_cons_iff y x ys xs).mpr (Or.inl h)))
    · subst h
      rcases pyLtLL_cases xs ys with hr | hr | hr
      · exact Or.inl ((pyLtLL_cons_iff x x xs ys).mpr (Or.inr ⟨rfl, hr⟩))
      · exact Or.inr (Or.inl ((pyLtLL_cons_iff x x ys xs).mpr (Or.inr ⟨rfl, hr⟩)))
      · exact Or.inr (Or.inr (by rw [hr]))

lemma pyLtScore_irrefl (a : Score) : pyLtScore a a = false := by
  rw [pyLtScore, if_pos rfl, pyLtLL_irrefl]

lemma pyLtScore_trans : ∀ a b c : Score,
    pyLtScore a b = true → pyLtScore b c = true → pyLtScore a c = true
  | (a1, a2), (b1, b2), (c1, c2), h1, h2 => by
    cases a1 <;> cases b1 <;> cases c1 <;> simp [pyLtScore] at h1 h2 ⊢ <;>
      exact pyLtLL_trans _ _ _ h1 h2

lemma pyLtScore_cases : ∀ a b : Score,
    pyLtScore a b = true ∨ pyLtScore b a = true ∨ a = b
  | (a1, a2), (b1, b2) => by
    cases a1 <;> cases b1 <;> simp [pyLtScore] <;>
      rcases pyLtLL_cases a2 b2 with h | h | h <;> simp [h]

lemma pyLtKey_irrefl (a : Key) : pyLtKey a a = false := by
  rw [pyLtKey, if_pos rfl]
  simp

lemma pyLtKey_trans (a b c : Key) (h1 : pyLtKey a b = true)
    (h2 : pyLtKey b c = true) : pyLtKey a c = true := by
  rw [pyLtKey] at h1 h2 ⊢
  by_cases hab : a.1 = b.1
  · rw [if_pos hab] at h1
    by_cases hbc : b.1 = c.1
    · rw [if_pos hbc] at h2
      rw [if_pos (hab.trans hbc)]
      exact decide_eq_true (lt_trans (of_decide_eq_true h1) (of_decide_eq_true h2))
    · rw [if_neg hbc] at h2
      rw [if_neg (fun hc => hbc (hab ▸ hc)), hab]
      exact h2
  · rw [if_neg hab] at h1
    by_cases hbc : b.1 = c.1
    · rw [if_neg (fun hc => hab (hc.trans hbc.symm)), ← hbc]
      exact h1
    · rw [if_neg hbc] at h2
      by_cases hac : a.1 = c.1
      · exfalso
        rw [← hac] at h2
        have := pyLtScore_trans a.1 b.1 a.1 h1 h2
        rw [pyLtScore_irrefl] at this
        exact Bool.false_ne_true this
      · rw [if_neg hac]
        exact pyLtScore_trans a.1 b.1 c.1 h1 h2

lemma pyLtKey_cases (a b : Key) :
    pyLtKey a b = true ∨ pyLtKey b a = true ∨ a = b := by
  by_cases hab : a.1 = b.1
  · rcases lt_trichotomy a.2 b.2 with h | h | h
    · exact Or.inl (by rw [pyLtKey, if_pos hab]; exact decide_eq_true h)
    · exact Or.inr (Or.inr (Prod.ext hab h))
    · exact Or.inr (Or.inl (by rw [pyLtKey, if_pos hab.symm]; exact decide_eq_true h))
  · rcases pyLtScore_cases a.1 b.1 with h | h | h
    · exact Or.inl (by rw [pyLtKey, if_neg hab]; exact h)
    · exact Or.inr (Or.inl (by rw [pyLtKey, if_neg (fun hc => hab hc.symm)]; exact h))
    · exact absurd h hab

/-- Invariant of the `max` fold: the final best is maximal, at least the
initial best, and either is the initial best or is the first listed element
strictly above the initial best and everything listed before it. -/
lemma py_max_aux_spec (f : Int → Option Key) :
    ∀ (xs : List Int) (best : Int × Key),
      (∀ c ∈ xs, (f c).isSome) →
      ∃ m km, py_max_aux f best xs = some (m, km) ∧
        (∀ c ∈ xs, ∀ kc ∈ f c, pyLtKey km kc = false) ∧
        pyLtKey km best.2 = false ∧
        ((m = best.1 ∧ km = best.2) ∨
          (∃ xs₁ xs₂, xs = xs₁ ++ m :: xs₂ ∧ f m = some km ∧
            pyLtKey best.2 km = true ∧
            ∀ c ∈ xs₁, ∀ kc ∈ f c, pyLtKey kc km = true))
  | [], best, _ =>
    ⟨best.1, best.2, rfl, fun c hc => absurd hc (List.not_mem_nil c),
      pyLtKey_irrefl best.2, Or.inl ⟨rfl, rfl⟩⟩
  | x :: rest, best, hall => by
    rw [py_max_aux]
    obtain ⟨kx, hkx⟩ := Option.isSome_iff_exists.mp (hall x (List.mem_cons_self _ _))
    rw [hkx]
    dsimp only
    have htail : ∀ c ∈ rest, (f c).isSome :=
      fun c hc => hall c (List.mem_cons_of_mem _ hc)
    by_cases hrepl : pyLtKey best.2 kx = true
    · rw [if_pos hrepl]
      obtain ⟨m, km, heq, hmax, hge, hcase⟩ := py_max_aux_spec f rest (x, kx) htail
      refine ⟨m, km, heq, ?_, ?_, ?_⟩
      · intro c hc kc hkc
        rcases List.mem_cons.mp hc with hcx | hcr
        · subst hcx
          rw [hkx, Option.mem_def, Option.some.injEq] at hkc
          rw [← hkc]
          exact hge
        · exact hmax c hcr kc hkc
      · by_cases h : pyLtKey km best.2 = true
        · exfalso
          have h2 := pyLtKey_trans km best.2 kx h hrepl
          rw [h2] at hge
          simp at hge
        · exact Bool.not_eq_true _ ▸ h
      · rcases hcase with ⟨hm, hkm⟩ | ⟨xs₁, xs₂, hsplit, hfm, hgt, hbefore⟩
        · refine Or.inr ⟨[], rest, by rw [hm]; rfl, by rw [hm, hkm]; exact hkx,
            by rw [hkm]; exact hrepl, fun c hc => absurd hc (List.not_mem_nil c)⟩
        · refine Or.inr ⟨x :: xs₁, xs₂, by rw [hsplit]; rfl, hfm,
            pyLtKey_trans best.2 kx km hrepl hgt, ?_⟩
          intro c hc kc hkc
          rcases List.mem_cons.mp hc with hcx | hcr
          · subst hcx
            rw [hkx, Option.mem_def, Option.some.injEq] at hkc
            rw [← hkc]
            exact hgt
          · exact hbefore c hcr kc hkc
    · rw [if_neg hrepl]
      obtain ⟨m, km, heq, hmax, hge, hcase⟩ := py_max_aux_spec f rest best htail
      have hxle : pyLtKey km kx = false := by
        by_cases h : pyLtKey km kx = true
        · exfalso
          rcases pyLtKey_cases best.2 kx with hc | hc | hc
          · exact hrepl hc
          · have h2 := pyLtKey_trans km kx best.2 h hc
            rw [h2] at hge
            simp at hge
          · rw [← hc] at h
            rw [h] at hge
            simp at hge
        · exact Bool.not_eq_true _ ▸ h
      refine ⟨m, km, heq, ?_, hge, ?_⟩
      · intro c hc kc hkc
        rcases List.mem_cons.mp hc with hcx | hcr
        · subst hcx
          rw [hkx, Option.mem_def, Option.some.injEq] at hkc
          rw [← hkc]
          exact hxle
        · exact hmax c hcr kc hkc
      · rcases hcase with ⟨hm, hkm⟩ | ⟨xs₁, xs₂, hsplit, hfm, hgt, hbefore⟩
        · exact Or.inl ⟨hm, hkm⟩
        · refine Or.inr ⟨x :: xs₁, xs₂, by rw [hsplit]; rfl, hfm, hgt, ?_⟩
          intro c hc kc hkc
          rcases List.mem_cons.mp hc with hcx | hcr
          · subst hcx
            rw [hkx, Option.mem_def, Option.some.injEq] at hkc
            rw [← hkc]
            rcases pyLtKey_cases kx km with h | h | h
            · exact h
            · exfalso
              have h2 := pyLtKey_trans best.2 km kx hgt h
              exact hrepl h2
            · exfalso
              rw [h] at hrepl
              exact hrepl hgt
          · exact hbefore c hcr kc hkc

/-- Python `max(columns, key=f)` returns the first column attaining the
maximal key. -/
lemma py_max_spec (f : Int → Option Key) (l : List Int) (hne : l ≠ [])
    (hall : ∀ c ∈ l, (f c).isSome) :
    ∃ m km l₁ l₂, py_max f l = some m ∧ f m = some km ∧
      l = l₁ ++ m :: l₂ ∧
      (∀ c ∈ l, ∀ kc ∈ f c, pyLtKey km kc = false) ∧
      (∀ c ∈ l₁, ∀ kc ∈ f c, pyLtKey kc km = true) := by
  cases l with
  | nil => exact absurd rfl hne
  | cons x xs =>
    obtain ⟨kx, hkx⟩ := Option.isSome_iff_exists.mp (hall x (List.mem_cons_self _ _))
    obtain ⟨m, km, heq, hmax, hge, hcase⟩ := py_max_aux_spec f xs (x, kx)
      (fun c hc => hall c (List.mem_cons_of_mem _ hc))
    have hpm : py_max f (x :: xs) = some m := by
      rw [py_max, hkx]
      dsimp only
      rw [heq]
      rfl
    rcases hcase with ⟨hm, hkm⟩ | ⟨xs₁, xs₂, hsplit, hfm, hgt, hbefore⟩
    · refine ⟨m, km, [], xs, hpm, by rw [hm, hkm]; exact hkx, by rw [hm]; rfl, ?_,
        fun c hc => absurd hc (List.not_mem_nil c)⟩
      intro c hc kc hkc
      rcases List.mem_cons.mp hc with hcx | hcr
      · subst hcx
        rw [hkx, Option.mem_def, Option.some.injEq] at hkc
        rw [← hkc]
        exact hge
      · exact hmax c hcr kc hkc
    · refine ⟨m, km, x :: xs₁, xs₂, hpm, hfm, by rw [hsplit]; rfl, ?_, ?_⟩
      · intro c hc kc hkc
        rcases List.mem_cons.mp hc with hcx | hcr
        · subst hcx
          rw [hkx, Option.mem_def, Option.some.injEq] at hkc
          rw [← hkc]
          exact hge
        · exact hmax c hcr kc hkc
      · intro c hc kc hkc
        rcases List.mem_cons.mp hc with hcx | hcr
        · subst hcx
          rw [hkx, Option.mem_def, Option.some.injEq] at hkc
          rw [← hkc]
          exact hgt
        · exact hbefore c hcr kc hkc

/-- If the winning-column scan returns no column, no free column's drop
wins for `q`. -/
lemma find_win_column_none (k : Nat) (board : Board) (q : Player) :
    ∀ cols, find_win_column k board q cols = some none →
      ∀ c ∈ cols, ∀ b ∈ copy_and_drop_piece board q c,
        end_of_game k b ≠ (q : Int) := by
  intro cols
  induction cols with
  | nil => intro _ c hc; exact absurd hc (List.not_mem_nil c)
  | cons c0 rest ih =>
    intro h c hc b hb
    rw [find_win_column] at h
    cases hdrop : copy_and_drop_piece board q c0 with
    | none => rw [hdrop] at h; exact Option.noConfusion h
    | some b0 =>
      rw [hdrop] at h
      dsimp only at h
      by_cases hwin : end_of_game k b0 = (q : Int)
      · rw [if_pos hwin] at h
        simp at h
      · rw [if_neg hwin] at h
        rcases List.mem_cons.mp hc with hcc | hcr
        · subst hcc
          rw [hdrop, Option.mem_def, Option.some.injEq] at hb
          rw [← hb]
          exact hwin
        · exact ih h c hcr b hb

/-- If the opponent loop returns no column, every listed opponent offset's
winning-column scan returned none. -/
lemma win_or_block_opps_none (k num_players : Nat) (board : Board)
    (free : List Int) (player : Player) :
    ∀ is, win_or_block_opps k num_players board free player is = some none →
      ∀ i ∈ is,
        find_win_column k board ((player + i) % num_players + 1) free =
          some none := by
  intro is
  induction is with
  | nil => intro _ i hi; exact absurd hi (List.not_mem_nil i)
  | cons i0 rest ih =>
    intro h i hi
    rw [win_or_block_opps] at h
    cases hf : find_win_column k board ((player + i0) % num_players + 1) free with
    | none => rw [hf] at h; exact Option.noConfusion h
    | some oc =>
      rw [hf] at h
      cases oc with
      | some c => dsimp only at h; simp at h
      | none =>
        dsimp only at h
        rcases List.mem_cons.mp hi with hii | hir
        · subst hii; exact hf
        · exact ih h i hir

/-- The opponent turn order `(player + i) % num_players + 1`,
`i = 0, ..., num_players - 2`, reaches every registered player other than
`player`. -/
lemma opp_index_cover (num_players player q : Nat)
    (h1p : 1 ≤ player) (hpn : player ≤ num_players)
    (h1q : 1 ≤ q) (hqn : q ≤ num_players) (hne : q ≠ player) :
    ∃ i ∈ List.range (num_players - 1), (player + i) % num_players + 1 = q := by
  by_cases hlt : player < q
  · refine ⟨q - 1 - player, List.mem_range.mpr (by omega), ?_⟩
    have hadd : player + (q - 1 - player) = q - 1 := by omega
    rw [hadd, Nat.mod_eq_of_lt (by omega)]
    omega
  · refine ⟨q - 1 + num_players - player, List.mem_range.mpr (by omega), ?_⟩
    have hadd : player + (q - 1 + num_players - player) = (q - 1) + num_players := by
      omega
    rw [hadd, Nat.add_mod_right, Nat.mod_eq_of_lt (by omega)]
    omega

/-- When `win_or_block_column` returns `None`, no registered player can win
by a single drop in any free column. -/
lemma win_or_block_none_hP (k num_players : Nat) (board : Board)
    (player : Player) (hplayer : player ∈ List.range' 1 num_players)
    (hwob : win_or_block_column k num_players board (get_free_columns board)
      player = some none) :
    ∀ q ∈ List.range' 1 num_players, ∀ c ∈ get_free_columns board,
      ∀ b ∈ copy_and_drop_piece board q c, end_of_game k b ≠ (q : Int) := by
  intro q hq c hc b hb
  rw [List.mem_range'_1] at hplayer hq
  rw [win_or_block_column] at hwob
  cases hf : find_win_column k board player (get_free_columns board) with
  | none => rw [hf] at hwob; exact Option.noConfusion hwob
  | some oc =>
    rw [hf] at hwob
    cases oc with
    | some c' => dsimp only at hwob; simp at hwob
    | none =>
      dsimp only at hwob
      by_cases hqp : q = player
      · subst hqp
        exact find_win_column_none k board q _ hf c hc b hb
      · obtain ⟨i, hi, hiq⟩ := opp_index_cover num_players player q hplayer.1
          (by omega) hq.1 (by omega) hqp
        have hfq := win_or_block_opps_none k num_players board
          (get_free_columns board) player _ hwob i hi
        rw [hiq] at hfq
        exact find_win_column_none k board q _ hfq c hc b hb

/-- A drop into a free column succeeds, and agrees with
`copy_and_drop_piece`. -/
lemma drop_piece_free (board : Board) (player : Player) (c : Int)
    (hrect : Rect board) (hc : c ∈ get_free_columns board) :
    ∃ b, drop_piece board player c = some (true, b) ∧
      copy_and_drop_piece board player c = some b := by
  rw [mem_get_free_columns] at hc
  obtain ⟨h1, h2, h3⟩ := hc
  have hj : (c - 1).toNat < num_cols board := by omega
  have hnr : 0 < num_rows board := by
    by_contra hcon
    push_neg at hcon
    have hb : board = [] := List.length_eq_zero.mp (by rw [num_rows] at hcon; omega)
    rw [hb] at hj
    simp [num_cols] at hj
  obtain ⟨istar, hi1, hi2, hi3, hdrop⟩ := drop_piece_spec board player hrect hj
    ⟨0, hnr, h3⟩
  have hcc : (((c - 1).toNat : Int)) + 1 = c := by omega
  rw [hcc] at hdrop
  exact ⟨updateCell board istar (c - 1).toNat player, hdrop, by
    rw [copy_and_drop_piece, hdrop]; rfl⟩

/-- C4: when `win_or_block_column` returns no column, `cpu_player_hard`
drops into and returns the free column whose
`(column_score, centre-distance tiebreak)` key is maximal under Python's
tuple comparison, ties resolved to the first maximal column in the
ascending order of `get_free_columns`; and on an empty 3×3 board with
`k = 4` and two players, the hard AI playing as player 1 chooses column 2
(the centre). -/
theorem c4_cpu_player_hard (k num_players : Nat) (board : Board)
    (player : Player) (hrect : Rect board) (hk : 3 ≤ k)
    (hplayer : player ∈ List.range' 1 num_players)
    (hcells : ∀ row ∈ board, ∀ x ∈ row, x ≤ num_players)
    (hne : get_free_columns board ≠ [])
    (hwob : win_or_block_column k num_players board (get_free_columns board)
      player = some none) :
    (∃ chosen b km l₁ l₂,
      cpu_player_hard k num_players board player = some (chosen, b) ∧
      chosen ∈ get_free_columns board ∧
      hard_key k num_players board player chosen = some km ∧
      get_free_columns board = l₁ ++ chosen :: l₂ ∧
      (∀ c ∈ get_free_columns board,
        ∀ kc ∈ hard_key k num_players board player c, pyLtKey km kc = false) ∧
      (∀ c ∈ l₁, ∀ kc ∈ hard_key k num_players board player c,
        pyLtKey kc km = true) ∧
      drop_piece board player chosen = some (true, b)) ∧
    cpu_player_hard 4 2 [[0,0,0],[0,0,0],[0,0,0]] 1 =
      some (2, [[0,0,0],[0,0,0],[0,1,0]]) := by
  constructor
  · have hP := win_or_block_none_hP k num_players board player hplayer hwob
    have hall : ∀ c ∈ get_free_columns board,
        (hard_key k num_players board player c).isSome := by
      intro c hc
      obtain ⟨s, hs⟩ := Option.isSome_iff_exists.mp
        (column_score_isSome k num_players board player c hrect hk hplayer
          hcells hc hP)
      rw [hard_key, hs]
      rfl
    obtain ⟨m, km, l₁, l₂, hpm, hkm, hsplit, hmax, hfirst⟩ :=
      py_max_spec (hard_key k num_players board player)
        (get_free_columns board) hne hall
    have hmem : m ∈ get_free_columns board := by
      rw [hsplit]
      exact List.mem_append.mpr (Or.inr (List.mem_cons_self _ _))
    obtain ⟨b, hdropm, hcdm⟩ := drop_piece_free board player m hrect hmem
    refine ⟨m, b, km, l₁, l₂, ?_, hmem, hkm, hsplit, hmax, hfirst, hdropm⟩
    rw [cpu_player_hard]
    rw [hwob]
    dsimp only
    rw [hpm]
    dsimp only
    rw [hdropm]
  · have hfree3 : get_free_columns [[0,0,0],[0,0,0],[0,0,0]] = [1, 2, 3] := by
      decide
    have hwob3 : win_or_block_column 4 2 [[0,0,0],[0,0,0],[0,0,0]] [1, 2, 3] 1 =
        some none := by decide
    have hcs1 : column_score 4 2 [[0,0,0],[0,0,0],[0,0,0]] 1 1 =
        some (true, [[0,0],[0,0]]) := by decide
    have hcs2 : column_score 4 2 [[0,0,0],[0,0,0],[0,0,0]] 1 2 =
        some (true, [[0,0],[0,0]]) := by decide
    have hcs3 : column_score 4 2 [[0,0,0],[0,0,0],[0,0,0]] 1 3 =
        some (true, [[0,0],[0,0]]) := by decide
    have hk1 : hard_key 4 2 [[0,0,0],[0,0,0],[0,0,0]] 1 1 =
        some ((true, [[0,0],[0,0]]), hard_tiebreak 3 1) := by
      rw [hard_key, hcs1]
      rfl
    have hk2 : hard_key 4 2 [[0,0,0],[0,0,0],[0,0,0]] 1 2 =
        some ((true, [[0,0],[0,0]]), hard_tiebreak 3 2) := by
      rw [hard_key, hcs2]
      rfl
    have hk3 : hard_key 4 2 [[0,0,0],[0,0,0],[0,0,0]] 1 3 =
        some ((true, [[0,0],[0,0]]), hard_tiebreak 3 3) := by
      rw [hard_key, hcs3]
      rfl
    have ht1 : hard_tiebreak 3 1 = 2 := by norm_num [hard_tiebreak]
    have ht2 : hard_tiebreak 3 2 = 3 := by norm_num [hard_tiebreak]
    have ht3 : hard_tiebreak 3 3 = 2 := by norm_num [hard_tiebreak]
    have hlt12 : pyLtKey ((true, [[0,0],[0,0]]), hard_tiebreak 3 1)
        ((true, [[0,0],[0,0]]), hard_tiebreak 3 2) = true := by
      rw [pyLtKey]
      dsimp only
      rw [if_pos rfl]
      exact decide_eq_true (by rw [ht1, ht2]; norm_num)
    have hlt23 : pyLtKey ((true, [[0,0],[0,0]]), hard_tiebreak 3 2)
        ((true, [[0,0],[0,0]]), hard_tiebreak 3 3) = false := by
      rw [pyLtKey]
      dsimp only
      rw [if_pos rfl]
      exact decide_eq_false (by rw [ht2, ht3]; norm_num)
    have hpm3 : py_max (hard_key 4 2 [[0,0,0],[0,0,0],[0,0,0]] 1) [1, 2, 3] =
        some 2 := by
      rw [py_max, hk1]
      dsimp only
      rw [py_max_aux, hk2]
      dsimp only
      rw [hlt12, if_pos rfl]
      rw [py_max_aux, hk3]
      dsimp only
      rw [hlt23, if_neg (by simp)]
      rw [py_max_aux]
      rfl
    have hdrop2 : drop_piece [[0,0,0],[0,0,0],[0,0,0]] 1 2 =
        some (true, [[0,0,0],[0,0,0],[0,1,0]]) := by decide
    rw [cpu_player_hard]
    rw [hfree3, hwob3]
    dsimp only
    rw [hpm3]
    dsimp only
    rw [hdrop2]

/-- C4 witness: the hypotheses of `c4_cpu_player_hard` hold on the empty
3×3 board with `k = 4`, two players and player 1. -/
theorem c4_witness :
    Rect [[0,0,0],[0,0,0],[0,0,0]] ∧
    win_or_block_column 4 2 [[0,0,0],[0,0,0],[0,0,0]]
      (get_free_columns [[0,0,0],[0,0,0],[0,0,0]]) 1 = some none ∧
    cpu_player_hard 4 2 [[0,0,0],[0,0,0],[0,0,0]] 1 =
      some (2, [[0,0,0],[0,0,0],[0,1,0]]) :=
  ⟨by decide, by decide,
    (c4_cpu_player_hard 4 2 [[0,0,0],[0,0,0],[0,0,0]] 1 (by decide) (by decide)
      (by decide) (by decide) (by decide) (by decide)).2⟩

/-! ### Claim C3 (amended): characterization of `column_score` -/

/-- Amended-spec predicate: a run counted into the player half of counts
row `i` — owned by `player`, extendable against `board0`, of the run
length `k - i - 1` that row `i` tallies. -/
def player_slot (k : Nat) (board0 : Board) (player : Player) (i : Nat)
    (r : Player × List Position) : Bool :=
  r.1 == player && (can_win_from_pieces k board0 r.2 == some true) &&
    (r.2.length == k - i - 1)

/-- Amended-spec predicate: a run counted into the opponent half of counts
row `i` (length-2 opponent runs are excluded). -/
def opp_slot (k : Nat) (board0 : Board) (opp : Player) (i : Nat)
    (r : Player × List Position) : Bool :=
  r.1 == opp && (can_win_from_pieces k board0 r.2 == some true) &&
    (r.2.length == k - i - 1) && !(r.2.length == 2)

/-- Amended-spec total over the opponents: each opponent's qualifying runs
are those of the board obtained by that opponent's own drop, also checked
for extendability against that post-drop board. -/
def opp_slot_total (k : Nat) (board : Board) (player : Player) (column : Int)
    (i : Nat) : List Player → Nat
  | [] => 0
  | opp :: rest =>
    (if opp = player then 0 else
      (pieces_in_a_row ((copy_and_drop_piece board opp column).getD [])).countP
        (opp_slot k ((copy_and_drop_piece board opp column).getD []) opp i)) +
    opp_slot_total k board player column i rest

/-- `score_player_runs` adds, to slot 0 of each row `i`, the number of
runs selected by `player_slot`. -/
lemma score_player_runs_spec (k : Nat) (board0 : Board) (player : Player)
    (hk : 3 ≤ k) :
    ∀ (rs : List (Player × List Position)) (counts : List (List Nat)),
      counts.length = k - 2 →
      (∀ r ∈ rs, (can_win_from_pieces k board0 r.2).isSome ∧
        2 ≤ r.2.length ∧ r.2.length < k) →
      ∃ counts', score_player_runs k board0 player counts rs = some counts' ∧
        counts'.length = k - 2 ∧
        ∀ i, i < k - 2 → ∀ a b, counts.getD i [] = [a, b] →
          counts'.getD i [] =
            [a + rs.countP (player_slot k board0 player i), b]
  | [], counts, hlen, _ =>
    ⟨counts, rfl, hlen, fun i _ a b hab => by rw [hab]; simp⟩
  | (rp, cells) :: rest, counts, hlen, hall => by
    rw [score_player_runs]
    have htail : ∀ r ∈ rest, (can_win_from_pieces k board0 r.2).isSome ∧
        2 ≤ r.2.length ∧ r.2.length < k :=
      fun r hr => hall r (List.mem_cons_of_mem _ hr)
    by_cases hrp : rp = player
    · rw [if_pos hrp]
      have hfacts := hall (rp, cells) (List.mem_cons_self _ _)
      obtain ⟨v, hv⟩ := Option.isSome_iff_exists.mp hfacts.1
      rw [hv]
      dsimp only
      cases v with
      | true =>
        rw [if_pos rfl]
        have h2 : 2 ≤ cells.length := hfacts.2.1
        have h3 : cells.length < k := hfacts.2.2
        have hpy : pyIdx counts.length ((k : Int) - (cells.length : Int) - 1) =
            some (k - cells.length - 1) := by
          rw [pyIdx_of_nonneg (by omega) (by rw [hlen]; push_cast; omega)]
          congr 1
          omega
        rw [bump, hpy]
        dsimp only
        set j0 := k - cells.length - 1 with hj0
        obtain ⟨counts', heq, hlen', hpt⟩ := score_player_runs_spec k board0
          player hk rest
          (counts.set j0
            ((counts.getD j0 []).set 0 ((counts.getD j0 []).getD 0 0 + 1)))
          (by rw [List.length_set, hlen]) htail
        refine ⟨counts', heq, hlen', ?_⟩
        intro i hi a b hab
        have hj0lt : j0 < counts.length := by rw [hlen]; omega
        by_cases hij : i = j0
        · rw [hij] at hab ⊢
          have hmid : (counts.set j0
              ((counts.getD j0 []).set 0 ((counts.getD j0 []).getD 0 0 + 1))).getD
                j0 [] = [a + 1, b] := by
            rw [List.getD_eq_getElem?_getD, List.getElem?_set_self,
              Option.getD_some]
            · rw [hab]
              rfl
            · exact hj0lt
          rw [hpt j0 (by omega) (a + 1) b hmid, List.countP_cons]
          have hlen3 : cells.length = k - j0 - 1 := by omega
          have hpred : player_slot k board0 player j0 (rp, cells) = true := by
            rw [player_slot]
            dsimp only
            rw [hrp, hv, ← hlen3]
            simp
          rw [hpred, if_pos rfl]
          congr 1
          omega
        · have hmid : (counts.set j0
              ((counts.getD j0 []).set 0 ((counts.getD j0 []).getD 0 0 + 1))).getD
                i [] = [a, b] := by
            rw [List.getD_eq_getElem?_getD, List.getElem?_set_ne,
              ← List.getD_eq_getElem?_getD, hab]
            exact fun hc => hij hc.symm
          rw [hpt i hi a b hmid, List.countP_cons]
          have hpred : player_slot k board0 player i (rp, cells) = false := by
            rw [player_slot]
            dsimp only
            have hne : (cells.length == k - i - 1) = false := by
              simp only [beq_eq_false_iff_ne]
              omega
            rw [hne]
            simp
          rw [hpred, if_neg (by simp)]
          rfl
      | false =>
        rw [if_neg (by simp)]
        obtain ⟨counts', heq, hlen', hpt⟩ := score_player_runs_spec k board0
          player hk rest counts hlen htail
        refine ⟨counts', heq, hlen', ?_⟩
        intro i hi a b hab
        rw [hpt i hi a b hab, List.countP_cons]
        have hpred : player_slot k board0 player i (rp, cells) = false := by
          rw [player_slot]
          dsimp only
          rw [hv]
          simp
        rw [hpred, if_neg (by simp)]
        rfl
    · rw [if_neg hrp]
      obtain ⟨counts', heq, hlen', hpt⟩ := score_player_runs_spec k board0
        player hk rest counts hlen htail
      refine ⟨counts', heq, hlen', ?_⟩
      intro i hi a b hab
      rw [hpt i hi a b hab, List.countP_cons]
      have hpred : player_slot k board0 player i (rp, cells) = false := by
        rw [player_slot]
        dsimp only
        have hne : (rp == player) = false := by
          simp only [beq_eq_false_iff_ne]
          exact hrp
        rw [hne]
        simp
      rw [hpred, if_neg (by simp)]
      rfl

/-- `score_opp_runs` adds, to slot 1 of each row `i`, the number of runs
selected by `opp_slot`. -/
lemma score_opp_runs_spec (k : Nat) (board_op : Board) (opp : Player)
    (hk : 3 ≤ k) :
    ∀ (rs : List (Player × List Position)) (counts : List (List Nat)),
      counts.length = k - 2 →
      (∀ r ∈ rs, (can_win_from_pieces k board_op r.2).isSome ∧
        2 ≤ r.2.length ∧ r.2.length < k) →
      ∃ counts', score_opp_runs k board_op opp counts rs = some counts' ∧
        counts'.length = k - 2 ∧
        ∀ i, i < k - 2 → ∀ a b, counts.getD i [] = [a, b] →
          counts'.getD i [] = [a, b + rs.countP (opp_slot k board_op opp i)]
  | [], counts, hlen, _ =>
    ⟨counts, rfl, hlen, fun i _ a b hab => by rw [hab]; simp⟩
  | (rp, cells) :: rest, counts, hlen, hall => by
    rw [score_opp_runs]
    have htail : ∀ r ∈ rest, (can_win_from_pieces k board_op r.2).isSome ∧
        2 ≤ r.2.length ∧ r.2.length < k :=
      fun r hr => hall r (List.mem_cons_of_mem _ hr)
    by_cases hrp : rp = opp
    · rw [if_pos hrp]
      have hfacts := hall (rp, cells) (List.mem_cons_self _ _)
      obtain ⟨v, hv⟩ := Option.isSome_iff_exists.mp hfacts.1
      rw [hv]
      dsimp only
      cases v with
      | true =>
        rw [if_pos rfl]
        have h2 : 2 ≤ cells.length := hfacts.2.1
        have h3 : cells.length < k := hfacts.2.2
        by_cases h2len : cells.length ≠ 2
        · rw [if_pos h2len]
          have hpy : pyIdx counts.length
              ((k : Int) - (cells.length : Int) - 1) =
              some (k - cells.length - 1) := by
            rw [pyIdx_of_nonneg (by omega) (by rw [hlen]; push_cast; omega)]
            congr 1
            omega
          rw [bump, hpy]
          dsimp only
          set j0 := k - cells.length - 1 with hj0
          obtain ⟨counts', heq, hlen', hpt⟩ := score_opp_runs_spec k board_op
            opp hk rest
            (counts.set j0
              ((counts.getD j0 []).set 1 ((counts.getD j0 []).getD 1 0 + 1)))
            (by rw [List.length_set, hlen]) htail
          refine ⟨counts', heq, hlen', ?_⟩
          intro i hi a b hab
          have hj0lt : j0 < counts.length := by rw [hlen]; omega
          by_cases hij : i = j0
          · rw [hij] at hab ⊢
            have hmid : (counts.set j0
                ((counts.getD j0 []).set 1 ((counts.getD j0 []).getD 1 0 + 1))).getD
                  j0 [] = [a, b + 1] := by
              rw [List.getD_eq_getElem?_getD, List.getElem?_set_self,
                Option.getD_some]
              · rw [hab]
                rfl
              · exact hj0lt
            rw [hpt j0 (by omega) a (b + 1) hmid, List.countP_cons]
            have hlen3 : cells.length = k - j0 - 1 := by omega
            have hpred : opp_slot k board_op opp j0 (rp, cells) = true := by
              rw [opp_slot]
              dsimp only
              rw [hrp, hv, ← hlen3]
              have hne2 : (cells.length == 2) = false := by
                simp only [beq_eq_false_iff_ne]
                exact h2len
              rw [hne2]
              simp
            rw [hpred, if_pos rfl]
            have harith : b + 1 + List.countP (opp_slot k board_op opp j0) rest =
                b + (List.countP (opp_slot k board_op opp j0) rest + 1) := by
              omega
            rw [harith]
          · have hmid : (counts.set j0
                ((counts.getD j0 []).set 1 ((counts.getD j0 []).getD 1 0 + 1))).getD
                  i [] = [a, b] := by
              rw [List.getD_eq_getElem?_getD, List.getElem?_set_ne,
                ← List.getD_eq_getElem?_getD, hab]
              exact fun hc => hij hc.symm
            rw [hpt i hi a b hmid, List.countP_cons]
            have hpred : opp_slot k board_op opp i (rp, cells) = false := by
              rw [opp_slot]
              dsimp only
              have hne : (cells.length == k - i - 1) = false := by
                simp only [beq_eq_false_iff_ne]
                omega
              rw [hne]
              simp
            rw [hpred, if_neg (by simp)]
            rfl
        · rw [if_neg h2len]
          push_neg at h2len
          obtain ⟨counts', heq, hlen', hpt⟩ := score_opp_runs_spec k board_op
            opp hk rest counts hlen htail
          refine ⟨counts', heq, hlen', ?_⟩
          intro i hi a b hab
          rw [hpt i hi a b hab, List.countP_cons]
          have hpred : opp_slot k board_op opp i (rp, cells) = false := by
            rw [opp_slot]
            dsimp only
            rw [h2len]
            simp
          rw [hpred, if_neg (by simp)]
          rfl
      | false =>
        rw [if_neg (by simp)]
        obtain ⟨counts', heq, hlen', hpt⟩ := score_opp_runs_spec k board_op
          opp hk rest counts hlen htail
        refine ⟨counts', heq, hlen', ?_⟩
        intro i hi a b hab
        rw [hpt i hi a b hab, List.countP_cons]
        have hpred : opp_slot k board_op opp i (rp, cells) = false := by
          rw [opp_slot]
          dsimp only
          rw [hv]
          simp
        rw [hpred, if_neg (by simp)]
        rfl
    · rw [if_neg hrp]
      obtain ⟨counts', heq, hlen', hpt⟩ := score_opp_runs_spec k board_op
        opp hk rest counts hlen htail
      refine ⟨counts', heq, hlen', ?_⟩
      intro i hi a b hab
      rw [hpt i hi a b hab, List.countP_cons]
      have hpred : opp_slot k board_op opp i (rp, cells) = false := by
        rw [opp_slot]
        dsimp only
        have hne : (rp == opp) = false := by
          simp only [beq_eq_false_iff_ne]
          exact hrp
        rw [hne]
        simp
      rw [hpred, if_neg (by simp)]
      rfl

/-- If the opponent loop returns `(False, cnts)` then `cnts = []` and some
listed opponent (≠ player) could win immediately after `player`'s drop. -/
lemma score_opponents_false (k num_players : Nat) (board : Board)
    (player : Player) (column : Int) :
    ∀ (opps : List Player) (counts cnts : List (List Nat)),
      score_opponents k num_players board player column counts opps =
        some (false, cnts) →
      cnts = [] ∧ ∃ nb, copy_and_drop_piece board player column = some nb ∧
        ∃ opp ∈ opps, opp ≠ player ∧ can_win_now k nb opp = some true
  | [], counts, cnts, h => absurd h (by rw [score_opponents]; simp)
  | opp :: rest, counts, cnts, h => by
    rw [score_opponents] at h
    by_cases hop : opp = player
    · rw [if_pos hop] at h
      obtain ⟨hc, nb, hnb, o, ho, hone, hwin⟩ :=
        score_opponents_false k num_players board player column rest counts cnts h
      exact ⟨hc, nb, hnb, o, List.mem_cons_of_mem _ ho, hone, hwin⟩
    · rw [if_neg hop] at h
      cases hnb : copy_and_drop_piece board player column with
      | none => rw [hnb] at h; exact Option.noConfusion h
      | some nb =>
        rw [hnb] at h
        dsimp only at h
        cases hcw : can_win_now k nb opp with
        | none => rw [hcw] at h; exact Option.noConfusion h
        | some w =>
          rw [hcw] at h
          cases w with
          | true =>
            dsimp only at h
            have hpair : ((false : Bool), ([] : List (List Nat))) =
                (false, cnts) := Option.some_inj.mp h
            exact ⟨(Prod.mk.injEq _ _ _ _ ▸ hpair).2.symm ▸ rfl, nb, rfl, opp,
              List.mem_cons_self _ _, hop, hcw⟩
          | false =>
            dsimp only at h
            cases hob : copy_and_drop_piece board opp column with
            | none => rw [hob] at h; exact Option.noConfusion h
            | some bO =>
              rw [hob] at h
              dsimp only at h
              cases hso : score_opp_runs k bO opp counts (pieces_in_a_row bO) with
              | none => rw [hso] at h; exact Option.noConfusion h
              | some counts2 =>
                rw [hso] at h
                dsimp only at h
                obtain ⟨hc, nb', hnb', o, ho, hone, hwin⟩ :=
                  score_opponents_false k num_players board player column rest
                    counts2 cnts h
                exact ⟨hc, nb', hnb.symm.trans hnb', o,
                  List.mem_cons_of_mem _ ho, hone, hwin⟩

/-- Under the no-immediate-win precondition, the opponent loop returns
`(False, [])` as soon as some listed opponent could win immediately after
`player`'s drop. -/
lemma score_opponents_win (k num_players : Nat) (board : Board)
    (player : Player) (column : Int) (hrect : Rect board) (hk : 3 ≤ k)
    (hcells : ∀ row ∈ board, ∀ x ∈ row, x ≤ num_players)
    (hfree : column ∈ get_free_columns board)
    (hP : ∀ q ∈ List.range' 1 num_players, ∀ c ∈ get_free_columns board,
      ∀ b ∈ copy_and_drop_piece board q c, end_of_game k b ≠ (q : Int))
    (nb : Board) (hnb : copy_and_drop_piece board player column = some nb) :
    ∀ (opps : List Player), (∀ o ∈ opps, o ∈ List.range' 1 num_players) →
      ∀ counts : List (List Nat), counts.length = k - 2 →
      (∃ o ∈ opps, o ≠ player ∧ can_win_now k nb o = some true) →
      score_opponents k num_players board player column counts opps =
        some (false, [])
  | [], _, counts, _, hex => absurd hex (by simp)
  | opp :: rest, hopps, counts, hlen, hex => by
    rw [score_opponents]
    by_cases hop : opp = player
    · rw [if_pos hop]
      obtain ⟨o, ho, hone, hwin⟩ := hex
      rcases List.mem_cons.mp ho with hoo | hor
      · exact absurd (hoo.trans hop) hone
      · exact score_opponents_win k num_players board player column hrect hk
          hcells hfree hP nb hnb rest
          (fun o' ho' => hopps o' (List.mem_cons_of_mem _ ho')) counts hlen
          ⟨o, hor, hone, hwin⟩
    · rw [if_neg hop]
      rw [hnb]
      dsimp only
      obtain ⟨cw, hcw⟩ := Option.isSome_iff_exists.mp
        (can_win_now_isSome k nb opp
          (post_board_facts board hrect player column hfree nb
            (Option.mem_def.mpr hnb)).1)
      rw [hcw]
      cases cw with
      | true => rfl
      | false =>
        dsimp only
        obtain ⟨o, ho, hone, hwin⟩ := hex
        have hor : o ∈ rest := by
          rcases List.mem_cons.mp ho with hoo | hor
          · subst hoo
            rw [hcw] at hwin
            exact absurd (Option.some_inj.mp hwin) (by simp)
          · exact hor
        obtain ⟨bO, hbO⟩ := copy_and_drop_isSome board opp hrect
          (free_columns_bounds board column hfree).1
          (free_columns_bounds board column hfree).2
        rw [hbO]
        dsimp only
        obtain ⟨hrectO, hOnr, hOnc⟩ :=
          post_board_facts board hrect opp column hfree bO (Option.mem_def.mpr hbO)
        have hbnds := post_runs_bounds k num_players board hrect hcells column
          hfree hP opp (hopps opp (List.mem_cons_self _ _)) column hfree bO hOnr
          hOnc bO (Option.mem_def.mpr hbO)
        obtain ⟨counts2, hso, hlen2⟩ := score_opp_runs_some k bO opp hk
          (pieces_in_a_row bO) counts hlen (fun r hr => hbnds r hr)
        rw [hso]
        exact score_opponents_win k num_players board player column hrect hk
          hcells hfree hP nb hnb rest
          (fun o' ho' => hopps o' (List.mem_cons_of_mem _ ho')) counts2 hlen2
          ⟨o, hor, hone, hwin⟩

/-- When no listed opponent can win immediately after `player`'s drop, the
opponent loop returns `(True, counts')` and adds, to slot 1 of each row
`i`, each opponent's `opp_slot` count on that opponent's own post-drop
board. -/
lemma score_opponents_spec (k num_players : Nat) (board : Board)
    (player : Player) (column : Int) (hrect : Rect board) (hk : 3 ≤ k)
    (hcells : ∀ row ∈ board, ∀ x ∈ row, x ≤ num_players)
    (hfree : column ∈ get_free_columns board)
    (hP : ∀ q ∈ List.range' 1 num_players, ∀ c ∈ get_free_columns board,
      ∀ b ∈ copy_and_drop_piece board q c, end_of_game k b ≠ (q : Int))
    (nb : Board) (hnb : copy_and_drop_piece board player column = some nb) :
    ∀ (opps : List Player), (∀ o ∈ opps, o ∈ List.range' 1 num_players) →
      (∀ o ∈ opps, o ≠ player → can_win_now k nb o = some false) →
      ∀ counts : List (List Nat), counts.length = k - 2 →
      ∃ counts', score_opponents k num_players board player column counts opps =
          some (true, counts') ∧
        counts'.length = k - 2 ∧
        ∀ i, i < k - 2 → ∀ a b, counts.getD i [] = [a, b] →
          counts'.getD i [] =
            [a, b + opp_slot_total k board player column i opps]
  | [], _, _, counts, hlen =>
    ⟨counts, rfl, hlen, fun i _ a b hab => by
      rw [hab, opp_slot_total]
      simp⟩
  | opp :: rest, hopps, hnowin, counts, hlen => by
    rw [score_opponents]
    by_cases hop : opp = player
    · rw [if_pos hop]
      obtain ⟨counts', heq, hlen', hpt⟩ := score_opponents_spec k num_players
        board player column hrect hk hcells hfree hP nb hnb rest
        (fun o' ho' => hopps o' (List.mem_cons_of_mem _ ho'))
        (fun o' ho' => hnowin o' (List.mem_cons_of_mem _ ho')) counts hlen
      refine ⟨counts', heq, hlen', ?_⟩
      intro i hi a b hab
      rw [hpt i hi a b hab, opp_slot_total, if_pos hop, Nat.zero_add]
    · rw [if_neg hop]
      rw [hnb]
      dsimp only
      rw [hnowin opp (List.mem_cons_self _ _) hop]
      dsimp only
      obtain ⟨bO, hbO⟩ := copy_and_drop_isSome board opp hrect
        (free_columns_bounds board column hfree).1
        (free_columns_bounds board column hfree).2
      rw [hbO]
      dsimp only
      obtain ⟨hrectO, hOnr, hOnc⟩ :=
        post_board_facts board hrect opp column hfree bO (Option.mem_def.mpr hbO)
      have hbnds := post_runs_bounds k num_players board hrect hcells column
        hfree hP opp (hopps opp (List.mem_cons_self _ _)) column hfree bO hOnr
        hOnc bO (Option.mem_def.mpr hbO)
      obtain ⟨counts2, hso, hlen2, hpt2⟩ := score_opp_runs_spec k bO opp hk
        (pieces_in_a_row bO) counts hlen (fun r hr => hbnds r hr)
      rw [hso]
      dsimp only
      obtain ⟨counts', heq, hlen', hpt⟩ := score_opponents_spec k num_players
        board player column hrect hk hcells hfree hP nb hnb rest
        (fun o' ho' => hopps o' (List.mem_cons_of_mem _ ho'))
        (fun o' ho' => hnowin o' (List.mem_cons_of_mem _ ho')) counts2 hlen2
      refine ⟨counts', heq, hlen', ?_⟩
      intro i hi a b hab
      have hmid := hpt2 i hi a b hab
      rw [hpt i hi a
        (b + (pieces_in_a_row bO).countP (opp_slot k bO opp i)) hmid,
        opp_slot_total, if_neg hop, hbO, Option.getD_some, Nat.add_assoc]

/-- C3 (amended): under `cpu_player_hard`'s precondition (no registered
player can win by a single drop on the original board), `player`'s drop in
a free column succeeds, and: `column_score` returns `(False, [])` when
some opponent could win immediately by a single drop after `player`'s
drop; when no opponent can, it returns `(True, counts)` with `k - 2` rows
where row `k - L - 1` (for run lengths `2 ≤ L ≤ k - 1`) is the pair of the
player's count of extendable length-L runs — extendability checked
against the pre-drop board — and the opponents' total of extendable
length-L runs (length 2 excluded) on each opponent's own post-drop board;
and conversely a `(False, cnts)` result forces `cnts = []` and an
immediately-winning opponent. -/
theorem c3_column_score (k num_players : Nat) (board : Board)
    (player : Player) (column : Int) (hrect : Rect board) (hk : 3 ≤ k)
    (hplayer : player ∈ List.range' 1 num_players)
    (hcells : ∀ row ∈ board, ∀ x ∈ row, x ≤ num_players)
    (hfree : column ∈ get_free_columns board)
    (hP : ∀ q ∈ List.range' 1 num_players, ∀ c ∈ get_free_columns board,
      ∀ b ∈ copy_and_drop_piece board q c, end_of_game k b ≠ (q : Int)) :
    ∃ nb, copy_and_drop_piece board player column = some nb ∧
      ((∃ opp ∈ (List.range num_players).map (· + 1), opp ≠ player ∧
          can_win_now k nb opp = some true) →
        column_score k num_players board player column = some (false, [])) ∧
      ((∀ opp ∈ (List.range num_players).map (· + 1), opp ≠ player →
          can_win_now k nb opp = some false) →
        ∃ counts, column_score k num_players board player column =
            some (true, counts) ∧
          counts.length = k - 2 ∧
          ∀ L, 2 ≤ L → L ≤ k - 1 →
            k - (k - L - 1) - 1 = L ∧
            counts.getD (k - L - 1) [] =
              [(pieces_in_a_row nb).countP
                  (player_slot k board player (k - L - 1)),
               opp_slot_total k board player column (k - L - 1)
                 ((List.range num_players).map (· + 1))]) ∧
      (∀ cnts, column_score k num_players board player column =
          some (false, cnts) → cnts = [] ∧
        ∃ opp ∈ (List.range num_players).map (· + 1), opp ≠ player ∧
          can_win_now k nb opp = some true) := by
  obtain ⟨nb, hnb⟩ := copy_and_drop_isSome board player hrect
    (free_columns_bounds board column hfree).1
    (free_columns_bounds board column hfree).2
  have hmemopps : ∀ o ∈ (List.range num_players).map (· + 1),
      o ∈ List.range' 1 num_players := by
    intro o ho
    obtain ⟨i, hi, hio⟩ := List.mem_map.mp ho
    rw [List.mem_range] at hi
    rw [List.mem_range'_1, ← hio]
    omega
  have hbnds := post_runs_bounds k num_players board hrect hcells column hfree
    hP player hplayer column hfree board rfl rfl nb (Option.mem_def.mpr hnb)
  refine ⟨nb, hnb, ?_, ?_, ?_⟩
  · intro hex
    rw [column_score, hnb]
    dsimp only
    obtain ⟨counts1, hsc, hlen1⟩ := score_player_runs_some k board player hk
      (pieces_in_a_row nb) (List.replicate (k - 2) [0, 0])
      (by rw [List.length_replicate]) (fun r hr => hbnds r hr)
    rw [hsc]
    dsimp only
    exact score_opponents_win k num_players board player column hrect hk hcells
      hfree hP nb hnb ((List.range num_players).map (· + 1)) hmemopps counts1
      hlen1 hex
  · intro hall
    rw [column_score, hnb]
    dsimp only
    obtain ⟨counts1, hsc, hlen1, hpt1⟩ := score_player_runs_spec k board player
      hk (pieces_in_a_row nb) (List.replicate (k - 2) [0, 0])
      (by rw [List.length_replicate]) (fun r hr => hbnds r hr)
    rw [hsc]
    dsimp only
    obtain ⟨counts', heq, hlen', hpt⟩ := score_opponents_spec k num_players
      board player column hrect hk hcells hfree hP nb hnb
      ((List.range num_players).map (· + 1)) hmemopps hall counts1 hlen1
    refine ⟨counts', heq, hlen', ?_⟩
    intro L h2L hLk
    have hi : k - L - 1 < k - 2 := by omega
    have hrep : (List.replicate (k - 2) ([0, 0] : List Nat)).getD
        (k - L - 1) [] = [0, 0] := by
      rw [List.getD_eq_getElem?_getD, List.getElem?_replicate, if_pos hi]
      rfl
    have h1 := hpt1 (k - L - 1) hi 0 0 hrep
    have h2 := hpt (k - L - 1) hi
      (0 + (pieces_in_a_row nb).countP (player_slot k board player (k - L - 1)))
      0 h1
    refine ⟨by omega, ?_⟩
    rw [h2, Nat.zero_add, Nat.zero_add]
  · intro cnts hcs
    rw [column_score, hnb] at hcs
    dsimp only at hcs
    cases hsc : score_player_runs k board player (List.replicate (k - 2) [0, 0])
        (pieces_in_a_row nb) with
    | none => rw [hsc] at hcs; exact Option.noConfusion hcs
    | some counts1 =>
      rw [hsc] at hcs
      dsimp only at hcs
      obtain ⟨hc, nb', hnb', o, ho, hone, hwin⟩ := score_opponents_false
        k num_players board player column ((List.range num_players).map (· + 1))
        counts1 cnts hcs
      have hnbeq : nb' = nb := Option.some_inj.mp (hnb'.symm.trans hnb)
      exact ⟨hc, o, ho, hone, hnbeq ▸ hwin⟩

/-- C3 witness: the hypotheses of `c3_column_score` hold on the empty 3×3
board with `k = 4`, two players, player 1 and column 2. -/
theorem c3_witness :
    Rect [[0,0,0],[0,0,0],[0,0,0]] ∧
    (2 : Int) ∈ get_free_columns [[0,0,0],[0,0,0],[0,0,0]] ∧
    ∃ nb, copy_and_drop_piece [[0,0,0],[0,0,0],[0,0,0]] 1 2 = some nb ∧
      ((∃ opp ∈ (List.range 2).map (· + 1), opp ≠ 1 ∧
          can_win_now 4 nb opp = some true) →
        column_score 4 2 [[0,0,0],[0,0,0],[0,0,0]] 1 2 = some (false, [])) ∧
      ((∀ opp ∈ (List.range 2).map (· + 1), opp ≠ 1 →
          can_win_now 4 nb opp = some false) →
        ∃ counts, column_score 4 2 [[0,0,0],[0,0,0],[0,0,0]] 1 2 =
            some (true, counts) ∧
          counts.length = 4 - 2 ∧
          ∀ L, 2 ≤ L → L ≤ 4 - 1 →
            4 - (4 - L - 1) - 1 = L ∧
            counts.getD (4 - L - 1) [] =
              [(pieces_in_a_row nb).countP
                  (player_slot 4 [[0,0,0],[0,0,0],[0,0,0]] 1 (4 - L - 1)),
               opp_slot_total 4 [[0,0,0],[0,0,0],[0,0,0]] 1 2 (4 - L - 1)
                 ((List.range 2).map (· + 1))]) ∧
      (∀ cnts, column_score 4 2 [[0,0,0],[0,0,0],[0,0,0]] 1 2 =
          some (false, cnts) → cnts = [] ∧
        ∃ opp ∈ (List.range 2).map (· + 1), opp ≠ 1 ∧
          can_win_now 4 nb opp = some true) :=
  ⟨by decide, by decide,
    c3_column_score 4 2 [[0,0,0],[0,0,0],[0,0,0]] 1 2 (by decide) (by decide)
      (by decide) (by decide) (by decide) (by decide)⟩
